import Mathlib

/-!
# Verification of the blocked postings store, cursors and DAAT search

This development embeds the core of the `Web-Search-Engine` repository in
Lean 4 and proves (or refutes) the testable properties of its design
document.  The embedded components are:

* `engine/listio.py` — `VarByteCodec`, `ListWriter.add_term`,
  `ListReader.read_postings` / `iter_blocks` / `seek_block_ge`;
* `engine/daat.py` / `engine/postings_cursor.py` — `PostingsCursor` and the
  DAAT boolean operators;
* `engine/daat_ranker.py` — BM25 top-K ranking;
* `engine/parser.py` — `Parser.parse_line` / `Parser.tokenize`;
* `crawl/parse.py` and `HW1/crawl/parse.py` — URL path canonicalization;
* `HW1/crawl/crawler.py` — the frontier priority heap.

The postings file is modelled as a list of byte values (`List Nat`), the
machine integers of the Python sources as `Nat`/`Int`, dictionaries as
association lists, and fallible operations (`struct.pack` overflow, the
negative-gap `ValueError` of the VarByte encoder) as `Option`.
-/

namespace SearchEngine

/-! ## VarByte codec (`engine/listio.py`, class `VarByteCodec`) -/

namespace VarByteCodec

/-- `VarByteCodec._vb_encode_number`: encode a non-negative integer as a
VarByte group, 7 bits per byte, least significant first; the MSB (0x80) of
the last byte marks termination. -/
def vb_encode_number (x : Nat) : List Nat :=
  if x >>> 7 = 0 then
    [(x &&& 0x7F) ||| 0x80]
  else
    (x &&& 0x7F) :: vb_encode_number (x >>> 7)
  termination_by x
  decreasing_by
    simp only [Nat.shiftRight_eq_div_pow] at *
    exact Nat.div_lt_self (by omega) (by norm_num)

/-- The loop body of `VarByteCodec._vb_decode_stream`, carrying the
accumulator `cur` and the current `shift`.  A dangling partial group at the
end of the stream is dropped ("ignore for robustness" in the source). -/
def vb_decode_aux : List Nat → Nat → Nat → List Nat
  | [], _, _ => []
  | b :: bs, cur, shift =>
    if b &&& 0x80 ≠ 0 then
      (cur ||| ((b &&& 0x7F) <<< shift)) :: vb_decode_aux bs 0 0
    else
      vb_decode_aux bs (cur ||| ((b &&& 0x7F) <<< shift)) (shift + 7)

/-- `VarByteCodec._vb_decode_stream`. -/
def vb_decode_stream (data : List Nat) : List Nat :=
  vb_decode_aux data 0 0

/-- `VarByteCodec.encode_freqs`: frequencies are VarByte-encoded directly
(the source's negativity check is vacuous over `Nat`). -/
def encode_freqs (freqs : List Nat) : List Nat :=
  freqs.flatMap vb_encode_number

/-- `VarByteCodec.decode_freqs`. -/
def decode_freqs (data : List Nat) : List Nat :=
  vb_decode_stream data

/-- The loop of `VarByteCodec.encode_docids`: encode the gaps of `docids`
relative to the running predecessor; a negative gap raises `ValueError`
(modelled as `none`). -/
def encode_docids_go : List Nat → Nat → Option (List Nat)
  | [], _ => some []
  | d :: ds, prev =>
    let gap : Int := (d : Int) - (prev : Int)
    if gap < 0 then none
    else do
      let rest ← encode_docids_go ds d
      return vb_encode_number gap.toNat ++ rest

/-- `VarByteCodec.encode_docids`: absolute docids to VarByte gaps relative
to `base` (the previous block's `last_docid`, 0 for the first block). -/
def encode_docids (docids : List Nat) (base : Nat) : Option (List Nat) :=
  if docids = [] then some [] else encode_docids_go docids base

/-- The prefix-sum loop of `VarByteCodec.decode_docids`. -/
def decode_docids_go : List Nat → Nat → List Nat
  | [], _ => []
  | g :: gs, prev => (prev + g) :: decode_docids_go gs (prev + g)

/-- `VarByteCodec.decode_docids`: VarByte gaps back to absolute docids. -/
def decode_docids (data : List Nat) (base : Nat) : List Nat :=
  decode_docids_go (vb_decode_stream data) base

/-- The integer value of one VarByte group: the low 7 bits of each byte,
least-significant chunk first — exactly how `_vb_decode_stream`
accumulates a group before its terminator byte. -/
def vb_group_val : List Nat → Nat
  | [] => 0
  | b :: bs => (b &&& 0x7F) + 128 * vb_group_val bs

/-- A terminated VarByte group: continuation bytes (high bit clear)
followed by a single terminator byte (high bit set). -/
def VbGroup (g : List Nat) : Prop :=
  ∃ g0 t, g = g0 ++ [t] ∧ (∀ b ∈ g0, b &&& 0x80 = 0) ∧ t &&& 0x80 ≠ 0

/-! ### Basic facts about the VarByte group format -/

theorem vb_encode_number_ne_nil (x : Nat) : vb_encode_number x ≠ [] := by
  rw [vb_encode_number]
  split <;> simp

theorem vb_encode_number_bytes_lt {x : Nat} : ∀ b ∈ vb_encode_number x, b < 256 := by
  induction x using vb_encode_number.induct with
  | case1 x h =>
    rw [vb_encode_number]
    simp only [h, if_pos]
    intro b hb
    simp only [List.mem_singleton] at hb
    subst hb
    have h7 : x &&& 0x7F < 128 := Nat.and_lt_two_pow x (show (0x7F:Nat) < 2 ^ 7 by norm_num)
    have : x &&& 0x7F ||| 0x80 < 2 ^ 8 :=
      Nat.or_lt_two_pow (show x &&& 0x7F < 2 ^ 8 by omega) (show (0x80:Nat) < 2 ^ 8 by norm_num)
    omega
  | case2 x h ih =>
    rw [vb_encode_number]
    simp only [h, if_neg]
    intro b hb
    rcases List.mem_cons.mp hb with rfl | hb
    · have : x &&& 0x7F < 128 := Nat.and_lt_two_pow x (show (0x7F:Nat) < 2 ^ 7 by norm_num)
      omega
    · exact ih b hb

/-- Disjoint-bit `or` is addition: the accumulator occupies the low `shift`
bits, the incoming 7-bit chunk sits above them. -/
theorem lor_shift_eq_add {cur m shift : Nat} (h : cur < 2 ^ shift) :
    cur ||| (m <<< shift) = cur + m * 2 ^ shift := by
  rw [Nat.shiftLeft_eq]
  rw [Nat.lor_comm]
  have := Nat.mul_add_lt_is_or h m
  rw [Nat.mul_comm (2 ^ shift) m] at this
  omega

theorem vb_decode_aux_encode (x : Nat) (rest : List Nat) :
    ∀ cur shift, cur < 2 ^ shift →
      vb_decode_aux (vb_encode_number x ++ rest) cur shift
        = (cur + x * 2 ^ shift) :: vb_decode_aux rest 0 0 := by
  induction x using vb_encode_number.induct with
  | case1 x h =>
    intro cur shift hcur
    rw [vb_encode_number, if_pos h, List.singleton_append]
    have hx : x < 128 := by
      have hdiv := Nat.shiftRight_eq_div_pow x 7
      rw [h] at hdiv
      have hlt := (Nat.div_eq_zero_iff (show 0 < 2 ^ 7 by norm_num)).mp hdiv.symm
      omega
    have hterm : ∀ y < 128, ((y ||| 0x80) &&& 0x80 ≠ 0) ∧ ((y ||| 0x80) &&& 0x7F = y) := by decide
    have h7 : x &&& 0x7F = x := by
      have hmod : x % 2 ^ 7 = x := Nat.mod_eq_of_lt (by omega)
      calc x &&& 0x7F = x % 2 ^ 7 := Nat.and_pow_two_sub_one_eq_mod x 7
        _ = x := hmod
    rw [h7, vb_decode_aux, if_pos (hterm x hx).1, (hterm x hx).2]
    rw [lor_shift_eq_add hcur]
  | case2 x h ih =>
    intro cur shift hcur
    rw [vb_encode_number, if_neg h, List.cons_append]
    have h7lt : x &&& 0x7F < 128 := Nat.and_lt_two_pow x (show (0x7F:Nat) < 2 ^ 7 by norm_num)
    have hnoterm : (x &&& 0x7F) &&& 0x80 = 0 := by
      rw [Nat.land_assoc, (by decide : (0x7F &&& 0x80 : Nat) = 0), Nat.and_zero]
    rw [vb_decode_aux, if_neg (by simp [hnoterm])]
    rw [lor_shift_eq_add hcur]
    rw [Nat.land_assoc, (by decide : (0x7F &&& 0x7F : Nat) = 0x7F)]
    have hcur' : cur + (x &&& 0x7F) * 2 ^ shift < 2 ^ (shift + 7) := by
      have : cur + (x &&& 0x7F) * 2 ^ shift < 2 ^ shift + 127 * 2 ^ shift := by
        have := h7lt
        nlinarith [Nat.two_pow_pos shift]
      calc cur + (x &&& 0x7F) * 2 ^ shift < 2 ^ shift + 127 * 2 ^ shift := this
        _ = 128 * 2 ^ shift := by ring
        _ = 2 ^ (shift + 7) := by rw [pow_add]; ring
    rw [ih _ _ hcur']
    congr 1
    have hmod : x &&& 0x7F = x % 128 := Nat.and_pow_two_sub_one_eq_mod x 7
    have hdiv : x >>> 7 = x / 128 := Nat.shiftRight_eq_div_pow x 7
    rw [hmod, hdiv, pow_add]
    have := Nat.div_add_mod x 128
    ring_nf
    nlinarith [Nat.div_add_mod x 128, Nat.two_pow_pos shift]

/-- Round trip for a single VarByte group at the head of a stream. -/
theorem vb_decode_stream_encode_append (x : Nat) (rest : List Nat) :
    vb_decode_stream (vb_encode_number x ++ rest) = x :: vb_decode_stream rest := by
  have := vb_decode_aux_encode x rest 0 0 (by norm_num)
  simpa [vb_decode_stream] using this

/-- Trailing bytes with the high bit clear never emit a value. -/
theorem vb_decode_aux_no_terminator {data : List Nat}
    (h : ∀ b ∈ data, b &&& 0x80 = 0) : ∀ cur shift, vb_decode_aux data cur shift = [] := by
  induction data with
  | nil => intro cur shift; rfl
  | cons b bs ih =>
    intro cur shift
    rw [vb_decode_aux]
    rw [if_neg (by simp [h b (List.mem_cons_self b bs)])]
    exact ih (fun b hb => h b (List.mem_cons_of_mem _ hb)) _ _

/-- Full round trip for a list of integers. -/
theorem vb_decode_stream_flatMap (xs : List Nat) :
    vb_decode_stream (xs.flatMap vb_encode_number) = xs := by
  induction xs with
  | nil => rfl
  | cons x xs ih =>
    rw [List.flatMap_cons, vb_decode_stream_encode_append, ih]

theorem decode_freqs_encode_freqs (freqs : List Nat) :
    decode_freqs (encode_freqs freqs) = freqs := by
  simpa [decode_freqs, encode_freqs] using vb_decode_stream_flatMap freqs

/-- Decoding one terminated group emits its value (shifted into the
accumulator) and restarts the accumulator for the rest of the stream. -/
theorem vb_decode_aux_group (t : Nat) (hlast : t &&& 0x80 ≠ 0) (rest : List Nat) :
    ∀ (g0 : List Nat), (∀ b ∈ g0, b &&& 0x80 = 0) →
      ∀ cur shift, cur < 2 ^ shift →
      vb_decode_aux (g0 ++ t :: rest) cur shift
        = (cur + vb_group_val (g0 ++ [t]) * 2 ^ shift) :: vb_decode_aux rest 0 0 := by
  intro g0
  induction g0 with
  | nil =>
    intro _ cur shift hcur
    rw [List.nil_append, vb_decode_aux, if_pos hlast, lor_shift_eq_add hcur]
    have hv : vb_group_val ([] ++ [t]) = t &&& 0x7F := by
      simp [vb_group_val]
    rw [hv]
  | cons b g0 ih =>
    intro h0 cur shift hcur
    have hb : b &&& 0x80 = 0 := h0 b (List.mem_cons_self b g0)
    rw [List.cons_append, vb_decode_aux, if_neg (by simp [hb]), lor_shift_eq_add hcur]
    have h2 : b &&& 0x7F ≤ 127 := Nat.and_le_right
    have hp : 2 ^ (shift + 7) = 128 * 2 ^ shift := by
      rw [Nat.pow_add]
      ring
    have hcur2 : cur + (b &&& 0x7F) * 2 ^ shift < 2 ^ (shift + 7) := by
      have hm : (b &&& 0x7F) * 2 ^ shift ≤ 127 * 2 ^ shift :=
        Nat.mul_le_mul_right _ h2
      omega
    rw [ih (fun x hx => h0 x (List.mem_cons_of_mem _ hx)) _ _ hcur2]
    have hgv : vb_group_val ((b :: g0) ++ [t])
        = (b &&& 0x7F) + 128 * vb_group_val (g0 ++ [t]) := by
      rw [List.cons_append, vb_group_val]
    rw [hgv, hp]
    congr 1
    ring

/-- `_vb_decode_stream` maps any stream presented as terminated groups plus
a dangling unterminated tail to the per-group values, in order; the tail is
silently ignored. -/
theorem vb_decode_stream_groups :
    ∀ (gs : List (List Nat)) (trailing : List Nat),
      (∀ g ∈ gs, VbGroup g) → (∀ b ∈ trailing, b &&& 0x80 = 0) →
      vb_decode_stream (gs.flatten ++ trailing) = gs.map vb_group_val := by
  intro gs
  induction gs with
  | nil =>
    intro trailing _ ht
    rw [List.flatten_nil, List.nil_append, List.map_nil, vb_decode_stream]
    exact vb_decode_aux_no_terminator ht 0 0
  | cons g gs ih =>
    intro trailing hg ht
    obtain ⟨g0, t, hgeq, h0, hlast⟩ := hg g (List.mem_cons_self g gs)
    rw [List.flatten_cons, List.append_assoc, hgeq, List.append_assoc,
      List.singleton_append, vb_decode_stream,
      vb_decode_aux_group t hlast _ g0 h0 0 0 (by norm_num)]
    have htail := ih trailing (fun g2 hg2 => hg g2 (List.mem_cons_of_mem _ hg2)) ht
    rw [vb_decode_stream] at htail
    rw [htail, List.map_cons]
    simp

/-- Every byte stream splits into terminated groups plus a terminator-free
dangling tail, so `_vb_decode_stream` is total on arbitrary data. -/
theorem vb_stream_decomposes (data : List Nat) :
    ∃ (gs : List (List Nat)) (trailing : List Nat),
      data = gs.flatten ++ trailing ∧ (∀ g ∈ gs, VbGroup g) ∧
      ∀ b ∈ trailing, b &&& 0x80 = 0 := by
  induction data with
  | nil => exact ⟨[], [], rfl, by simp, by simp⟩
  | cons b bs ih =>
    obtain ⟨gs, trailing, heq, hg, ht⟩ := ih
    by_cases hb : b &&& 0x80 ≠ 0
    · refine ⟨[b] :: gs, trailing, ?_, ?_, ht⟩
      · rw [List.flatten_cons, List.append_assoc, List.singleton_append, heq]
      · intro g2 hg2
        rcases List.mem_cons.mp hg2 with rfl | hg2
        · exact ⟨[], b, rfl, by simp, hb⟩
        · exact hg g2 hg2
    · push_neg at hb
      cases gs with
      | nil =>
        refine ⟨[], b :: trailing, ?_, by simp, ?_⟩
        · rw [List.flatten_nil, List.nil_append] at heq
          rw [List.flatten_nil, List.nil_append, heq]
        · intro x hx
          rcases List.mem_cons.mp hx with rfl | hx
          · exact hb
          · exact ht x hx
      | cons g gs =>
        obtain ⟨g0, t, hgeq, h0, hlast⟩ := hg g (List.mem_cons_self g gs)
        refine ⟨(b :: g) :: gs, trailing, ?_, ?_, ht⟩
        · rw [List.flatten_cons, List.append_assoc] at heq
          rw [List.flatten_cons, List.append_assoc, List.cons_append, heq]
        · intro g2 hg2
          rcases List.mem_cons.mp hg2 with rfl | hg2
          · refine ⟨b :: g0, t, by rw [hgeq, List.cons_append], ?_, hlast⟩
            intro x hx
            rcases List.mem_cons.mp hx with rfl | hx
            · exact hb
            · exact h0 x hx
          · exact hg g2 (List.mem_cons_of_mem _ hg2)

end VarByteCodec

/-! ## Raw codec: 4-byte little-endian integers (`struct.pack("<I", ·)`) -/

/-- `struct.pack("<I", x)`: little-endian `u32`; raises `struct.error`
(modelled as `none`) unless `0 ≤ x < 2^32`. -/
def pack_u32 (x : Nat) : Option (List Nat) :=
  if x < 2 ^ 32 then
    some [x % 256, x / 256 % 256, x / 256 ^ 2 % 256, x / 256 ^ 3 % 256]
  else none

/-- Packing a whole list of `u32`s back to back (the raw writer's loop). -/
def pack_u32_list : List Nat → Option (List Nat)
  | [] => some []
  | x :: xs => do
    let b ← pack_u32 x
    let rest ← pack_u32_list xs
    return b ++ rest

/-- `struct.unpack("<" + "I" * (len(buf) // 4), buf)`: decode consecutive
little-endian `u32`s, one per 4-byte group. -/
def unpack_u32s : List Nat → List Nat
  | b0 :: b1 :: b2 :: b3 :: rest =>
    (b0 + 256 * b1 + 256 ^ 2 * b2 + 256 ^ 3 * b3) :: unpack_u32s rest
  | _ => []

theorem pack_u32_isSome {x : Nat} (h : x < 2 ^ 32) :
    pack_u32 x = some [x % 256, x / 256 % 256, x / 256 ^ 2 % 256, x / 256 ^ 3 % 256] := by
  unfold pack_u32
  rw [if_pos h]

theorem pack_u32_length {x : Nat} {b : List Nat} (h : pack_u32 x = some b) :
    b.length = 4 := by
  unfold pack_u32 at h
  split at h
  · cases h; rfl
  · cases h

theorem unpack_pack_u32 {x : Nat} {b : List Nat} (h : pack_u32 x = some b) (rest : List Nat) :
    unpack_u32s (b ++ rest) = x :: unpack_u32s rest := by
  unfold pack_u32 at h
  split at h
  · cases h
    rename_i hx
    simp only [List.cons_append, List.nil_append, unpack_u32s]
    congr 1
    omega
  · cases h

theorem pack_u32_list_length {xs : List Nat} {b : List Nat}
    (h : pack_u32_list xs = some b) : b.length = 4 * xs.length := by
  induction xs generalizing b with
  | nil =>
    rw [pack_u32_list] at h
    cases h
    rfl
  | cons x xs ih =>
    rw [pack_u32_list] at h
    simp only [Option.bind_eq_bind, Option.bind_eq_some, Option.pure_def,
      Option.some.injEq] at h
    obtain ⟨b0, hb0, bs, hbs, rfl⟩ := h
    rw [List.length_append, pack_u32_length hb0, ih hbs, List.length_cons]
    ring

theorem unpack_pack_u32_list {xs : List Nat} {b : List Nat}
    (h : pack_u32_list xs = some b) (rest : List Nat) :
    unpack_u32s (b ++ rest) = xs ++ unpack_u32s rest := by
  induction xs generalizing b with
  | nil =>
    rw [pack_u32_list] at h
    cases h
    rfl
  | cons x xs ih =>
    rw [pack_u32_list] at h
    simp only [Option.bind_eq_bind, Option.bind_eq_some, Option.pure_def,
      Option.some.injEq] at h
    obtain ⟨b0, hb0, bs, hbs, rfl⟩ := h
    rw [List.append_assoc, unpack_pack_u32 hb0, ih hbs]
    rfl

/-! ## Blocked postings writer and reader (`engine/listio.py`) -/

/-- A per-block directory record of a lexicon entry. -/
structure Block where
  offset : Nat
  doc_bytes : Nat
  freq_bytes : Nat
  last_docid : Nat
deriving Repr, DecidableEq, Inhabited

/-- A lexicon entry as returned by `ListWriter.add_term`. -/
structure LexEntry where
  offset : Nat
  df : Nat
  nblocks : Nat
  blocks : List Block
  codec : String
deriving Repr, DecidableEq, Inhabited

/-- Split a list into consecutive chunks of size `B`
(`items[i:i+self.block_size]` for `i in range(0, df, block_size)`); the
callers guarantee `0 < B` (`range` with step 0 raises in the source). -/
def chunkList (B : Nat) : List α → List (List α)
  | [] => []
  | x :: xs =>
    if B = 0 then []
    else (x :: xs).take B :: chunkList B ((x :: xs).drop B)
  termination_by xs => xs.length
  decreasing_by
    rename_i hB
    rw [List.length_drop]
    simp only [List.length_cons]
    omega

/-- Encode one block's docid and frequency segments for the given codec,
returning `(bytes, bytes_docs, bytes_freq)`.  `ListWriter.add_term` writes
`doc_bytes` then `freq_bytes` back-to-back; the raw branch packs each value
with `struct.pack("<I", ·)` and records `4 * len` for the segment sizes. -/
def encode_block (codec : String) (docids freqs : List Nat) (prevLast : Nat) :
    Option (List Nat × Nat × Nat) :=
  if codec = "varbyte" then do
    let doc_bytes ← VarByteCodec.encode_docids docids prevLast
    let freq_bytes := VarByteCodec.encode_freqs freqs
    return (doc_bytes ++ freq_bytes, doc_bytes.length, freq_bytes.length)
  else do
    let doc_bytes ← pack_u32_list docids
    let freq_bytes ← pack_u32_list freqs
    return (doc_bytes ++ freq_bytes, 4 * docids.length, 4 * freqs.length)

/-- The block-writing loop of `ListWriter.add_term`: emit each chunk at the
running byte position `pos`, threading `prev_last`, and collect the
per-block metadata. -/
def write_blocks (codec : String) :
    List (List (Nat × Nat)) → Nat → Nat → Option (List Nat × List Block)
  | [], _, _ => some ([], [])
  | chunk :: rest, prevLast, pos => do
    let docids := chunk.map Prod.fst
    let freqs := chunk.map Prod.snd
    let (bytes, bytes_docs, bytes_freq) ← encode_block codec docids freqs prevLast
    let last_docid := docids.getLastD 0
    let (tail, metas) ← write_blocks codec rest last_docid (pos + bytes.length)
    return (bytes ++ tail,
      { offset := pos, doc_bytes := bytes_docs, freq_bytes := bytes_freq,
        last_docid := last_docid } :: metas)

/-- `sorted(postings.items(), key=lambda x: x[0])`: a stable sort on the
docid component of the postings map's pairs. -/
def sortedItems (postings : List (Nat × Nat)) : List (Nat × Nat) :=
  postings.mergeSort (fun a b => a.1 ≤ b.1)

/-- `ListWriter.add_term`: sort the postings by docid, chunk into blocks,
write them after the current end of `file`, and return the updated file
with the lexicon entry. -/
def add_term (codec : String) (block_size : Nat) (file : List Nat)
    (postings : List (Nat × Nat)) : Option (List Nat × LexEntry) :=
  let items := sortedItems postings
  let df := items.length
  let start_offset := file.length
  do
    let (bytes, metas) ← write_blocks codec (chunkList block_size items) 0 start_offset
    return (file ++ bytes,
      { offset := start_offset, df := df, nblocks := metas.length,
        blocks := metas, codec := codec })

/-- `file.seek(off); file.read(len)` on the byte-list model of the postings
file. -/
def sliceAt (file : List Nat) (off len : Nat) : List Nat :=
  (file.drop off).take len

/-- The per-block read-and-decode step shared by `read_postings`,
`iter_blocks` and `seek_block_ge`: read the docid and frequency segments at
the block's offset and decode them with the entry's codec (the reader is
opened with `codec="auto"`, so `_entry_codec` returns `entry["codec"]`).
The raw branch unpacks `doc_bytes // 4` (resp. `freq_bytes // 4`)
little-endian `u32`s. -/
def read_block (codec : String) (file : List Nat) (b : Block) (base : Nat) :
    List Nat × List Nat :=
  let docs_buf := sliceAt file b.offset b.doc_bytes
  let freqs_buf := sliceAt file (b.offset + b.doc_bytes) b.freq_bytes
  if codec = "varbyte" then
    (VarByteCodec.decode_docids docs_buf base, VarByteCodec.decode_freqs freqs_buf)
  else
    (unpack_u32s docs_buf, unpack_u32s freqs_buf)

/-- The block loop of `ListReader.read_postings`, threading `prev_last`
through the recorded `last_docid` of each block. -/
def read_postings_go (codec : String) (file : List Nat) :
    List Block → Nat → List Nat × List Nat
  | [], _ => ([], [])
  | b :: bs, prev_last =>
    let (docids, freqs) := read_block codec file b prev_last
    let (restd, restf) := read_postings_go codec file bs b.last_docid
    (docids ++ restd, freqs ++ restf)

/-- `ListReader.read_postings`: full `(docids, freqs)` lists for an entry. -/
def read_postings (file : List Nat) (entry : LexEntry) : List Nat × List Nat :=
  read_postings_go entry.codec file entry.blocks 0

/-- The block loop of `ListReader.iter_blocks`. -/
def iter_blocks_go (codec : String) (file : List Nat) :
    List Block → Nat → List (Nat × List Nat × List Nat)
  | [], _ => []
  | b :: bs, prev_last =>
    (b.last_docid, read_block codec file b prev_last) :: iter_blocks_go codec file bs b.last_docid

/-- `ListReader.iter_blocks`: stream `(last_docid, docids, freqs)` per block. -/
def iter_blocks (file : List Nat) (entry : LexEntry) : List (Nat × List Nat × List Nat) :=
  iter_blocks_go entry.codec file entry.blocks 0

/-- The `lo`/`hi`/`ans` binary-search loop of `ListReader.seek_block_ge`
over the block directory, looking for the first block whose `last_docid`
is `≥ target`.  `hi` is an `Int` because it starts at `len(blocks) - 1`
and may step below zero. -/
def bsearch_last_ge (blocks : List Block) (target : Int) (lo : Nat) (hi : Int)
    (ans : Option Nat) : Option Nat :=
  if h : (lo : Int) ≤ hi then
    let mid := (((lo : Int) + hi) / 2).toNat
    if target ≤ ((blocks.getD mid default).last_docid : Int) then
      bsearch_last_ge blocks target lo ((mid : Int) - 1) (some mid)
    else
      bsearch_last_ge blocks target (mid + 1) hi ans
  else ans
  termination_by (hi + 1 - (lo : Int)).toNat
  decreasing_by
  · have hmid : (lo : Int) ≤ ((lo : Int) + hi) / 2 := by omega
    have hmid2 : ((lo : Int) + hi) / 2 ≤ hi := by omega
    simp only [mid] at *
    omega
  · have hmid : (lo : Int) ≤ ((lo : Int) + hi) / 2 := by omega
    have hmid2 : ((lo : Int) + hi) / 2 ≤ hi := by omega
    simp only [mid] at *
    omega

/-- The linear-scan fallback of `seek_block_ge` for entries without a block
directory (`enumerate(self.iter_blocks(entry))`). -/
def seek_linear (target : Int) :
    List (Nat × List Nat × List Nat) → Nat → Option (Nat × Nat × List Nat × List Nat)
  | [], _ => none
  | (last_docid, d, f) :: rest, idx =>
    if target ≤ (last_docid : Int) then some (idx, last_docid, d, f)
    else seek_linear target rest (idx + 1)

/-- The found-block tail of `seek_block_ge`: read the block at directory
index `ans`, using the previous block's recorded `last_docid` as gap base
(0 for the first block), with the defensive docid/frequency length check
(a `ValueError` in the source, modelled as `none`; unreachable for
writer-produced entries). -/
def seek_hit (file : List Nat) (entry : LexEntry) (ans : Nat) :
    Option (Nat × Nat × List Nat × List Nat) :=
  let b := entry.blocks.getD ans default
  let base := if ans > 0 then (entry.blocks.getD (ans - 1) default).last_docid else 0
  let df := read_block entry.codec file b base
  if df.1.length ≠ df.2.length then none
  else some (ans, b.last_docid, df.1, df.2)

/-- `ListReader.seek_block_ge`: locate the first block whose `last_docid ≥
target` via binary search on the block directory (falling back to a linear
scan over `iter_blocks` for entries without a directory), then read it. -/
def seek_block_ge (file : List Nat) (entry : LexEntry) (target : Int) :
    Option (Nat × Nat × List Nat × List Nat) :=
  if entry.blocks ≠ [] then
    match bsearch_last_ge entry.blocks target 0 ((entry.blocks.length : Int) - 1) none with
    | none => none
    | some ans => seek_hit file entry ans
  else
    seek_linear target (iter_blocks file entry) 0

/-! ## Postings cursor (`engine/daat.py` / `engine/postings_cursor.py`) -/

/-- The mutable state of a `PostingsCursor`: current block data, in-block
position `j`, and the exhausted flag.  `block_index` and `block_last` are
`Int` because they are initialized to `-1`. -/
structure PostingsCursor where
  block_index : Int
  block_last : Int
  docids : List Nat
  freqs : List Nat
  j : Nat
  exhausted : Bool
deriving Repr, DecidableEq, Inhabited

/-- `PostingsCursor.__init__`: load the first block via
`seek_block_ge(entry, -1)` unless `df == 0`. -/
def mkCursor (file : List Nat) (entry : LexEntry) : PostingsCursor :=
  if entry.df = 0 then
    { block_index := -1, block_last := -1, docids := [], freqs := [],
      j := 0, exhausted := true }
  else
    match seek_block_ge file entry (-1) with
    | none =>
      { block_index := -1, block_last := -1, docids := [], freqs := [],
        j := 0, exhausted := true }
    | some (bidx, last_docid, d, f) =>
      { block_index := (bidx : Int), block_last := (last_docid : Int),
        docids := d, freqs := f, j := 0, exhausted := d.isEmpty }

/-- `PostingsCursor._load_block`: load the block with absolute index `bidx`;
`some st'` models returning `True` after mutating the state, `none` models
returning `False` (state restored by the callers' subsequent writes). -/
def load_block (file : List Nat) (entry : LexEntry) (st : PostingsCursor)
    (bidx : Int) : Option PostingsCursor :=
  if entry.blocks = [] then
    match bidx with
    | .negSucc _ => none
    | .ofNat n =>
      match (iter_blocks file entry).get? n with
      | none => none
      | some (last_docid, d, f) =>
        some { st with block_index := bidx, block_last := (last_docid : Int),
                       docids := d, freqs := f, j := 0 }
  else if bidx < 0 ∨ (entry.blocks.length : Int) ≤ bidx then none
  else
    let target := (entry.blocks.getD bidx.toNat default).last_docid
    match seek_block_ge file entry (target : Int) with
    | none => none
    | some (got_bidx, last_docid, d, f) =>
      some { st with block_index := (got_bidx : Int), block_last := (last_docid : Int),
                     docids := d, freqs := f, j := 0 }

/-- `PostingsCursor.docid`. -/
def cursor_docid (st : PostingsCursor) : Option Nat :=
  if st.exhausted = true ∨ st.docids.length ≤ st.j then none
  else st.docids.get? st.j

/-- `PostingsCursor.advance`: step to the next posting, crossing a block
boundary if needed.  Out-of-range indexing after a successful block load
(an `IndexError` in the source) is modelled by `get?`; it cannot occur for
writer-produced entries. -/
def cursor_advance (file : List Nat) (entry : LexEntry) (st : PostingsCursor) :
    Option Nat × PostingsCursor :=
  if st.exhausted = true then (none, st)
  else
    let st := { st with j := st.j + 1 }
    if st.j < st.docids.length then (st.docids.get? st.j, st)
    else
      match load_block file entry st (st.block_index + 1) with
      | none => (none, { st with exhausted := true })
      | some st' => (st'.docids.get? st'.j, st')

/-- `bisect.bisect_left(xs, target, lo)` on a sorted list: the index of the
first element `≥ target` at or after `lo` (the stdlib binary search,
modelled by its contract on sorted input). -/
def bisect_left (xs : List Nat) (target : Int) (lo : Nat) : Nat :=
  lo + ((xs.drop lo).takeWhile (fun d : Nat => decide ((d : Int) < target))).length

/-- The "target beyond current block" tail of `PostingsCursor.next_ge`:
block-level seek, lower bound inside the found block, and the seam case
where the found block holds no docid `≥ target`. -/
def next_ge_seek (file : List Nat) (entry : LexEntry) (st : PostingsCursor)
    (target : Int) : Option Nat × PostingsCursor :=
  match seek_block_ge file entry target with
  | none => (none, { st with exhausted := true })
  | some (bidx, last_docid, d, f) =>
    let st := { st with block_index := (bidx : Int), block_last := (last_docid : Int),
                        docids := d, freqs := f }
    let j := bisect_left d target 0
    if j < d.length then (d.get? j, { st with j := j })
    else
      match load_block file entry st ((bidx : Int) + 1) with
      | none => (none, { st with exhausted := true })
      | some st' => (st'.docids.get? st'.j, { st' with j := 0 })

/-- `PostingsCursor.next_ge`: advance to the first posting with
`docid ≥ target`. -/
def next_ge (file : List Nat) (entry : LexEntry) (st : PostingsCursor)
    (target : Int) : Option Nat × PostingsCursor :=
  if st.exhausted = true then (none, st)
  else if target ≤ st.block_last then
    let j := bisect_left st.docids target st.j
    if j < st.docids.length then (st.docids.get? j, { st with j := j })
    else
      match load_block file entry st (st.block_index + 1) with
      | none => (none, { st with exhausted := true })
      | some st' => next_ge_seek file entry st' target
  else next_ge_seek file entry st target

/-! ## Writer correctness: what `add_term` guarantees to the readers -/

/-- Round trip of the gap layer: a successful `encode_docids_go` decodes
back to the original docids. -/
theorem decode_encode_docids_go {docids : List Nat} :
    ∀ {prev : Nat} {db : List Nat}, VarByteCodec.encode_docids_go docids prev = some db →
      VarByteCodec.decode_docids_go (VarByteCodec.vb_decode_stream db) prev = docids := by
  induction docids with
  | nil =>
    intro prev db h
    rw [VarByteCodec.encode_docids_go] at h
    cases h
    rfl
  | cons d ds ih =>
    intro prev db h
    rw [VarByteCodec.encode_docids_go] at h
    by_cases hneg : (d : Int) - (prev : Int) < 0
    · rw [if_pos hneg] at h; cases h
    · rw [if_neg hneg] at h
      simp only [Option.bind_eq_bind, Option.bind_eq_some, Option.pure_def,
        Option.some.injEq] at h
      obtain ⟨rest, hrest, rfl⟩ := h
      rw [VarByteCodec.vb_decode_stream_encode_append]
      rw [VarByteCodec.decode_docids_go]
      have hd : prev + ((d : Int) - (prev : Int)).toNat = d := by omega
      rw [hd]
      exact congrArg (List.cons d) (ih hrest)

theorem decode_encode_docids {docids : List Nat} {base : Nat} {db : List Nat}
    (h : VarByteCodec.encode_docids docids base = some db) :
    VarByteCodec.decode_docids db base = docids := by
  rw [VarByteCodec.encode_docids] at h
  split at h
  · cases h
    rename_i hnil
    subst hnil
    rfl
  · exact decode_encode_docids_go h

/-- Reading a block whose segments sit at its recorded offset recovers the
two byte segments exactly. -/
theorem read_block_of_slices {codec : String} {file : List Nat} {b : Block}
    {base : Nat} {db fb rest : List Nat}
    (hfile : file.drop b.offset = db ++ (fb ++ rest))
    (hbd : b.doc_bytes = db.length) (hbf : b.freq_bytes = fb.length) :
    read_block codec file b base =
      if codec = "varbyte" then
        (VarByteCodec.decode_docids db base, VarByteCodec.decode_freqs fb)
      else (unpack_u32s db, unpack_u32s fb) := by
  have hdocs : sliceAt file b.offset b.doc_bytes = db := by
    rw [sliceAt, hfile, hbd, List.take_left]
  have hsplit : file.drop (b.offset + b.doc_bytes) = (file.drop b.offset).drop b.doc_bytes := by
    rw [List.drop_drop, Nat.add_comm]
  have hfreqs : sliceAt file (b.offset + b.doc_bytes) b.freq_bytes = fb := by
    rw [sliceAt, hsplit, hfile, hbd, List.drop_left, hbf, List.take_left]
  rw [read_block]
  rw [hdocs, hfreqs]

/-- `BlocksRead codec file metas prev dchunks fchunks` states that reading
the recorded blocks of `file` in order, threading the recorded
`last_docid`s as gap bases from initial base `prev`, recovers exactly the
chunked docid/frequency lists, and that each recorded `last_docid` is the
final decoded docid of its chunk. -/
def BlocksRead (codec : String) (file : List Nat) :
    List Block → Nat → List (List Nat) → List (List Nat) → Prop
  | [], _, [], [] => True
  | m :: ms, prev, dc :: dcs, fc :: fcs =>
    read_block codec file m prev = (dc, fc) ∧
    m.last_docid = dc.getLastD 0 ∧
    BlocksRead codec file ms m.last_docid dcs fcs
  | _, _, _, _ => False

/-- The central writer lemma: a successful `write_blocks` starting at byte
position `pre.length` makes all its blocks readable from any file of the
form `pre ++ bytes ++ post`. -/
theorem write_blocks_spec (codec : String) :
    ∀ (chunks : List (List (Nat × Nat))) (prevLast : Nat)
      (pre post bytes : List Nat) (metas : List Block),
      write_blocks codec chunks prevLast pre.length = some (bytes, metas) →
      BlocksRead codec (pre ++ bytes ++ post) metas prevLast
        (chunks.map (List.map Prod.fst)) (chunks.map (List.map Prod.snd)) := by
  intro chunks
  induction chunks with
  | nil =>
    intro prevLast pre post bytes metas h
    rw [write_blocks] at h
    cases h
    exact trivial
  | cons chunk rest ih =>
    intro prevLast pre post bytes metas h
    rw [write_blocks] at h
    simp only [Option.bind_eq_bind, Option.bind_eq_some, Option.pure_def,
      Option.some.injEq] at h
    obtain ⟨⟨bytes0, bd, bf⟩, henc, ⟨tail, metas'⟩, hrest, hpair⟩ := h
    injection hpair with hbytes hmetas
    subst hbytes
    subst hmetas
    simp only [List.map_cons, BlocksRead]
    have hfile :
        (pre ++ (bytes0 ++ tail) ++ post) = pre ++ (bytes0 ++ (tail ++ post)) := by
      simp [List.append_assoc]
    -- split the encoded block into its two segments
    rw [encode_block] at henc
    by_cases hc : codec = "varbyte"
    · rw [if_pos hc] at henc
      simp only [Option.bind_eq_bind, Option.bind_eq_some, Option.pure_def,
        Option.some.injEq] at henc
      obtain ⟨db, hdb, hmk⟩ := henc
      have hb0 : db ++ VarByteCodec.encode_freqs (chunk.map Prod.snd) = bytes0 :=
        congrArg (fun t => t.1) hmk
      have hbd : bd = db.length := (congrArg (fun t => t.2.1) hmk).symm
      have hbf : bf = (VarByteCodec.encode_freqs (chunk.map Prod.snd)).length :=
        (congrArg (fun t => t.2.2) hmk).symm
      refine ⟨?_, by trivial, ?_⟩
      · have hread := @read_block_of_slices codec (pre ++ (bytes0 ++ tail) ++ post)
          { offset := pre.length, doc_bytes := bd, freq_bytes := bf,
            last_docid := (chunk.map Prod.fst).getLastD 0 }
          prevLast db (VarByteCodec.encode_freqs (chunk.map Prod.snd)) (tail ++ post)
          (by
            show (pre ++ (bytes0 ++ tail) ++ post).drop pre.length = _
            rw [hfile, List.drop_left, ← hb0, List.append_assoc])
          hbd hbf
        rw [hread, if_pos hc, decode_encode_docids hdb,
          VarByteCodec.decode_freqs_encode_freqs]
      · have hfile2 : pre ++ (bytes0 ++ tail) ++ post = (pre ++ bytes0) ++ tail ++ post := by
          simp [List.append_assoc]
        rw [hfile2]
        apply ih
        rw [List.length_append]
        exact hrest
    · rw [if_neg hc] at henc
      simp only [Option.bind_eq_bind, Option.bind_eq_some, Option.pure_def,
        Option.some.injEq] at henc
      obtain ⟨db, hdb, fbl, hfb, hmk⟩ := henc
      have hb0 : db ++ fbl = bytes0 := congrArg (fun t => t.1) hmk
      have hbd : bd = 4 * (chunk.map Prod.fst).length := (congrArg (fun t => t.2.1) hmk).symm
      have hbf : bf = 4 * (chunk.map Prod.snd).length := (congrArg (fun t => t.2.2) hmk).symm
      refine ⟨?_, by trivial, ?_⟩
      · have hread := @read_block_of_slices codec (pre ++ (bytes0 ++ tail) ++ post)
          { offset := pre.length, doc_bytes := bd, freq_bytes := bf,
            last_docid := (chunk.map Prod.fst).getLastD 0 }
          prevLast db fbl (tail ++ post)
          (by
            show (pre ++ (bytes0 ++ tail) ++ post).drop pre.length = _
            rw [hfile, List.drop_left, ← hb0, List.append_assoc])
          (by rw [hbd, ← pack_u32_list_length hdb])
          (by rw [hbf, ← pack_u32_list_length hfb])
        rw [hread, if_neg hc]
        have hud : unpack_u32s db = chunk.map Prod.fst := by
          have h2 := unpack_pack_u32_list hdb []
          simpa [show unpack_u32s ([] : List Nat) = [] from rfl] using h2
        have huf : unpack_u32s fbl = chunk.map Prod.snd := by
          have h2 := unpack_pack_u32_list hfb []
          simpa [show unpack_u32s ([] : List Nat) = [] from rfl] using h2
        rw [hud, huf]
      · have hfile2 : pre ++ (bytes0 ++ tail) ++ post = (pre ++ bytes0) ++ tail ++ post := by
          simp [List.append_assoc]
        rw [hfile2]
        apply ih
        rw [List.length_append]
        exact hrest

/-! ## Chunk arithmetic -/

theorem chunkList_getD {B : Nat} (hB : 0 < B) :
    ∀ (xs : List α) (i : Nat), (chunkList B xs).getD i [] = (xs.drop (B * i)).take B := by
  intro xs
  induction xs using chunkList.induct B with
  | case1 =>
    intro i
    simp [chunkList]
  | case2 x xs hB0 =>
    omega
  | case3 x xs hB0 ih =>
    intro i
    rw [chunkList, if_neg hB0]
    match i with
    | 0 => simp
    | i + 1 =>
      simp only [List.getD_cons_succ]
      rw [ih i, List.drop_drop]
      congr 2
      ring

theorem chunkList_length_iff {B : Nat} (hB : 0 < B) :
    ∀ (xs : List α) (i : Nat), i < (chunkList B xs).length ↔ B * i < xs.length := by
  intro xs
  induction xs using chunkList.induct B with
  | case1 =>
    intro i
    simp [chunkList]
  | case2 x xs hB0 => omega
  | case3 x xs hB0 ih =>
    intro i
    rw [chunkList, if_neg hB0]
    match i with
    | 0 =>
      simp only [List.length_cons]
      constructor
      · intro _; simp
      · intro _; omega
    | i + 1 =>
      simp only [List.length_cons, Nat.add_lt_add_iff_right]
      rw [ih i, List.length_drop]
      simp only [List.length_cons]
      have : B * (i + 1) = B * i + B := by ring
      omega

theorem chunkList_cons (B : Nat) (x : α) (xs : List α) :
    chunkList B (x :: xs)
      = if B = 0 then [] else (x :: xs).take B :: chunkList B ((x :: xs).drop B) := by
  rw [chunkList]

theorem chunkList_map {B : Nat} (f : α → β) :
    ∀ (xs : List α), (chunkList B xs).map (List.map f) = chunkList B (xs.map f) := by
  intro xs
  induction xs using chunkList.induct B with
  | case1 => simp [chunkList]
  | case2 x xs hB0 =>
    simp only [List.map_cons, chunkList, if_pos hB0, List.map_nil]
  | case3 x xs hB0 ih =>
    have h1 : List.take B (f x :: List.map f xs) = List.map f (List.take B (x :: xs)) := by
      rw [← List.map_cons, ← List.map_take]
    have h2 : List.drop B (f x :: List.map f xs) = List.map f (List.drop B (x :: xs)) := by
      rw [← List.map_cons, ← List.map_drop]
    conv_rhs => rw [List.map_cons, chunkList_cons]
    rw [chunkList_cons, if_neg hB0, if_neg hB0, h1, h2, List.map_cons, ih]

/-! ## Sorted postings -/

/-- The docids of a postings map in ascending order. -/
def sortedDocids (postings : List (Nat × Nat)) : List Nat :=
  (sortedItems postings).map Prod.fst

/-- The term frequencies of a postings map, aligned with `sortedDocids`. -/
def sortedFreqs (postings : List (Nat × Nat)) : List Nat :=
  (sortedItems postings).map Prod.snd

theorem sortedItems_perm (postings : List (Nat × Nat)) :
    List.Perm (sortedItems postings) postings :=
  List.mergeSort_perm postings _

theorem sortedItems_length (postings : List (Nat × Nat)) :
    (sortedItems postings).length = postings.length :=
  (sortedItems_perm postings).length_eq

/-- With pairwise-distinct docids, sorting makes the docid list strictly
increasing. -/
theorem sortedDocids_strict {postings : List (Nat × Nat)}
    (h : (postings.map Prod.fst).Nodup) :
    (sortedDocids postings).Pairwise (· < ·) := by
  have hsorted : (sortedItems postings).Pairwise (fun a b : Nat × Nat => a.1 ≤ b.1) := by
    have h1 := @List.sorted_mergeSort (Nat × Nat)
      (fun a b : Nat × Nat => decide (a.1 ≤ b.1))
      (fun a b c hab hbc => by
        simp only [decide_eq_true_eq] at *
        omega)
      (fun a b => by
        simp only [Bool.or_eq_true, decide_eq_true_eq]
        omega)
      postings
    have h2 : (postings.mergeSort fun a b : Nat × Nat => decide (a.1 ≤ b.1)).Pairwise
        (fun a b : Nat × Nat => a.1 ≤ b.1) := by
      refine h1.imp ?_
      intro a b hab
      simpa using hab
    exact h2
  have hnd : (sortedDocids postings).Nodup := by
    have hperm : List.Perm ((sortedItems postings).map Prod.fst) (postings.map Prod.fst) :=
      (sortedItems_perm postings).map Prod.fst
    exact (hperm.nodup_iff).mpr h
  have hle : (sortedDocids postings).Pairwise (· ≤ ·) := by
    rw [sortedDocids, List.pairwise_map]
    exact hsorted
  have := hle.and hnd
  exact this.imp (fun hab => lt_of_le_of_ne hab.1 hab.2)

/-! ## Indexed corollaries of `BlocksRead` -/

theorem BlocksRead.lengths {codec : String} {file : List Nat} :
    ∀ {ms : List Block} {prev : Nat} {dcs fcs : List (List Nat)},
      BlocksRead codec file ms prev dcs fcs →
      dcs.length = ms.length ∧ fcs.length = ms.length := by
  intro ms
  induction ms with
  | nil =>
    intro prev dcs fcs h
    match dcs, fcs with
    | [], [] => exact ⟨rfl, rfl⟩
    | [], _ :: _ => exact absurd h (by simp [BlocksRead])
    | _ :: _, [] => exact absurd h (by simp [BlocksRead])
    | _ :: _, _ :: _ => exact absurd h (by simp [BlocksRead])
  | cons m ms ih =>
    intro prev dcs fcs h
    match dcs, fcs with
    | [], [] => exact absurd h (by simp [BlocksRead])
    | [], _ :: _ => exact absurd h (by simp [BlocksRead])
    | _ :: _, [] => exact absurd h (by simp [BlocksRead])
    | dc :: dcs, fc :: fcs =>
      obtain ⟨-, -, hrec⟩ := h
      have := ih hrec
      simp only [List.length_cons]
      omega

/-- The indexed reading form of `BlocksRead`: block `i` decodes, under the
base recorded for block `i-1` (or the initial base for `i = 0`), to the
`i`-th docid and frequency chunks, and its recorded `last_docid` is the
last decoded docid. -/
theorem BlocksRead.read_getD {codec : String} {file : List Nat} :
    ∀ {ms : List Block} {prev : Nat} {dcs fcs : List (List Nat)},
      BlocksRead codec file ms prev dcs fcs →
      ∀ i < ms.length,
        read_block codec file (ms.getD i default)
            (if i = 0 then prev else (ms.getD (i - 1) default).last_docid)
          = (dcs.getD i [], fcs.getD i []) ∧
        (ms.getD i default).last_docid = (dcs.getD i []).getLastD 0 := by
  intro ms
  induction ms with
  | nil =>
    intro prev dcs fcs _ i hi
    simp at hi
  | cons m ms ih =>
    intro prev dcs fcs h i hi
    match dcs, fcs with
    | [], [] => exact absurd h (by simp [BlocksRead])
    | [], _ :: _ => exact absurd h (by simp [BlocksRead])
    | _ :: _, [] => exact absurd h (by simp [BlocksRead])
    | dc :: dcs, fc :: fcs =>
      obtain ⟨hread, hlast, hrec⟩ := h
      match i with
      | 0 => exact ⟨hread, hlast⟩
      | i + 1 =>
        have hi' : i < ms.length := by simpa using hi
        have := ih hrec i hi'
        simp only [List.getD_cons_succ]
        match i with
        | 0 =>
          simpa using this
        | i + 1 =>
          simpa using this

/-! ## Sorted-list access lemmas -/

/-- In a strictly sorted list, values at smaller indices are smaller. -/
theorem sorted_get_lt {l : List Nat} (hs : l.Pairwise (· < ·)) :
    ∀ {i j : Nat} {x y : Nat}, i < j → l.get? i = some x → l.get? j = some y → x < y := by
  induction l with
  | nil => intro i j x y _ hx; simp at hx
  | cons a l ih =>
    intro i j x y hij hx hy
    obtain ⟨ha, hl⟩ := List.pairwise_cons.mp hs
    match i, j with
    | 0, j + 1 =>
      simp only [List.get?_cons_zero, Option.some.injEq] at hx
      subst hx
      exact ha y (List.get?_mem (by simpa using hy))
    | i + 1, j + 1 =>
      exact ih hl (show i < j by omega) (by simpa using hx) (by simpa using hy)

/-- Every position inside the `takeWhile` prefix satisfies the predicate. -/
theorem takeWhile_get_sat {p : α → Bool} :
    ∀ {l : List α} {k : Nat}, k < (l.takeWhile p).length →
      ∃ d, l.get? k = some d ∧ p d = true := by
  intro l
  induction l with
  | nil => intro k hk; simp [List.takeWhile] at hk
  | cons a l ih =>
    intro k hk
    by_cases hpa : p a
    · rw [List.takeWhile_cons_of_pos hpa] at hk
      match k with
      | 0 => exact ⟨a, rfl, hpa⟩
      | k + 1 =>
        have := ih (by simpa using hk)
        simpa using this
    · rw [List.takeWhile_cons_of_neg hpa] at hk
      simp at hk

/-- Past the `takeWhile (· < t)` prefix of a sorted list, every value is
`≥ t`. -/
theorem sorted_past_takeWhile {l : List Nat} (hs : l.Pairwise (· < ·)) (t : Int) :
    ∀ {k : Nat} {d : Nat},
      (l.takeWhile (fun d : Nat => decide ((d : Int) < t))).length ≤ k →
      l.get? k = some d → t ≤ (d : Int) := by
  induction l with
  | nil => intro k d _ hd; simp at hd
  | cons a l ih =>
    intro k d hk hd
    obtain ⟨ha, hl⟩ := List.pairwise_cons.mp hs
    by_cases hpa : ((a : Int) < t)
    · rw [List.takeWhile_cons_of_pos (by simpa using hpa)] at hk
      match k with
      | 0 => simp at hk
      | k + 1 =>
        exact ih hl (by simpa using hk) (by simpa using hd)
    · push_neg at hpa
      match k with
      | 0 =>
        simp only [List.get?_cons_zero, Option.some.injEq] at hd
        subst hd
        exact hpa
      | k + 1 =>
        have hmem : d ∈ l := List.get?_mem (by simpa using hd)
        have := ha d hmem
        omega

theorem takeWhile_length_le (p : α → Bool) (l : List α) :
    (l.takeWhile p).length ≤ l.length :=
  (List.takeWhile_sublist p).length_le

/-! ## What a successful `add_term` guarantees -/

theorem add_term_spec {codec : String} {B : Nat} {file0 file : List Nat}
    {ps : List (Nat × Nat)} {entry : LexEntry}
    (h : add_term codec B file0 ps = some (file, entry)) :
    entry.offset = file0.length ∧ entry.codec = codec ∧
    entry.df = ps.length ∧ entry.nblocks = entry.blocks.length ∧
    (∃ bytes, file = file0 ++ bytes) ∧
    (∀ post, BlocksRead codec (file ++ post) entry.blocks 0
        (chunkList B (sortedDocids ps)) (chunkList B (sortedFreqs ps))) := by
  rw [add_term] at h
  simp only [Option.bind_eq_bind, Option.bind_eq_some, Option.pure_def,
    Option.some.injEq] at h
  obtain ⟨⟨bytes, metas⟩, hwb, hpair⟩ := h
  injection hpair with hfile hentry
  subst hfile
  subst hentry
  refine ⟨rfl, rfl, sortedItems_length ps, rfl, ⟨bytes, rfl⟩, ?_⟩
  intro post
  have hspec := write_blocks_spec codec (chunkList B (sortedItems ps)) 0 file0 post bytes metas hwb
  rw [List.append_assoc]
  have hd : (chunkList B (sortedItems ps)).map (List.map Prod.fst)
      = chunkList B (sortedDocids ps) := chunkList_map Prod.fst (sortedItems ps)
  have hf : (chunkList B (sortedItems ps)).map (List.map Prod.snd)
      = chunkList B (sortedFreqs ps) := chunkList_map Prod.snd (sortedItems ps)
  rw [hd, hf] at hspec
  simpa using hspec

/-! ## Chunks of a sorted docid list -/

/-- Abbreviation used throughout the cursor proofs: the `i`-th docid chunk. -/
def dchunk (B : Nat) (docs : List Nat) (i : Nat) : List Nat :=
  (chunkList B docs).getD i []

theorem dchunk_eq {B : Nat} (hB : 0 < B) (docs : List Nat) (i : Nat) :
    dchunk B docs i = (docs.drop (B * i)).take B := by
  rw [dchunk, chunkList_getD hB]

/-- Element `k` of chunk `i` is element `B*i + k` of the full list. -/
theorem dchunk_get {B : Nat} (hB : 0 < B) (docs : List Nat) (i k : Nat) (hk : k < B) :
    (dchunk B docs i).get? k = docs.get? (B * i + k) := by
  rw [dchunk_eq hB]
  rw [List.get?_take hk, List.get?_drop]

theorem dchunk_length {B : Nat} (hB : 0 < B) (docs : List Nat) (i : Nat) :
    (dchunk B docs i).length = min B (docs.length - B * i) := by
  rw [dchunk_eq hB, List.length_take, List.length_drop]

/-- The last element of a non-empty chunk `i` is the document at global
index `min (B*i + B) n - 1`. -/
theorem dchunk_getLastD {B : Nat} (hB : 0 < B) (docs : List Nat) (i : Nat)
    (hi : B * i < docs.length) :
    (dchunk B docs i).getLastD 0
      = docs.getD (min (B * i + B) docs.length - 1) 0 := by
  have hlen : (dchunk B docs i).length = min B (docs.length - B * i) :=
    dchunk_length hB docs i
  have hpos : 0 < (dchunk B docs i).length := by omega
  have hklt : (dchunk B docs i).length - 1 < B := by omega
  have hget := dchunk_get hB docs i ((dchunk B docs i).length - 1) hklt
  rw [List.getLastD_eq_getLast?, List.getLast?_eq_get?]
  rw [hget]
  have hidx : B * i + ((dchunk B docs i).length - 1) = min (B * i + B) docs.length - 1 := by
    omega
  rw [hidx]
  rcases h : docs.get? (min (B * i + B) docs.length - 1) with - | d
  · rw [List.get?_eq_none] at h
    omega
  · rw [List.getD_eq_get?, h]

/-! ## Correctness of the directory binary search -/

/-- Invariant-based correctness of the `seek_block_ge` binary search over a
directory whose `last_docid` predicate `target ≤ last` is upward closed
(which strictly increasing `last_docid`s guarantee). -/
theorem bsearch_spec {blocks : List Block} {target : Int}
    (hmono : ∀ j k : Nat, j ≤ k → k < blocks.length →
      target ≤ ((blocks.getD j default).last_docid : Int) →
      target ≤ ((blocks.getD k default).last_docid : Int)) :
    ∀ (lo : Nat) (hi : Int) (ans : Option Nat),
      (∀ k : Nat, k < lo → k < blocks.length →
        ((blocks.getD k default).last_docid : Int) < target) →
      ((ans = none ∧ hi = (blocks.length : Int) - 1) ∨
        (∃ a : Nat, ans = some a ∧ (a : Int) = hi + 1 ∧ a < blocks.length ∧
          target ≤ ((blocks.getD a default).last_docid : Int))) →
      (match bsearch_last_ge blocks target lo hi ans with
        | none => ∀ k, k < blocks.length →
            ((blocks.getD k default).last_docid : Int) < target
        | some a => a < blocks.length ∧
            target ≤ ((blocks.getD a default).last_docid : Int) ∧
            ∀ k, k < a → ((blocks.getD k default).last_docid : Int) < target) := by
  intro lo hi ans
  induction lo, hi, ans using bsearch_last_ge.induct blocks target with
  | case1 lo hi ans h mid htle ih =>
    intro hI1 hI2
    rw [bsearch_last_ge, dif_pos h]
    simp only [mid] at htle ih ⊢
    rw [if_pos htle]
    have hhilt : hi < (blocks.length : Int) := by
      rcases hI2 with ⟨-, rfl⟩ | ⟨a, -, ha, halt, -⟩ <;> omega
    have hmidle : (lo : Int) ≤ ((lo : Int) + hi) / 2 := by omega
    have hmidhi : ((lo : Int) + hi) / 2 ≤ hi := by omega
    have hmidlt : (((lo : Int) + hi) / 2).toNat < blocks.length := by omega
    apply ih hI1
    right
    exact ⟨(((lo : Int) + hi) / 2).toNat, rfl, by omega, hmidlt, htle⟩
  | case2 lo hi ans h mid htgt ih =>
    intro hI1 hI2
    rw [bsearch_last_ge, dif_pos h]
    simp only [mid] at htgt ih ⊢
    rw [if_neg htgt]
    have hhilt : hi < (blocks.length : Int) := by
      rcases hI2 with ⟨-, rfl⟩ | ⟨a, -, ha, halt, -⟩ <;> omega
    have hmidle : (lo : Int) ≤ ((lo : Int) + hi) / 2 := by omega
    have hmidhi : ((lo : Int) + hi) / 2 ≤ hi := by omega
    have hmidlt : (((lo : Int) + hi) / 2).toNat < blocks.length := by omega
    apply ih ?_ hI2
    intro k hk hklen
    by_cases hklo : k < lo
    · exact hI1 k hklo hklen
    · -- lo ≤ k ≤ mid: if last k ≥ target then last mid ≥ target, contradiction
      by_contra hcon
      push_neg at hcon
      have hkmid : k ≤ (((lo : Int) + hi) / 2).toNat := by omega
      have := hmono k (((lo : Int) + hi) / 2).toNat hkmid hmidlt hcon
      push_neg at htgt
      omega
  | case3 lo hi ans h =>
    intro hI1 hI2
    rw [bsearch_last_ge, dif_neg h]
    rcases hI2 with ⟨rfl, rfl⟩ | ⟨a, rfl, ha, halt, htle⟩
    · intro k hk
      apply hI1 k ?_ hk
      omega
    · refine ⟨halt, htle, ?_⟩
      intro k hk
      apply hI1 k ?_ (by omega)
      omega

/-! ## Entry well-formedness and `seek_block_ge` correctness -/

theorem get?_eq_some_getD {l : List Nat} {k : Nat} (h : k < l.length) :
    l.get? k = some (l.getD k 0) := by
  rcases hg : l.get? k with - | d
  · rw [List.get?_eq_none] at hg
    omega
  · rw [List.getD_eq_get?, hg]
    rfl

/-- Well-formedness of a lexicon entry with respect to the (sorted) docid
and aligned frequency tables it stores: exactly what `add_term` establishes
and what the readers and cursors rely on. -/
structure EntryWF (file : List Nat) (entry : LexEntry) (B : Nat)
    (docs freqs : List Nat) : Prop where
  hB : 0 < B
  sorted : docs.Pairwise (· < ·)
  len_eq : freqs.length = docs.length
  hdf : entry.df = docs.length
  reads : BlocksRead entry.codec file entry.blocks 0 (chunkList B docs) (chunkList B freqs)

namespace EntryWF

variable {file : List Nat} {entry : LexEntry} {B : Nat} {docs freqs : List Nat}

theorem nblocks_eq (w : EntryWF file entry B docs freqs) :
    entry.blocks.length = (chunkList B docs).length :=
  (w.reads.lengths.1).symm

theorem fblocks_eq (w : EntryWF file entry B docs freqs) :
    entry.blocks.length = (chunkList B freqs).length :=
  (w.reads.lengths.2).symm

theorem block_lt_iff (w : EntryWF file entry B docs freqs) (i : Nat) :
    i < entry.blocks.length ↔ B * i < docs.length := by
  rw [w.nblocks_eq]
  exact chunkList_length_iff w.hB docs i

theorem entry_read_getD (w : EntryWF file entry B docs freqs) {i : Nat}
    (hi : i < entry.blocks.length) :
    read_block entry.codec file (entry.blocks.getD i default)
        (if i = 0 then 0 else (entry.blocks.getD (i - 1) default).last_docid)
      = (dchunk B docs i, dchunk B freqs i) :=
  (w.reads.read_getD i hi).1

theorem last_eq (w : EntryWF file entry B docs freqs) {i : Nat}
    (hi : i < entry.blocks.length) :
    (entry.blocks.getD i default).last_docid = (dchunk B docs i).getLastD 0 :=
  (w.reads.read_getD i hi).2

/-- The recorded `last_docid` of block `i` is the document at global index
`min (B*i + B) n - 1`. -/
theorem last_idx (w : EntryWF file entry B docs freqs) {i : Nat}
    (hi : i < entry.blocks.length) :
    (entry.blocks.getD i default).last_docid
      = docs.getD (min (B * i + B) docs.length - 1) 0 := by
  rw [w.last_eq hi, dchunk_getLastD w.hB docs i ((w.block_lt_iff i).mp hi)]

/-- Recorded `last_docid`s are strictly increasing across blocks. -/
theorem last_strictMono (w : EntryWF file entry B docs freqs) {i j : Nat}
    (hij : i < j) (hj : j < entry.blocks.length) :
    (entry.blocks.getD i default).last_docid < (entry.blocks.getD j default).last_docid := by
  have hi : i < entry.blocks.length := by omega
  have hBi : B * i < docs.length := (w.block_lt_iff i).mp hi
  have hBj : B * j < docs.length := (w.block_lt_iff j).mp hj
  have hB := w.hB
  rw [w.last_idx hi, w.last_idx hj]
  set ii := min (B * i + B) docs.length - 1 with hii
  set jj := min (B * j + B) docs.length - 1 with hjj
  have hile : B * i + B ≤ B * j := by
    have : i + 1 ≤ j := hij
    calc B * i + B = B * (i + 1) := by ring
      _ ≤ B * j := Nat.mul_le_mul_left B this
  have hlt : ii < jj := by omega
  have hjlt : jj < docs.length := by omega
  have hgi := @get?_eq_some_getD docs ii (by omega)
  have hgj := @get?_eq_some_getD docs jj hjlt
  exact sorted_get_lt w.sorted hlt hgi hgj

/-- Upward closure of `target ≤ last_docid` over the directory. -/
theorem last_mono_pred (w : EntryWF file entry B docs freqs) {t : Int} :
    ∀ j k : Nat, j ≤ k → k < entry.blocks.length →
      t ≤ ((entry.blocks.getD j default).last_docid : Int) →
      t ≤ ((entry.blocks.getD k default).last_docid : Int) := by
  intro j k hjk hk hjt
  rcases Nat.lt_or_ge j k with hlt | hge
  · have := w.last_strictMono hlt hk
    omega
  · have : j = k := by omega
    subst this
    exact hjt

end EntryWF

/-- The lower-bound position of `t` in a docid list: the number of leading
documents `< t`. -/
def lowerIdx (docs : List Nat) (t : Int) : Nat :=
  (docs.takeWhile (fun d : Nat => decide ((d : Int) < t))).length

theorem lowerIdx_le (docs : List Nat) (t : Int) : lowerIdx docs t ≤ docs.length :=
  takeWhile_length_le _ docs

theorem bisect_left_zero (xs : List Nat) (t : Int) :
    bisect_left xs t 0 = lowerIdx xs t := by
  rw [bisect_left, lowerIdx, List.drop_zero, Nat.zero_add]

/-- If no document is `≥ t`, `seek_block_ge` reports `none`. -/
theorem seek_block_ge_none {file : List Nat} {entry : LexEntry} {B : Nat}
    {docs freqs : List Nat} (w : EntryWF file entry B docs freqs) {t : Int}
    (hp : lowerIdx docs t = docs.length) :
    seek_block_ge file entry t = none := by
  by_cases hnil : docs = []
  · -- no documents at all: the entry has no blocks, the linear fallback
    -- scans an empty stream
    subst hnil
    have h0 := w.block_lt_iff 0
    have hlen : entry.blocks.length = 0 := by
      by_contra hne
      have hpos : 0 < entry.blocks.length := Nat.pos_of_ne_zero hne
      have := h0.mp hpos
      simp at this
    have hblocks : entry.blocks = [] := List.length_eq_zero.mp hlen
    rw [seek_block_ge]
    simp only [hblocks]
    rw [if_neg (by simp)]
    rw [iter_blocks, hblocks]
    rfl
  · have hpos : 0 < docs.length := List.length_pos.mpr hnil
    have hbpos : 0 < entry.blocks.length := by
      rw [w.block_lt_iff 0]
      simpa using hpos
    have hblocks : entry.blocks ≠ [] := by
      intro hcon
      rw [hcon] at hbpos
      simp at hbpos
    have hlast_lt : ∀ k, k < entry.blocks.length →
        ((entry.blocks.getD k default).last_docid : Int) < t := by
      intro k hk
      have hBk : B * k < docs.length := (w.block_lt_iff k).mp hk
      rw [w.last_idx hk]
      have hidx : min (B * k + B) docs.length - 1 < lowerIdx docs t := by
        have hB := w.hB
        omega
      obtain ⟨d, hd, hdt⟩ := takeWhile_get_sat hidx
      rw [@get?_eq_some_getD docs (min (B * k + B) docs.length - 1) (by omega)] at hd
      simp only [Option.some.injEq] at hd
      subst hd
      simpa using hdt
    have hspec := @bsearch_spec entry.blocks t
      (@EntryWF.last_mono_pred file entry B docs freqs w t)
      0 ((entry.blocks.length : Int) - 1) none
      (by intro k hk hk2; omega) (Or.inl ⟨rfl, rfl⟩)
    rcases hres : bsearch_last_ge entry.blocks t 0 ((entry.blocks.length : Int) - 1) none
      with - | a
    · rw [seek_block_ge]
      rw [if_pos hblocks]
      rw [hres]
    · simp only [hres] at hspec
      obtain ⟨halt, htle, -⟩ := hspec
      have := hlast_lt a halt
      omega

/-- If some document is `≥ t`, `seek_block_ge` finds the block containing
the first such document, and returns its decoded contents. -/
theorem seek_block_ge_some {file : List Nat} {entry : LexEntry} {B : Nat}
    {docs freqs : List Nat} (w : EntryWF file entry B docs freqs) {t : Int}
    (hp : lowerIdx docs t < docs.length) :
    seek_block_ge file entry t
      = some (lowerIdx docs t / B,
          (entry.blocks.getD (lowerIdx docs t / B) default).last_docid,
          dchunk B docs (lowerIdx docs t / B),
          dchunk B freqs (lowerIdx docs t / B)) := by
  have hB := w.hB
  set p := lowerIdx docs t with hpdef
  set i := p / B with hidef
  have hBi : B * i < docs.length := by
    have : B * i ≤ p := by
      rw [hidef, Nat.mul_comm]
      exact Nat.div_mul_le_self p B
    omega
  have hi_lt : i < entry.blocks.length := (w.block_lt_iff i).mpr hBi
  have hblocks : entry.blocks ≠ [] := by
    intro hcon
    rw [hcon] at hi_lt
    simp at hi_lt
  have hmod : p % B < B := Nat.mod_lt _ hB
  have hdm : B * i + p % B = p := by
    rw [hidef]
    have := Nat.div_add_mod p B
    omega
  have hlast_ge : t ≤ ((entry.blocks.getD i default).last_docid : Int) := by
    rw [w.last_idx hi_lt]
    have hidx_ge : p ≤ min (B * i + B) docs.length - 1 := by omega
    have hget := @get?_eq_some_getD docs (min (B * i + B) docs.length - 1) (by omega)
    exact sorted_past_takeWhile w.sorted t
      (show lowerIdx docs t ≤ min (B * i + B) docs.length - 1 by omega) hget
  have hlast_lt : ∀ k, k < i → ((entry.blocks.getD k default).last_docid : Int) < t := by
    intro k hk
    have hk_lt : k < entry.blocks.length := by omega
    have hBk : B * k < docs.length := (w.block_lt_iff k).mp hk_lt
    rw [w.last_idx hk_lt]
    have hstep : B * k + B ≤ B * i := by
      have hk1 : k + 1 ≤ i := hk
      calc B * k + B = B * (k + 1) := by ring
        _ ≤ B * i := Nat.mul_le_mul_left B hk1
    have hidx_lt : min (B * k + B) docs.length - 1 < p := by omega
    obtain ⟨d, hd, hdt⟩ := takeWhile_get_sat hidx_lt
    rw [@get?_eq_some_getD docs (min (B * k + B) docs.length - 1) (by omega)] at hd
    simp only [Option.some.injEq] at hd
    subst hd
    simpa using hdt
  have hspec := @bsearch_spec entry.blocks t
    (@EntryWF.last_mono_pred file entry B docs freqs w t)
    0 ((entry.blocks.length : Int) - 1) none
    (by intro k hk hk2; omega) (Or.inl ⟨rfl, rfl⟩)
  rcases hres : bsearch_last_ge entry.blocks t 0 ((entry.blocks.length : Int) - 1) none
    with - | a
  · rw [hres] at hspec
    have := hspec i hi_lt
    omega
  · rw [hres] at hspec
    obtain ⟨halt, htle, hbefore⟩ := hspec
    have hai : a = i := by
      by_contra hne
      rcases Nat.lt_or_ge a i with hlt | hge
      · have := hlast_lt a hlt
        omega
      · have hia : i < a := by omega
        have := hbefore i hia
        omega
    subst hai
    have hiota : seek_block_ge file entry t = seek_hit file entry i := by
      rw [seek_block_ge, if_pos hblocks, hres]
    rw [hiota]
    have hread := w.entry_read_getD hi_lt
    have hbase : (if i > 0 then (entry.blocks.getD (i - 1) default).last_docid else 0)
        = (if i = 0 then 0 else (entry.blocks.getD (i - 1) default).last_docid) := by
      by_cases h0 : i = 0
      · simp [h0]
      · have hipos : i > 0 := Nat.pos_of_ne_zero h0
        simp [h0, hipos]
    have hlen_eq : (dchunk B docs i).length = (dchunk B freqs i).length := by
      rw [dchunk_length w.hB, dchunk_length w.hB, w.len_eq]
    simp only [seek_hit]
    rw [hbase, hread]
    rw [if_neg (by simp only []; omega)]

/-! ## Cursor invariant and cursor-operation correctness -/

/-- Uniqueness of the lower-bound position: any `m` below which all values
are `< t` and at which the value (if any) is `≥ t` is `lowerIdx`. -/
theorem lowerIdx_unique {xs : List Nat} (hs : xs.Pairwise (· < ·)) {t : Int} {m : Nat}
    (hm : m ≤ xs.length)
    (h1 : ∀ k, k < m → ∃ d, xs.get? k = some d ∧ (d : Int) < t)
    (h2 : ∀ d, xs.get? m = some d → t ≤ (d : Int)) :
    lowerIdx xs t = m := by
  set q := lowerIdx xs t with hq
  have hqle : q ≤ xs.length := lowerIdx_le xs t
  rcases Nat.lt_trichotomy q m with hlt | heq | hgt
  · obtain ⟨d, hd, hdt⟩ := h1 q hlt
    have := sorted_past_takeWhile hs t (Nat.le_refl q) hd
    omega
  · exact heq
  · exfalso
    obtain ⟨d, hd, hdt⟩ := @takeWhile_get_sat Nat (fun d : Nat => decide ((d : Int) < t)) xs m hgt
    have := h2 d hd
    simp only [decide_eq_true_eq] at hdt
    omega

theorem dchunk_sorted {B : Nat} (hB : 0 < B) {docs : List Nat}
    (hs : docs.Pairwise (· < ·)) (i : Nat) :
    (dchunk B docs i).Pairwise (· < ·) := by
  rw [dchunk_eq hB]
  exact ((hs.sublist (List.drop_sublist _ _)).sublist (List.take_sublist _ _))

/-- `bisect_left` as a lower bound on the dropped suffix. -/
theorem bisect_left_eq (xs : List Nat) (t : Int) (lo : Nat) :
    bisect_left xs t lo = lo + lowerIdx (xs.drop lo) t := rfl

/-- Correspondence between a cursor state and a global position `pos` in
the sorted docid list; `pos = docs.length` encodes exhaustion. -/
def CursorInv (B : Nat) (docs freqs : List Nat) (st : PostingsCursor) (pos : Nat) : Prop :=
  if pos < docs.length then
    st.exhausted = false ∧
    st.block_index = ((pos / B : Nat) : Int) ∧
    st.j = pos % B ∧
    st.docids = dchunk B docs (pos / B) ∧
    st.freqs = dchunk B freqs (pos / B) ∧
    st.block_last = (((dchunk B docs (pos / B)).getLastD 0 : Nat) : Int)
  else pos = docs.length ∧ st.exhausted = true

theorem CursorInv_exhausted {B : Nat} {docs freqs : List Nat} {st : PostingsCursor}
    {pos : Nat} (h : CursorInv B docs freqs st pos) (hpos : ¬pos < docs.length) :
    pos = docs.length ∧ st.exhausted = true := by
  rw [CursorInv, if_neg hpos] at h
  exact h

theorem CursorInv_active {B : Nat} {docs freqs : List Nat} {st : PostingsCursor}
    {pos : Nat} (h : CursorInv B docs freqs st pos) (hpos : pos < docs.length) :
    st.exhausted = false ∧
    st.block_index = ((pos / B : Nat) : Int) ∧
    st.j = pos % B ∧
    st.docids = dchunk B docs (pos / B) ∧
    st.freqs = dchunk B freqs (pos / B) ∧
    st.block_last = (((dchunk B docs (pos / B)).getLastD 0 : Nat) : Int) := by
  rw [CursorInv, if_pos hpos] at h
  exact h

theorem lowerIdx_neg_one (docs : List Nat) : lowerIdx docs (-1) = 0 := by
  cases docs with
  | nil => rfl
  | cons d ds =>
    rw [lowerIdx, List.takeWhile_cons_of_neg]
    · rfl
    · simp only [decide_eq_true_eq]
      omega

/-- The lower bound of a value taken from a sorted list is its index. -/
theorem lowerIdx_getD {docs : List Nat} (hs : docs.Pairwise (· < ·)) {m : Nat}
    (hm : m < docs.length) :
    lowerIdx docs ((docs.getD m 0 : Nat) : Int) = m := by
  apply lowerIdx_unique hs (by omega)
  · intro k hk
    refine ⟨docs.getD k 0, @get?_eq_some_getD docs k (by omega), ?_⟩
    have := sorted_get_lt hs hk (@get?_eq_some_getD docs k (by omega))
      (@get?_eq_some_getD docs m hm)
    omega
  · intro d hd
    rw [@get?_eq_some_getD docs m hm] at hd
    simp only [Option.some.injEq] at hd
    omega

/-- `PostingsCursor.__init__` leaves the cursor at global position 0
(exhausted when the postings list is empty). -/
theorem mkCursor_spec {file : List Nat} {entry : LexEntry} {B : Nat}
    {docs freqs : List Nat} (w : EntryWF file entry B docs freqs) :
    CursorInv B docs freqs (mkCursor file entry) 0 := by
  rw [mkCursor]
  by_cases hdf : entry.df = 0
  · rw [if_pos hdf]
    have hlen : docs.length = 0 := by rw [← w.hdf]; exact hdf
    rw [CursorInv, if_neg (by omega)]
    exact ⟨by omega, rfl⟩
  · rw [if_neg hdf]
    have hpos : 0 < docs.length := by
      have := w.hdf
      omega
    have hp : lowerIdx docs (-1) < docs.length := by
      rw [lowerIdx_neg_one]
      exact hpos
    rw [seek_block_ge_some w hp]
    rw [lowerIdx_neg_one]
    have h0B : 0 / B = 0 := Nat.zero_div B
    rw [h0B]
    have hne : dchunk B docs 0 ≠ [] := by
      have hlen := dchunk_length w.hB docs 0
      intro hcon
      rw [hcon] at hlen
      simp only [List.length_nil] at hlen
      have hB := w.hB
      omega
    have hempty : (dchunk B docs 0).isEmpty = false := by
      rcases hd : dchunk B docs 0 with - | ⟨a, l⟩
      · exact absurd hd hne
      · rfl
    rw [CursorInv, if_pos hpos]
    refine ⟨hempty, by simp, by simp, by simp, by simp, ?_⟩
    simp only [Nat.zero_div]
    rw [w.last_eq ((w.block_lt_iff 0).mpr (by simpa using hpos))]

/-- `_load_block` at a valid directory index loads exactly that block. -/
theorem load_block_some {file : List Nat} {entry : LexEntry} {B : Nat}
    {docs freqs : List Nat} (w : EntryWF file entry B docs freqs)
    (st : PostingsCursor) {bidx : Nat} (hb : bidx < entry.blocks.length) :
    load_block file entry st (bidx : Int)
      = some { st with block_index := (bidx : Int),
                       block_last := ((entry.blocks.getD bidx default).last_docid : Int),
                       docids := dchunk B docs bidx,
                       freqs := dchunk B freqs bidx, j := 0 } := by
  have hB := w.hB
  have hblocks : entry.blocks ≠ [] := by
    intro hcon
    rw [hcon] at hb
    simp at hb
  have hBb : B * bidx < docs.length := (w.block_lt_iff bidx).mp hb
  rw [load_block.eq_def, if_neg (by simp [hblocks])]
  rw [if_neg (by push_neg; constructor <;> [omega; exact_mod_cast hb])]
  have htoNat : ((bidx : Int)).toNat = bidx := Int.toNat_natCast bidx
  rw [htoNat]
  set idx := min (B * bidx + B) docs.length - 1 with hidx
  have htarget : (entry.blocks.getD bidx default).last_docid = docs.getD idx 0 :=
    w.last_idx hb
  have hidxlt : idx < docs.length := by omega
  have hlow : lowerIdx docs ((docs.getD idx 0 : Nat) : Int) = idx :=
    lowerIdx_getD w.sorted hidxlt
  have hdiv : idx / B = bidx := by
    apply Nat.div_eq_of_lt_le
    · rw [Nat.mul_comm]
      omega
    · rw [show (bidx + 1) * B = B * bidx + B from by ring]
      omega
  rw [htarget]
  have hp2 : lowerIdx docs ((docs.getD idx 0 : Nat) : Int) < docs.length := by
    rw [hlow]
    exact hidxlt
  have hseek := seek_block_ge_some w hp2
  simp only [hseek, hlow, hdiv]
  rw [htarget]

/-- `_load_block` past the directory (or at a negative index) fails. -/
theorem load_block_none {file : List Nat} {entry : LexEntry}
    (st : PostingsCursor) {bidx : Int}
    (hb : (entry.blocks.length : Int) ≤ bidx ∨ bidx < 0) :
    load_block file entry st bidx = none := by
  rw [load_block.eq_def]
  by_cases hblocks : entry.blocks = []
  · rw [if_pos hblocks]
    match bidx with
    | .negSucc m => rfl
    | .ofNat m =>
      have : iter_blocks file entry = [] := by
        rw [iter_blocks, hblocks]
        rfl
      rw [this]
      rfl
  · rw [if_neg hblocks]
    rw [if_pos (by omega)]

theorem chunk_pos_lt {B : Nat} (hB : 0 < B) {docs : List Nat} {pos : Nat}
    (hpos : pos < docs.length) :
    pos % B < (dchunk B docs (pos / B)).length := by
  rw [dchunk_length hB]
  have hdm := Nat.div_add_mod pos B
  have hmod : pos % B < B := Nat.mod_lt _ hB
  omega

/-- `PostingsCursor.docid` returns the document at the cursor's global
position. -/
theorem cursor_docid_spec {B : Nat} {docs freqs : List Nat} {st : PostingsCursor}
    {pos : Nat} (hB : 0 < B) (hinv : CursorInv B docs freqs st pos) :
    cursor_docid st = docs.get? pos := by
  by_cases hpos : pos < docs.length
  · obtain ⟨hex, hbi, hj, hd, hf, hl⟩ := CursorInv_active hinv hpos
    rw [cursor_docid]
    have hjlt : st.j < st.docids.length := by
      rw [hj, hd]
      exact chunk_pos_lt hB hpos
    rw [if_neg (by rw [hex]; push_neg; exact ⟨by simp, by omega⟩)]
    rw [hj, hd, dchunk_get hB docs (pos / B) (pos % B) (Nat.mod_lt _ hB)]
    rw [Nat.div_add_mod pos B]
  · obtain ⟨hlen, hex⟩ := CursorInv_exhausted hinv hpos
    rw [cursor_docid, if_pos (Or.inl hex)]
    rw [List.get?_eq_none.mpr (by omega)]

/-- `PostingsCursor.advance` steps the cursor one position forward. -/
theorem cursor_advance_spec {file : List Nat} {entry : LexEntry} {B : Nat}
    {docs freqs : List Nat} (w : EntryWF file entry B docs freqs)
    {st : PostingsCursor} {pos : Nat} (hinv : CursorInv B docs freqs st pos) :
    (cursor_advance file entry st).1 = docs.get? (pos + 1) ∧
    CursorInv B docs freqs (cursor_advance file entry st).2 (min (pos + 1) docs.length) := by
  have hB := w.hB
  by_cases hpos : pos < docs.length
  case neg =>
    obtain ⟨hlen, hex⟩ := CursorInv_exhausted hinv hpos
    rw [cursor_advance, if_pos hex]
    constructor
    · rw [List.get?_eq_none.mpr (by omega)]
    · have : min (pos + 1) docs.length = pos := by omega
      rw [this]
      exact hinv
  case pos =>
  obtain ⟨hex, hbi, hj, hd, hf, hl⟩ := CursorInv_active hinv hpos
  have hmod : pos % B < B := Nat.mod_lt _ hB
  have hdm := Nat.div_add_mod pos B
  have hchunklen : (dchunk B docs (pos / B)).length = min B (docs.length - B * (pos / B)) :=
    dchunk_length hB docs (pos / B)
  have hjlen : pos % B < (dchunk B docs (pos / B)).length := chunk_pos_lt hB hpos
  rw [cursor_advance, if_neg (by simp [hex])]
  simp only [hj, hd, hf, hbi]
  by_cases hlt : pos % B + 1 < (dchunk B docs (pos / B)).length
  · -- still inside the same block
    rw [if_pos hlt]
    have hpos1 : pos + 1 < docs.length := by omega
    have hdiv1 : (pos + 1) / B = pos / B := by
      apply Nat.div_eq_of_lt_le
      · rw [Nat.mul_comm]
        omega
      · rw [show (pos / B + 1) * B = B * (pos / B) + B from by ring]
        omega
    have hmod1 : (pos + 1) % B = pos % B + 1 := by
      have h1 := Nat.div_add_mod (pos + 1) B
      rw [hdiv1] at h1
      omega
    constructor
    · simp only
      rw [dchunk_get hB docs (pos / B) (pos % B + 1) (by omega)]
      congr 1
      omega
    · have hmin : min (pos + 1) docs.length = pos + 1 := by omega
      rw [hmin, CursorInv, if_pos hpos1, hdiv1, hmod1]
      exact ⟨hex, rfl, rfl, rfl, rfl, hl⟩
  · -- fell off the end of the block
    rw [if_neg hlt]
    have hlen_eq : (dchunk B docs (pos / B)).length = pos % B + 1 := by omega
    have hcast : ((pos / B : Nat) : Int) + 1 = ((pos / B + 1 : Nat) : Int) := by push_cast; ring
    rw [hcast]
    by_cases hpos1 : pos + 1 < docs.length
    · -- the next block exists
      have hfull : (dchunk B docs (pos / B)).length = B := by omega
      have hmodB : pos % B = B - 1 := by omega
      have hnext : B * (pos / B + 1) = pos + 1 := by
        rw [show B * (pos / B + 1) = B * (pos / B) + B from by ring]
        omega
      have hdiv1 : (pos + 1) / B = pos / B + 1 := by
        apply Nat.div_eq_of_lt_le
        · rw [Nat.mul_comm]
          omega
        · rw [show (pos / B + 1 + 1) * B = B * (pos / B + 1) + B from by ring]
          omega
      have hmod1 : (pos + 1) % B = 0 := by
        have h1 := Nat.div_add_mod (pos + 1) B
        rw [hdiv1] at h1
        omega
      have hblt : pos / B + 1 < entry.blocks.length := by
        rw [w.block_lt_iff]
        omega
      simp only [load_block_some w _ hblt]
      constructor
      · rw [dchunk_get hB docs (pos / B + 1) 0 hB,
          show B * (pos / B + 1) + 0 = pos + 1 from by omega]
      · have hmin : min (pos + 1) docs.length = pos + 1 := by omega
        rw [hmin, CursorInv, if_pos hpos1, hdiv1, hmod1]
        exact ⟨hex, rfl, rfl, rfl, rfl, by rw [w.last_eq hblt]⟩
    · -- the block was the last one: the cursor becomes exhausted
      have hend : pos + 1 = docs.length := by omega
      have hnoblock : ¬(pos / B + 1 < entry.blocks.length) := by
        rw [w.block_lt_iff]
        rw [show B * (pos / B + 1) = B * (pos / B) + B from by ring]
        omega
      have hge : (entry.blocks.length : Int) ≤ ((pos / B + 1 : Nat) : Int) := by
        exact_mod_cast Nat.le_of_not_lt hnoblock
      simp only [load_block_none _ (Or.inl hge)]
      constructor
      · rw [List.get?_eq_none.mpr (by omega)]
      · rw [CursorInv, if_neg (by omega)]
        exact ⟨by omega, rfl⟩

/-- The always-in-range position reached by `next_ge`: the first position
at or after `pos` whose docid is `≥ t`. -/
theorem next_ge_spec {file : List Nat} {entry : LexEntry} {B : Nat}
    {docs freqs : List Nat} (w : EntryWF file entry B docs freqs)
    {st : PostingsCursor} {pos : Nat} (hinv : CursorInv B docs freqs st pos) (t : Int) :
    (next_ge file entry st t).1 = docs.get? (max pos (lowerIdx docs t)) ∧
    CursorInv B docs freqs (next_ge file entry st t).2
      (min (max pos (lowerIdx docs t)) docs.length) := by
  have hB := w.hB
  have hs := w.sorted
  set p := lowerIdx docs t with hpdef
  have htw : (docs.takeWhile (fun d : Nat => decide ((d : Int) < t))).length = p := by
    rw [hpdef]
    rfl
  have hple : p ≤ docs.length := lowerIdx_le docs t
  by_cases hpos : pos < docs.length
  case neg =>
    obtain ⟨hlen, hex⟩ := CursorInv_exhausted hinv hpos
    rw [next_ge, if_pos hex]
    constructor
    · rw [List.get?_eq_none.mpr (by omega)]
    · have : min (max pos p) docs.length = pos := by omega
      rw [this]
      exact hinv
  case pos =>
  obtain ⟨hex, hbi, hj, hd, hf, hl⟩ := CursorInv_active hinv hpos
  have hmod : pos % B < B := Nat.mod_lt _ hB
  have hdm := Nat.div_add_mod pos B
  have hchunklen : (dchunk B docs (pos / B)).length = min B (docs.length - B * (pos / B)) :=
    dchunk_length hB docs (pos / B)
  have hjlen : pos % B < (dchunk B docs (pos / B)).length := chunk_pos_lt hB hpos
  set e := min (B * (pos / B) + B) docs.length - 1 with hedef
  have helt : e < docs.length := by omega
  have hpose : pos ≤ e := by omega
  have hlast : (dchunk B docs (pos / B)).getLastD 0 = docs.getD e 0 := by
    rw [dchunk_getLastD hB docs (pos / B) (by omega)]
  rw [next_ge, if_neg (by simp [hex])]
  simp only [hj, hd, hbi, hl, hlast]
  by_cases hcase : t ≤ ((docs.getD e 0 : Nat) : Int)
  · -- target within the current block: in-block lower bound from j
    rw [if_pos hcase]
    have hpe : p ≤ e := by
      by_contra hgt
      push_neg at hgt
      obtain ⟨d, hdg, hdt⟩ := @takeWhile_get_sat Nat
        (fun d : Nat => decide ((d : Int) < t)) docs e hgt
      rw [@get?_eq_some_getD docs e helt] at hdg
      simp only [Option.some.injEq] at hdg
      subst hdg
      simp only [decide_eq_true_eq] at hdt
      omega
    set q := max pos p with hqdef
    have hqe : q ≤ e := by omega
    have hqlt : q < docs.length := by omega
    have hbis : bisect_left (dchunk B docs (pos / B)) t (pos % B)
        = q - B * (pos / B) := by
      rw [bisect_left_eq]
      have hdropsorted : ((dchunk B docs (pos / B)).drop (pos % B)).Pairwise (· < ·) :=
        (dchunk_sorted hB hs (pos / B)).sublist (List.drop_sublist _ _)
      have hdropget : ∀ k, pos % B + k < B →
          ((dchunk B docs (pos / B)).drop (pos % B)).get? k = docs.get? (pos + k) := by
        intro k hkB
        rw [List.get?_drop, dchunk_get hB docs (pos / B) (pos % B + k) hkB]
        congr 1
        omega
      have := lowerIdx_unique hdropsorted
        (show q - pos ≤ ((dchunk B docs (pos / B)).drop (pos % B)).length by
          rw [List.length_drop]
          omega)
        (fun k hk => by
          rw [hdropget k (by omega)]
          refine ⟨docs.getD (pos + k) 0, @get?_eq_some_getD docs (pos + k) (by omega), ?_⟩
          obtain ⟨d, hdg, hdt⟩ := @takeWhile_get_sat Nat
            (fun d : Nat => decide ((d : Int) < t)) docs (pos + k) (by omega)
          rw [@get?_eq_some_getD docs (pos + k) (by omega)] at hdg
          simp only [Option.some.injEq] at hdg
          subst hdg
          simpa using hdt)
        (fun d hdg => by
          rw [hdropget (q - pos) (by omega)] at hdg
          have hq2 : pos + (q - pos) = q := by omega
          rw [hq2] at hdg
          exact sorted_past_takeWhile hs t (by omega) hdg)
      omega
    rw [hbis]
    have hql2 : q - B * (pos / B) < (dchunk B docs (pos / B)).length := by omega
    rw [if_pos hql2]
    have hqdiv : q / B = pos / B := by
      apply Nat.div_eq_of_lt_le
      · rw [Nat.mul_comm]
        omega
      · rw [show (pos / B + 1) * B = B * (pos / B) + B from by ring]
        omega
    have hqmod : q % B = q - B * (pos / B) := by
      have h1 := Nat.div_add_mod q B
      rw [hqdiv] at h1
      omega
    constructor
    · simp only
      rw [dchunk_get hB docs (pos / B) (q - B * (pos / B)) (by omega)]
      congr 1
      omega
    · have hmin : min q docs.length = q := by omega
      rw [hmin, CursorInv, if_pos hqlt, hqdiv, hqmod]
      exact ⟨hex, rfl, rfl, rfl, hf, by rw [hlast]⟩
  · -- target beyond the current block: block-level seek
    rw [if_neg hcase]
    push_neg at hcase
    have hep : e < p := by
      by_contra hge
      push_neg at hge
      have := sorted_past_takeWhile hs t (show lowerIdx docs t ≤ e by omega)
        (@get?_eq_some_getD docs e helt)
      omega
    have hq : max pos p = p := by omega
    rw [hq]
    rw [next_ge_seek]
    by_cases hpn : p < docs.length
    · rw [seek_block_ge_some w (by rw [← hpdef]; exact hpn)]
      rw [← hpdef]
      have hpmod : p % B < B := Nat.mod_lt _ hB
      have hpdm := Nat.div_add_mod p B
      have hplen : p % B < (dchunk B docs (p / B)).length := chunk_pos_lt hB hpn
      have hbis0 : bisect_left (dchunk B docs (p / B)) t 0 = p % B := by
        rw [bisect_left_zero]
        apply lowerIdx_unique (dchunk_sorted hB hs (p / B)) (by omega)
        · intro k hk
          rw [dchunk_get hB docs (p / B) k (by omega)]
          refine ⟨docs.getD (B * (p / B) + k) 0,
            @get?_eq_some_getD docs (B * (p / B) + k) (by omega), ?_⟩
          obtain ⟨d, hdg, hdt⟩ := @takeWhile_get_sat Nat
            (fun d : Nat => decide ((d : Int) < t)) docs (B * (p / B) + k) (by omega)
          rw [@get?_eq_some_getD docs (B * (p / B) + k) (by omega)] at hdg
          simp only [Option.some.injEq] at hdg
          subst hdg
          simpa using hdt
        · intro d hdg
          rw [dchunk_get hB docs (p / B) (p % B) hpmod] at hdg
          have hq2 : B * (p / B) + p % B = p := by omega
          rw [hq2] at hdg
          exact sorted_past_takeWhile hs t (by omega) hdg
      simp only [hbis0]
      rw [if_pos hplen]
      constructor
      · simp only
        rw [dchunk_get hB docs (p / B) (p % B) hpmod,
          show B * (p / B) + p % B = p from by omega]
      · have hmin : min p docs.length = p := by omega
        rw [hmin, CursorInv, if_pos hpn]
        refine ⟨hex, rfl, rfl, rfl, rfl, ?_⟩
        rw [w.last_eq ((w.block_lt_iff (p / B)).mpr (by omega))]
    · have hpn2 : p = docs.length := by omega
      rw [seek_block_ge_none w (by omega)]
      constructor
      · rw [List.get?_eq_none.mpr (by omega)]
      · rw [CursorInv, if_neg (by omega)]
        exact ⟨by omega, rfl⟩

/-! ## Reader round trips: `read_postings` and `iter_blocks` -/

theorem chunkList_flatten {B : Nat} (hB : 0 < B) :
    ∀ (xs : List α), (chunkList B xs).flatten = xs := by
  intro xs
  induction xs using chunkList.induct B with
  | case1 => simp [chunkList]
  | case2 x xs hB0 => omega
  | case3 x xs hB0 ih =>
    rw [chunkList_cons, if_neg hB0, List.flatten_cons, ih, List.take_append_drop]

theorem BlocksRead.read_go {codec : String} {file : List Nat} :
    ∀ {ms : List Block} {prev : Nat} {dcs fcs : List (List Nat)},
      BlocksRead codec file ms prev dcs fcs →
      read_postings_go codec file ms prev = (dcs.flatten, fcs.flatten) := by
  intro ms
  induction ms with
  | nil =>
    intro prev dcs fcs h
    match dcs, fcs with
    | [], [] => rfl
    | [], _ :: _ => exact absurd h (by simp [BlocksRead])
    | _ :: _, [] => exact absurd h (by simp [BlocksRead])
    | _ :: _, _ :: _ => exact absurd h (by simp [BlocksRead])
  | cons m ms ih =>
    intro prev dcs fcs h
    match dcs, fcs with
    | [], [] => exact absurd h (by simp [BlocksRead])
    | [], _ :: _ => exact absurd h (by simp [BlocksRead])
    | _ :: _, [] => exact absurd h (by simp [BlocksRead])
    | dc :: dcs, fc :: fcs =>
      obtain ⟨hread, hlast, hrec⟩ := h
      rw [read_postings_go, hread, ih hrec]
      rfl

/-- Reading a well-formed entry returns the full sorted docid and frequency
lists. -/
theorem read_postings_spec {file : List Nat} {entry : LexEntry} {B : Nat}
    {docs freqs : List Nat} (w : EntryWF file entry B docs freqs) :
    read_postings file entry = (docs, freqs) := by
  rw [read_postings, w.reads.read_go, chunkList_flatten w.hB, chunkList_flatten w.hB]

theorem BlocksRead.iter_go {codec : String} {file : List Nat} :
    ∀ {ms : List Block} {prev : Nat} {dcs fcs : List (List Nat)},
      BlocksRead codec file ms prev dcs fcs →
      iter_blocks_go codec file ms prev
        = (ms.zip (dcs.zip fcs)).map (fun x => (x.1.last_docid, x.2)) := by
  intro ms
  induction ms with
  | nil =>
    intro prev dcs fcs h
    match dcs, fcs with
    | [], [] => rfl
    | [], _ :: _ => exact absurd h (by simp [BlocksRead])
    | _ :: _, [] => exact absurd h (by simp [BlocksRead])
    | _ :: _, _ :: _ => exact absurd h (by simp [BlocksRead])
  | cons m ms ih =>
    intro prev dcs fcs h
    match dcs, fcs with
    | [], [] => exact absurd h (by simp [BlocksRead])
    | [], _ :: _ => exact absurd h (by simp [BlocksRead])
    | _ :: _, [] => exact absurd h (by simp [BlocksRead])
    | dc :: dcs, fc :: fcs =>
      obtain ⟨hread, hlast, hrec⟩ := h
      rw [iter_blocks_go, hread, ih hrec]
      rfl

/-! ## Success of `add_term` under the data-model bounds -/

theorem getLastD_mem {xs : List Nat} (h : xs ≠ []) (d : Nat) : xs.getLastD d ∈ xs := by
  rw [List.getLastD_eq_getLast? , List.getLast?_eq_getLast xs h]
  simp only [Option.getD_some]
  exact List.getLast_mem h

theorem encode_docids_go_isSome :
    ∀ (docids : List Nat) (prev : Nat), (∀ d ∈ docids, prev ≤ d) →
      docids.Pairwise (· ≤ ·) →
      ∃ db, VarByteCodec.encode_docids_go docids prev = some db := by
  intro docids
  induction docids with
  | nil =>
    intro prev _ _
    exact ⟨[], rfl⟩
  | cons d ds ih =>
    intro prev hge hpw
    obtain ⟨hd, hpw'⟩ := List.pairwise_cons.mp hpw
    obtain ⟨db, hdb⟩ := ih d hd hpw'
    refine ⟨VarByteCodec.vb_encode_number ((d : Int) - (prev : Int)).toNat ++ db, ?_⟩
    rw [VarByteCodec.encode_docids_go]
    have hgap : ¬((d : Int) - (prev : Int) < 0) := by
      have := hge d (List.mem_cons_self d ds)
      omega
    rw [if_neg hgap, hdb]
    rfl

theorem pack_u32_list_isSome :
    ∀ (xs : List Nat), (∀ x ∈ xs, x < 2 ^ 32) → ∃ b, pack_u32_list xs = some b := by
  intro xs
  induction xs with
  | nil => exact fun _ => ⟨[], rfl⟩
  | cons x xs ih =>
    intro hb
    obtain ⟨bs, hbs⟩ := ih (fun y hy => hb y (List.mem_cons_of_mem _ hy))
    rw [pack_u32_list, pack_u32_isSome (hb x (List.mem_cons_self x xs)), hbs]
    exact ⟨_, rfl⟩

theorem encode_block_isSome {codec : String} {chunk : List (Nat × Nat)} {prevLast : Nat}
    (hge : ∀ pr ∈ chunk, prevLast ≤ pr.1)
    (hpw : (chunk.map Prod.fst).Pairwise (· ≤ ·))
    (hb : ∀ pr ∈ chunk, pr.1 < 2 ^ 32 ∧ pr.2 < 2 ^ 32) :
    ∃ out, encode_block codec (chunk.map Prod.fst) (chunk.map Prod.snd) prevLast = some out := by
  rw [encode_block]
  by_cases hc : codec = "varbyte"
  · rw [if_pos hc]
    have hge' : ∀ d ∈ chunk.map Prod.fst, prevLast ≤ d := by
      intro d hd
      obtain ⟨pr, hpr, rfl⟩ := List.mem_map.mp hd
      exact hge pr hpr
    obtain ⟨db, hdb⟩ := encode_docids_go_isSome (chunk.map Prod.fst) prevLast hge' hpw
    have : VarByteCodec.encode_docids (chunk.map Prod.fst) prevLast = some db ∨
        VarByteCodec.encode_docids (chunk.map Prod.fst) prevLast = some [] := by
      rw [VarByteCodec.encode_docids]
      split
      · exact Or.inr rfl
      · exact Or.inl hdb
    rcases this with h | h <;> · rw [h]; exact ⟨_, rfl⟩
  · rw [if_neg hc]
    obtain ⟨db, hdb⟩ := pack_u32_list_isSome (chunk.map Prod.fst)
      (by
        intro x hx
        obtain ⟨pr, hpr, rfl⟩ := List.mem_map.mp hx
        exact (hb pr hpr).1)
    obtain ⟨fb, hfb⟩ := pack_u32_list_isSome (chunk.map Prod.snd)
      (by
        intro x hx
        obtain ⟨pr, hpr, rfl⟩ := List.mem_map.mp hx
        exact (hb pr hpr).2)
    rw [hdb, hfb]
    exact ⟨_, rfl⟩

/-- The chunk-chain condition under which every block encodes: each chunk
is non-empty, internally sorted, bounded by `u32`, and starts at or above
the running `prev_last`. -/
def GoodChunks : Nat → List (List (Nat × Nat)) → Prop
  | _, [] => True
  | prev, c :: cs =>
    c ≠ [] ∧ (∀ pr ∈ c, prev ≤ pr.1) ∧ (c.map Prod.fst).Pairwise (· ≤ ·) ∧
    (∀ pr ∈ c, pr.1 < 2 ^ 32 ∧ pr.2 < 2 ^ 32) ∧
    GoodChunks ((c.map Prod.fst).getLastD 0) cs

theorem write_blocks_isSome (codec : String) :
    ∀ (chunks : List (List (Nat × Nat))) (prevLast pos : Nat),
      GoodChunks prevLast chunks →
      ∃ out, write_blocks codec chunks prevLast pos = some out := by
  intro chunks
  induction chunks with
  | nil => exact fun _ _ _ => ⟨_, rfl⟩
  | cons c cs ih =>
    intro prevLast pos hg
    obtain ⟨hne, hge, hpw, hb, hrec⟩ := hg
    obtain ⟨⟨bytes, bd, bf⟩, henc⟩ := encode_block_isSome hge hpw hb
    obtain ⟨⟨tail, metas⟩, htail⟩ := ih _ (pos + bytes.length) hrec
    rw [write_blocks]
    simp only [Option.bind_eq_bind]
    rw [henc, Option.some_bind]
    rw [htail, Option.some_bind]
    exact ⟨_, rfl⟩

theorem goodChunks_of_sorted {B : Nat} (hB : 0 < B) :
    ∀ (items : List (Nat × Nat)) (prev : Nat),
      (∀ pr ∈ items, prev ≤ pr.1) →
      (items.map Prod.fst).Pairwise (· ≤ ·) →
      (∀ pr ∈ items, pr.1 < 2 ^ 32 ∧ pr.2 < 2 ^ 32) →
      GoodChunks prev (chunkList B items) := by
  intro items
  induction items using chunkList.induct B with
  | case1 =>
    intro prev _ _ _
    simp only [chunkList]
    exact trivial
  | case2 x xs hB0 => omega
  | case3 x xs hB0 ih =>
    intro prev hge hpw hb
    rw [chunkList_cons, if_neg hB0]
    have hsplit := List.take_append_drop B (x :: xs)
    have htake_sub : ∀ pr ∈ (x :: xs).take B, pr ∈ x :: xs :=
      fun pr hpr => (List.take_sublist B (x :: xs)).mem hpr
    have hdrop_sub : ∀ pr ∈ (x :: xs).drop B, pr ∈ x :: xs :=
      fun pr hpr => (List.drop_sublist B (x :: xs)).mem hpr
    have htake_ne : (x :: xs).take B ≠ [] := by
      intro hcon
      have := congrArg List.length hcon
      rw [List.length_take] at this
      simp at this
      omega
    refine ⟨htake_ne, fun pr hpr => hge pr (htake_sub pr hpr), ?_, 
      fun pr hpr => hb pr (htake_sub pr hpr), ?_⟩
    · exact hpw.sublist ((List.take_sublist B (x :: xs)).map Prod.fst)
    · -- the tail chunks start from the last docid of this chunk
      apply ih
      · -- every docid in the dropped part is ≥ the last docid of the take
        intro pr hpr
        have hlast_mem : (((x :: xs).take B).map Prod.fst).getLastD 0
            ∈ ((x :: xs).take B).map Prod.fst := by
          apply getLastD_mem
          intro hcon
          rw [List.map_eq_nil_iff] at hcon
          exact htake_ne hcon
        have hpw_split : ((x :: xs).map Prod.fst).Pairwise (· ≤ ·) := hpw
        rw [← hsplit, List.map_append, List.pairwise_append] at hpw_split
        obtain ⟨-, -, hcross⟩ := hpw_split
        exact hcross _ hlast_mem pr.1 (List.mem_map_of_mem Prod.fst hpr)
      · exact hpw.sublist ((List.drop_sublist B (x :: xs)).map Prod.fst)
      · exact fun pr hpr => hb pr (hdrop_sub pr hpr)

/-- Under the data-model bounds (`docid`, `tf` are `u32`) and distinct
docids, `add_term` succeeds for every codec. -/
theorem add_term_isSome {codec : String} {B : Nat} (hB : 0 < B)
    (file0 : List Nat) {ps : List (Nat × Nat)}
    (hnd : (ps.map Prod.fst).Nodup)
    (hb : ∀ pr ∈ ps, pr.1 < 2 ^ 32 ∧ pr.2 < 2 ^ 32) :
    ∃ file entry, add_term codec B file0 ps = some (file, entry) := by
  have hperm := sortedItems_perm ps
  have hsorted : ((sortedItems ps).map Prod.fst).Pairwise (· ≤ ·) := by
    have := sortedDocids_strict hnd
    rw [sortedDocids] at this
    exact this.imp Nat.le_of_lt
  have hbs : ∀ pr ∈ sortedItems ps, pr.1 < 2 ^ 32 ∧ pr.2 < 2 ^ 32 :=
    fun pr hpr => hb pr (hperm.mem_iff.mp hpr)
  have hgood := goodChunks_of_sorted hB (sortedItems ps) 0
    (fun pr _ => Nat.zero_le _) hsorted hbs
  obtain ⟨⟨bytes, metas⟩, hwb⟩ := write_blocks_isSome codec _ 0 file0.length hgood
  rw [add_term]
  rw [hwb]
  exact ⟨_, _, rfl⟩

/-! ## Claim support: entry well-formedness from `add_term`, and `iter_blocks` facts -/

theorem add_term_entryWF {codec : String} {B : Nat} {file0 file : List Nat}
    {ps : List (Nat × Nat)} {entry : LexEntry} (hB : 0 < B)
    (hnd : (ps.map Prod.fst).Nodup)
    (h : add_term codec B file0 ps = some (file, entry)) (post : List Nat) :
    EntryWF (file ++ post) entry B (sortedDocids ps) (sortedFreqs ps) := by
  obtain ⟨hoff, hcodec, hdf, hnb, hbytes, hreads⟩ := add_term_spec h
  refine ⟨hB, sortedDocids_strict hnd, ?_, ?_, ?_⟩
  · rw [sortedFreqs, sortedDocids, List.length_map, List.length_map]
  · rw [hdf, sortedDocids, List.length_map, sortedItems_length]
  · rw [hcodec]
    exact hreads post

theorem BlocksRead.iter_lengths {codec : String} {file : List Nat} :
    ∀ {ms : List Block} {prev : Nat} {dcs fcs : List (List Nat)},
      BlocksRead codec file ms prev dcs fcs →
      (iter_blocks_go codec file ms prev).map (fun b => b.2.1.length)
        = dcs.map List.length := by
  intro ms
  induction ms with
  | nil =>
    intro prev dcs fcs h
    match dcs, fcs with
    | [], [] => rfl
    | [], _ :: _ => exact absurd h (by simp [BlocksRead])
    | _ :: _, [] => exact absurd h (by simp [BlocksRead])
    | _ :: _, _ :: _ => exact absurd h (by simp [BlocksRead])
  | cons m ms ih =>
    intro prev dcs fcs h
    match dcs, fcs with
    | [], [] => exact absurd h (by simp [BlocksRead])
    | [], _ :: _ => exact absurd h (by simp [BlocksRead])
    | _ :: _, [] => exact absurd h (by simp [BlocksRead])
    | dc :: dcs, fc :: fcs =>
      obtain ⟨hread, hlast, hrec⟩ := h
      rw [iter_blocks_go, hread]
      simp only [List.map_cons]
      rw [ih hrec]

theorem BlocksRead.iter_mem {codec : String} {file : List Nat} :
    ∀ {ms : List Block} {prev : Nat} {dcs fcs : List (List Nat)},
      BlocksRead codec file ms prev dcs fcs →
      ∀ b ∈ iter_blocks_go codec file ms prev,
        (∃ i, i < ms.length ∧ b.2.1 = dcs.getD i []) ∧ b.1 = b.2.1.getLastD 0 := by
  intro ms
  induction ms with
  | nil =>
    intro prev dcs fcs h b hb
    match dcs, fcs with
    | [], [] => simp [iter_blocks_go] at hb
    | [], _ :: _ => exact absurd h (by simp [BlocksRead])
    | _ :: _, [] => exact absurd h (by simp [BlocksRead])
    | _ :: _, _ :: _ => exact absurd h (by simp [BlocksRead])
  | cons m ms ih =>
    intro prev dcs fcs h b hb
    match dcs, fcs with
    | [], [] => exact absurd h (by simp [BlocksRead])
    | [], _ :: _ => exact absurd h (by simp [BlocksRead])
    | _ :: _, [] => exact absurd h (by simp [BlocksRead])
    | dc :: dcs, fc :: fcs =>
      obtain ⟨hread, hlast, hrec⟩ := h
      rw [iter_blocks_go, hread] at hb
      rcases List.mem_cons.mp hb with rfl | hb
      · exact ⟨⟨0, by simp, rfl⟩, hlast⟩
      · obtain ⟨⟨i, hi, hdc⟩, hl⟩ := ih hrec b hb
        exact ⟨⟨i + 1, by simpa using hi, hdc⟩, hl⟩

theorem BlocksRead.iter_getD {codec : String} {file : List Nat} :
    ∀ {ms : List Block} {prev : Nat} {dcs fcs : List (List Nat)},
      BlocksRead codec file ms prev dcs fcs →
      ∀ i, i < ms.length →
        (iter_blocks_go codec file ms prev).getD i (0, [], [])
          = ((ms.getD i default).last_docid, dcs.getD i [], fcs.getD i []) := by
  intro ms
  induction ms with
  | nil =>
    intro prev dcs fcs _ i hi
    simp at hi
  | cons m ms ih =>
    intro prev dcs fcs h i hi
    match dcs, fcs with
    | [], [] => exact absurd h (by simp [BlocksRead])
    | [], _ :: _ => exact absurd h (by simp [BlocksRead])
    | _ :: _, [] => exact absurd h (by simp [BlocksRead])
    | dc :: dcs, fc :: fcs =>
      obtain ⟨hread, hlast, hrec⟩ := h
      rw [iter_blocks_go, hread]
      match i with
      | 0 => rfl
      | i + 1 =>
        simp only [List.getD_cons_succ]
        exact ih hrec i (by simpa using hi)

/-! ## Claim theorems for the postings store -/

/-- **C1.** For every finite postings map (distinct docids, `tf ≥ 1`, both
within the data model's `u32` bounds) and every block size, writing the
term with `ListWriter.add_term` under codec `"raw"` and, separately, under
codec `"varbyte"`, then reading each back with `ListReader.read_postings`,
yields identical `(docids, freqs)` lists for both codecs, namely the map's
pairs sorted by ascending docid. -/
theorem claim_C1_codec_roundtrip {B : Nat} (hB : 0 < B) (file0 : List Nat)
    (ps : List (Nat × Nat)) (hnd : (ps.map Prod.fst).Nodup)
    (hbound : ∀ pr ∈ ps, pr.1 < 2 ^ 32 ∧ 1 ≤ pr.2 ∧ pr.2 < 2 ^ 32) :
    (add_term "raw" B file0 ps).map (fun r => read_postings r.1 r.2)
        = some (sortedDocids ps, sortedFreqs ps) ∧
    (add_term "varbyte" B file0 ps).map (fun r => read_postings r.1 r.2)
        = some (sortedDocids ps, sortedFreqs ps) := by
  have hb32 : ∀ pr ∈ ps, pr.1 < 2 ^ 32 ∧ pr.2 < 2 ^ 32 :=
    fun pr hpr => ⟨(hbound pr hpr).1, (hbound pr hpr).2.2⟩
  constructor
  · obtain ⟨file, entry, hadd⟩ := add_term_isSome hB file0 hnd hb32
    rw [hadd, Option.map_some']
    have w := add_term_entryWF hB hnd hadd []
    rw [List.append_nil] at w
    rw [read_postings_spec w]
  · obtain ⟨file, entry, hadd⟩ := add_term_isSome hB file0 hnd hb32
    rw [hadd, Option.map_some']
    have w := add_term_entryWF hB hnd hadd []
    rw [List.append_nil] at w
    rw [read_postings_spec w]

theorem claim_C1_codec_roundtrip_witness :
    ((add_term "raw" 2 [] [(3, 1), (1, 2), (7, 5)]).map
        (fun r => read_postings r.1 r.2)
      = some (sortedDocids [(3, 1), (1, 2), (7, 5)], sortedFreqs [(3, 1), (1, 2), (7, 5)])) ∧
    ((add_term "varbyte" 2 [] [(3, 1), (1, 2), (7, 5)]).map
        (fun r => read_postings r.1 r.2)
      = some (sortedDocids [(3, 1), (1, 2), (7, 5)], sortedFreqs [(3, 1), (1, 2), (7, 5)])) :=
  claim_C1_codec_roundtrip (by norm_num) [] [(3, 1), (1, 2), (7, 5)]
    (by decide) (by decide)

/-- **C4.** For every non-empty postings map (within the `u32` bounds), the
lexicon entry returned by `ListWriter.add_term` satisfies all block
invariants: the decoded per-block posting counts sum to `df`; each block's
decoded docids are strictly increasing; each block's recorded `last_docid`
equals its decoded final docid; and the first decoded docid of block `i+1`
is greater than the recorded `last_docid` of block `i`. -/
theorem claim_C4_block_invariants {codec : String} {B : Nat} {file0 file : List Nat}
    {ps : List (Nat × Nat)} {entry : LexEntry} (hB : 0 < B)
    (hnd : (ps.map Prod.fst).Nodup)
    (hadd : add_term codec B file0 ps = some (file, entry)) :
    (((iter_blocks file entry).map (fun b => b.2.1.length)).sum = entry.df) ∧
    (∀ b ∈ iter_blocks file entry, b.2.1.Pairwise (· < ·)) ∧
    (∀ b ∈ iter_blocks file entry, b.1 = b.2.1.getLastD 0) ∧
    (∀ i, i + 1 < (iter_blocks file entry).length →
      ((iter_blocks file entry).getD i (0, [], [])).1
        < (((iter_blocks file entry).getD (i + 1) (0, [], [])).2.1).getD 0 0) := by
  have w := add_term_entryWF hB hnd hadd []
  rw [List.append_nil] at w
  set docs := sortedDocids ps with hdocs
  have hs : docs.Pairwise (· < ·) := w.sorted
  have hiter : iter_blocks file entry = iter_blocks_go entry.codec file entry.blocks 0 := rfl
  refine ⟨?_, ?_, ?_, ?_⟩
  · rw [hiter, w.reads.iter_lengths]
    have hflat := chunkList_flatten w.hB docs
    have := congrArg List.length hflat
    rw [List.length_flatten] at this
    rw [this, w.hdf]
  · intro b hb
    rw [hiter] at hb
    obtain ⟨⟨i, hi, hdc⟩, -⟩ := w.reads.iter_mem b hb
    rw [hdc]
    exact dchunk_sorted w.hB hs i
  · intro b hb
    rw [hiter] at hb
    exact (w.reads.iter_mem b hb).2
  · intro i hi1
    have hlen : (iter_blocks file entry).length = entry.blocks.length := by
      rw [hiter]
      have := congrArg List.length (w.reads.iter_lengths)
      simp only [List.length_map] at this
      rw [this, w.nblocks_eq]
    have hi1' : i + 1 < entry.blocks.length := by omega
    have hi' : i < entry.blocks.length := by omega
    rw [hiter, w.reads.iter_getD i hi', w.reads.iter_getD (i + 1) hi1']
    simp only
    have hBi1 : B * (i + 1) < docs.length := (w.block_lt_iff (i + 1)).mp hi1'
    have hBi : B * i < docs.length := (w.block_lt_iff i).mp hi'
    have hlast := w.last_idx hi'
    rw [hlast]
    have hfirst : ((chunkList B docs).getD (i + 1) []).getD 0 0
        = docs.getD (B * (i + 1)) 0 := by
      have hg := dchunk_get w.hB docs (i + 1) 0 w.hB
      simp only [Nat.add_zero] at hg
      rw [@get?_eq_some_getD (dchunk B docs (i + 1)) 0
        (by rw [dchunk_length w.hB]; omega)] at hg
      rw [@get?_eq_some_getD docs (B * (i + 1)) hBi1] at hg
      simp only [Option.some.injEq] at hg
      exact hg
    rw [hfirst]
    have hstep : B * i + B = B * (i + 1) := by ring
    have hidx : min (B * i + B) docs.length - 1 < B * (i + 1) := by omega
    exact sorted_get_lt hs hidx
      (@get?_eq_some_getD docs (min (B * i + B) docs.length - 1) (by omega))
      (@get?_eq_some_getD docs (B * (i + 1)) hBi1)

theorem claim_C4_block_invariants_witness :
    ∃ file entry, add_term "varbyte" 2 [] [(3, 1), (1, 2), (7, 5)] = some (file, entry) ∧
    ((((iter_blocks file entry).map (fun b => b.2.1.length)).sum = entry.df) ∧
    (∀ b ∈ iter_blocks file entry, b.2.1.Pairwise (· < ·)) ∧
    (∀ b ∈ iter_blocks file entry, b.1 = b.2.1.getLastD 0) ∧
    (∀ i, i + 1 < (iter_blocks file entry).length →
      ((iter_blocks file entry).getD i (0, [], [])).1
        < (((iter_blocks file entry).getD (i + 1) (0, [], [])).2.1).getD 0 0)) := by
  have h : ∃ file entry,
      add_term "varbyte" 2 [] [(3, 1), (1, 2), (7, 5)] = some (file, entry) :=
    add_term_isSome (by norm_num) [] (by decide) (by decide)
  obtain ⟨file, entry, hadd⟩ := h
  exact ⟨file, entry, hadd,
    claim_C4_block_invariants (by norm_num) (by decide) hadd⟩

/-- **C10.** `ListWriter.add_term` applied to an empty postings map returns
an entry with `df = 0`, `nblocks = 0` and an empty block list while writing
no bytes (the file is unchanged), and constructing a `PostingsCursor` from
any entry with `df = 0` yields a cursor that is immediately exhausted:
`docid()` is `none`, and `advance()` and `next_ge(t)` return `none` for
every `t`. -/
theorem claim_C10_empty_postings :
    (∀ (codec : String) (B : Nat) (file0 : List Nat),
      add_term codec B file0 []
        = some (file0, { offset := file0.length, df := 0, nblocks := 0,
                         blocks := [], codec := codec })) ∧
    (∀ (file : List Nat) (entry : LexEntry), entry.df = 0 →
      (mkCursor file entry).exhausted = true ∧
      cursor_docid (mkCursor file entry) = none ∧
      (cursor_advance file entry (mkCursor file entry)).1 = none ∧
      ∀ t : Int, (next_ge file entry (mkCursor file entry) t).1 = none) := by
  constructor
  · intro codec B file0
    rw [add_term]
    have hsorted : sortedItems ([] : List (Nat × Nat)) = [] := by
      rw [sortedItems, List.mergeSort_nil]
    rw [hsorted]
    have hchunk : chunkList B ([] : List (Nat × Nat)) = [] := by
      rw [chunkList]
    rw [hchunk]
    rw [write_blocks]
    simp
  · intro file entry hdf
    have hmk : mkCursor file entry
        = { block_index := -1, block_last := -1, docids := [], freqs := [],
            j := 0, exhausted := true } := by
      rw [mkCursor, if_pos hdf]
    refine ⟨by rw [hmk], by rw [hmk]; rfl, by rw [hmk]; rfl, fun t => by rw [hmk]; rfl⟩

theorem claim_C10_empty_postings_witness :
    (add_term "raw" 128 [0, 1, 2] []
      = some ([0, 1, 2],
          { offset := 3, df := 0, nblocks := 0, blocks := [], codec := "raw" })) ∧
    ((mkCursor [] { offset := 0, df := 0, nblocks := 0, blocks := [], codec := "raw" }).exhausted
        = true ∧
     cursor_docid
        (mkCursor [] { offset := 0, df := 0, nblocks := 0, blocks := [], codec := "raw" })
        = none ∧
     (cursor_advance [] { offset := 0, df := 0, nblocks := 0, blocks := [], codec := "raw" }
        (mkCursor [] { offset := 0, df := 0, nblocks := 0, blocks := [], codec := "raw" })).1
        = none ∧
     ∀ t : Int, (next_ge [] { offset := 0, df := 0, nblocks := 0, blocks := [], codec := "raw" }
        (mkCursor [] { offset := 0, df := 0, nblocks := 0, blocks := [], codec := "raw" }) t).1
        = none) :=
  ⟨claim_C10_empty_postings.1 "raw" 128 [0, 1, 2],
   claim_C10_empty_postings.2 []
     { offset := 0, df := 0, nblocks := 0, blocks := [], codec := "raw" } rfl⟩

/-- **C2.** For a lexicon entry produced by `ListWriter.add_term` and any
integer target `t`, `PostingsCursor.next_ge(t)` either returns `none` and
leaves the cursor exhausted, in which case no posting at or after the
pre-call position has docid `≥ t`, or it returns — and positions the cursor
on — the smallest remaining posting docid that is `≥ t`, skipping none. -/
theorem claim_C2_next_ge_correct {codec : String} {B : Nat} {file0 file : List Nat}
    {ps : List (Nat × Nat)} {entry : LexEntry} (hB : 0 < B)
    (hnd : (ps.map Prod.fst).Nodup)
    (h : add_term codec B file0 ps = some (file, entry))
    {st : PostingsCursor} {pos : Nat}
    (hinv : CursorInv B (sortedDocids ps) (sortedFreqs ps) st pos) (t : Int) :
    ((next_ge file entry st t).1 = none ∧
      (next_ge file entry st t).2.exhausted = true ∧
      ∀ k d, pos ≤ k → (sortedDocids ps).get? k = some d → (d : Int) < t) ∨
    (∃ d, (next_ge file entry st t).1 = some d ∧
      cursor_docid (next_ge file entry st t).2 = some d ∧
      t ≤ (d : Int) ∧
      (∃ k, pos ≤ k ∧ (sortedDocids ps).get? k = some d) ∧
      ∀ k e, pos ≤ k → (sortedDocids ps).get? k = some e → t ≤ (e : Int) → d ≤ e) := by
  have w : EntryWF file entry B (sortedDocids ps) (sortedFreqs ps) := by
    have hw := add_term_entryWF hB hnd h []
    rwa [List.append_nil] at hw
  set docs := sortedDocids ps with hdocs
  obtain ⟨hres, hinv2⟩ := next_ge_spec w hinv t
  set p := lowerIdx docs t with hp
  have htw : (docs.takeWhile (fun d : Nat => decide ((d : Int) < t))).length = p := by
    rw [hp]
    rfl
  have hple : p ≤ docs.length := lowerIdx_le docs t
  by_cases hlt : max pos p < docs.length
  · right
    have hget : docs.get? (max pos p) = some (docs.getD (max pos p) 0) :=
      @get?_eq_some_getD docs (max pos p) hlt
    have hmin : min (max pos p) docs.length = max pos p := by omega
    rw [hmin] at hinv2
    refine ⟨docs.getD (max pos p) 0, by rw [hres, hget], ?_, ?_, ?_, ?_⟩
    · rw [cursor_docid_spec w.hB hinv2, hget]
    · exact sorted_past_takeWhile w.sorted t (by omega) hget
    · exact ⟨max pos p, Nat.le_max_left _ _, hget⟩
    · intro k e hk hke het
      have hkp : p ≤ k := by
        by_contra hc
        push_neg at hc
        obtain ⟨d1, hd1, hdt⟩ :=
          @takeWhile_get_sat Nat (fun d : Nat => decide ((d : Int) < t)) docs k (by omega)
        rw [hke] at hd1
        simp only [Option.some.injEq] at hd1
        simp only [decide_eq_true_eq] at hdt
        omega
      rcases Nat.eq_or_lt_of_le (show max pos p ≤ k by omega) with heq | hlt2
      · rw [← heq, hget] at hke
        simp only [Option.some.injEq] at hke
        omega
      · have := sorted_get_lt w.sorted hlt2 hget hke
        omega
  · left
    have hnone : docs.get? (max pos p) = none := List.get?_eq_none.mpr (by omega)
    have hmin : min (max pos p) docs.length = docs.length := by omega
    rw [hmin] at hinv2
    refine ⟨by rw [hres, hnone], ?_, ?_⟩
    · exact (CursorInv_exhausted hinv2 (by omega)).2
    · intro k d hk hkd
      have hklen : k < docs.length := by
        by_contra hc
        push_neg at hc
        rw [List.get?_eq_none.mpr hc] at hkd
        exact Option.noConfusion hkd
      obtain ⟨d1, hd1, hdt⟩ :=
        @takeWhile_get_sat Nat (fun d : Nat => decide ((d : Int) < t)) docs k (by omega)
      rw [hkd] at hd1
      simp only [Option.some.injEq] at hd1
      simp only [decide_eq_true_eq] at hdt
      omega

theorem claim_C2_next_ge_correct_witness :
    ∃ file entry, add_term "raw" 2 [] [(1, 2), (5, 3)] = some (file, entry) ∧
    (((next_ge file entry (mkCursor file entry) 4).1 = none ∧
      (next_ge file entry (mkCursor file entry) 4).2.exhausted = true ∧
      ∀ k d, 0 ≤ k → (sortedDocids [(1, 2), (5, 3)]).get? k = some d → (d : Int) < 4) ∨
    (∃ d, (next_ge file entry (mkCursor file entry) 4).1 = some d ∧
      cursor_docid (next_ge file entry (mkCursor file entry) 4).2 = some d ∧
      (4 : Int) ≤ (d : Int) ∧
      (∃ k, 0 ≤ k ∧ (sortedDocids [(1, 2), (5, 3)]).get? k = some d) ∧
      ∀ k e, 0 ≤ k → (sortedDocids [(1, 2), (5, 3)]).get? k = some e →
        (4 : Int) ≤ (e : Int) → d ≤ e)) := by
  obtain ⟨file, entry, hadd⟩ :=
    @add_term_isSome "raw" 2 (by norm_num) [] [(1, 2), (5, 3)] (by decide) (by decide)
  have w : EntryWF file entry 2 (sortedDocids [(1, 2), (5, 3)])
      (sortedFreqs [(1, 2), (5, 3)]) := by
    have hw := add_term_entryWF (by norm_num) (by decide) hadd []
    rwa [List.append_nil] at hw
  exact ⟨file, entry, hadd,
    claim_C2_next_ge_correct (by norm_num) (by decide) hadd (mkCursor_spec w) 4⟩

/-- **C9.** `VarByteCodec._vb_decode_stream` is total on arbitrary byte
streams: every stream splits into terminated groups followed by a dangling
terminator-free tail; decoding such a stream returns exactly the per-group
values, in order, silently ignoring the dangling tail instead of raising;
consequently decode of encode recovers the original non-negative integers
for every input list. -/
theorem claim_C9_decode_stream_robust :
    (∀ data : List Nat, ∃ (gs : List (List Nat)) (trailing : List Nat),
        data = gs.flatten ++ trailing ∧ (∀ g ∈ gs, VarByteCodec.VbGroup g) ∧
        ∀ b ∈ trailing, b &&& 0x80 = 0) ∧
    (∀ (gs : List (List Nat)) (trailing : List Nat),
        (∀ g ∈ gs, VarByteCodec.VbGroup g) → (∀ b ∈ trailing, b &&& 0x80 = 0) →
        VarByteCodec.vb_decode_stream (gs.flatten ++ trailing)
          = gs.map VarByteCodec.vb_group_val) ∧
    (∀ xs : List Nat,
        VarByteCodec.vb_decode_stream (xs.flatMap VarByteCodec.vb_encode_number)
          = xs) :=
  ⟨VarByteCodec.vb_stream_decomposes, VarByteCodec.vb_decode_stream_groups,
   VarByteCodec.vb_decode_stream_flatMap⟩

theorem claim_C9_decode_stream_robust_witness :
    (∃ (gs : List (List Nat)) (trailing : List Nat),
        [0x85, 0x03] = gs.flatten ++ trailing ∧ (∀ g ∈ gs, VarByteCodec.VbGroup g) ∧
        ∀ b ∈ trailing, b &&& 0x80 = 0) ∧
    (VarByteCodec.vb_decode_stream ([[0x85], [0x01, 0x82]].flatten ++ [0x03, 0x04])
        = [[0x85], [0x01, 0x82]].map VarByteCodec.vb_group_val) ∧
    (VarByteCodec.vb_decode_stream
        ([5, 300].flatMap VarByteCodec.vb_encode_number) = [5, 300]) :=
  ⟨claim_C9_decode_stream_robust.1 [0x85, 0x03],
   claim_C9_decode_stream_robust.2.1 [[0x85], [0x01, 0x82]] [0x03, 0x04]
     (by
       intro g hg
       rcases List.mem_cons.mp hg with rfl | hg
       · exact ⟨[], 0x85, rfl, by simp, by decide⟩
       · rcases List.mem_cons.mp hg with rfl | hg
         · exact ⟨[0x01], 0x82, rfl, by decide, by decide⟩
         · simp at hg)
     (by decide),
   claim_C9_decode_stream_robust.2.2 [5, 300]⟩

/-! ## The TSV parser (`engine/parser.py`) -/

/-- `str.rstrip("\n")`: drop trailing newline characters only. -/
def rstrip_nl (l : List Char) : List Char :=
  (l.reverse.dropWhile (fun c => c = '\n')).reverse

/-- `line.split("\t", 1)`: `none` when the line holds no tab, otherwise the
text before the first tab and everything after it. -/
def split_first_tab : List Char → Option (List Char × List Char)
  | [] => none
  | c :: cs =>
    if c = '\t' then some ([], cs)
    else (split_first_tab cs).map (fun pr => (c :: pr.1, pr.2))

/-- The whitespace CPython's `int()` strips from both ends (the ASCII and
Latin-1 part of `Py_UNICODE_ISSPACE`). -/
def isPySpace (c : Char) : Bool :=
  c == ' ' || c == '\t' || c == '\n' || c == '\r' || c == '\x0b' || c == '\x0c' ||
  c == '\x1c' || c == '\x1d' || c == '\x1e' || c == '\x1f' || c == '\x85'

/-- `int()`'s surrounding-whitespace strip. -/
def pyStrip (l : List Char) : List Char :=
  ((l.dropWhile isPySpace).reverse.dropWhile isPySpace).reverse

/-- The digit loop of a CPython integer literal: digits with single
underscores allowed between digits (`1_0` parses, `1__0`, `1_` do not). -/
def pyDigitsGo : List Char → Bool → Nat → Option Nat
  | [], und, acc => if und then none else some acc
  | c :: cs, und, acc =>
    if c.isDigit then pyDigitsGo cs false (acc * 10 + (c.toNat - 48))
    else if c = '_' && !und then pyDigitsGo cs true acc
    else none

/-- A digit part must begin with a digit (no leading underscore). -/
def pyDigitsStart : List Char → Option Nat
  | [] => none
  | c :: cs => if c.isDigit then pyDigitsGo cs false (c.toNat - 48) else none

/-- CPython `int(str)` on ASCII text: optional whitespace, optional sign,
then an underscore-grouped digit run. -/
def pyInt (l : List Char) : Option Int :=
  match pyStrip l with
  | [] => none
  | c :: cs =>
    if c = '+' then (pyDigitsStart cs).map (fun n => (n : Int))
    else if c = '-' then (pyDigitsStart cs).map (fun n => -(n : Int))
    else (pyDigitsStart (c :: cs)).map (fun n => (n : Int))

/-- The plain decimal value of a digit string. -/
def digitsVal (ds : List Char) : Nat :=
  ds.foldl (fun a c => a * 10 + (c.toNat - 48)) 0

/-- A character the token pattern `[a-z0-9]+([.-][a-z0-9]+)*` accepts. -/
def isTok (c : Char) : Bool :=
  (decide ('a' ≤ c) && decide (c ≤ 'z')) || (decide ('0' ≤ c) && decide (c ≤ '9'))

/-- `re.findall(r"[a-z0-9]+(?:[.-][a-z0-9]+)*", ·)`: a greedy left-to-right
scan; `cur` is the token built so far, reversed. -/
def scan : List Char → List Char → List (List Char)
  | [], cur => if cur.isEmpty then [] else [cur.reverse]
  | [c], cur =>
    if isTok c then [(c :: cur).reverse]
    else if cur.isEmpty then [] else [cur.reverse]
  | c :: d :: ds, cur =>
    if isTok c then scan (d :: ds) (c :: cur)
    else if (c == '.' || c == '-') && !cur.isEmpty && isTok d then
      scan ds (d :: c :: cur)
    else if cur.isEmpty then scan (d :: ds) []
    else cur.reverse :: scan (d :: ds) []

/-- `Parser.tokenize`, with the external `ftfy.fix_text ∘ html.unescape`
cleanup abstracted as `clean`: clean, lowercase, scan for tokens. -/
def tokenize (clean : List Char → List Char) (text : List Char) : List (List Char) :=
  scan ((clean text).map Char.toLower) []

/-- `Parser.parse_line`: strip trailing newlines, split at the first tab,
`int()` the prefix, tokenize the rest; empty token lists are dropped. -/
def parse_line (clean : List Char → List Char) (line : List Char) :
    Option (Int × List (List Char)) :=
  match split_first_tab (rstrip_nl line) with
  | none => none
  | some pr =>
    match pyInt pr.1 with
    | none => none
    | some d =>
      let toks := tokenize clean pr.2
      if toks.isEmpty then none else some (d, toks)

/-- The identity cleanup: what `ftfy.fix_text ∘ html.unescape` does on text
with no HTML entities and no mojibake. -/
def cleanId : List Char → List Char := fun l => l

theorem split_first_tab_none : ∀ l : List Char, split_first_tab l = none ↔ '\t' ∉ l := by
  intro l
  induction l with
  | nil => simp [split_first_tab]
  | cons c cs ih =>
    rw [split_first_tab]
    by_cases hc : c = '\t'
    · subst hc
      simp
    · rw [if_neg hc]
      cases h : split_first_tab cs with
      | none =>
        refine ⟨fun _ hmem => ?_, fun _ => rfl⟩
        rcases List.mem_cons.mp hmem with heq | hmem
        · exact hc heq.symm
        · exact (ih.mp h) hmem
      | some pr =>
        refine ⟨fun hmap => absurd hmap (by simp), fun hmem => ?_⟩
        exfalso
        have hnotcs : '\t' ∉ cs := fun hx => hmem (List.mem_cons_of_mem _ hx)
        rw [ih.mpr hnotcs] at h
        exact Option.noConfusion h

theorem isPySpace_not_digit {c : Char} (h : isPySpace c = true) : c.isDigit = false := by
  simp only [isPySpace, Bool.or_eq_true, beq_iff_eq] at h
  rcases h with ((((((((((rfl | rfl) | rfl) | rfl) | rfl) | rfl) | rfl) | rfl) | rfl) | rfl) | rfl)
    <;> rfl

theorem pyStrip_eq_self {l : List Char} (h : ∀ c ∈ l, isPySpace c = false) :
    pyStrip l = l := by
  have h1 : l.dropWhile isPySpace = l := by
    cases l with
    | nil => rfl
    | cons a l =>
      rw [List.dropWhile_cons_of_neg]
      simp [h a (List.mem_cons_self a l)]
  rw [pyStrip, h1]
  have h2 : l.reverse.dropWhile isPySpace = l.reverse := by
    cases hr : l.reverse with
    | nil => rfl
    | cons a r =>
      have ha : a ∈ l := by
        rw [← List.mem_reverse, hr]
        exact List.mem_cons_self a r
      rw [List.dropWhile_cons_of_neg]
      simp [h a ha]
  rw [h2, List.reverse_reverse]

theorem pyDigitsGo_digits :
    ∀ (cs : List Char) (acc : Nat), (∀ c ∈ cs, c.isDigit = true) →
      pyDigitsGo cs false acc
        = some (cs.foldl (fun a c => a * 10 + (c.toNat - 48)) acc) := by
  intro cs
  induction cs with
  | nil => intro acc _; rfl
  | cons c cs ih =>
    intro acc h
    rw [pyDigitsGo, if_pos (h c (List.mem_cons_self c cs)), List.foldl_cons]
    exact ih _ (fun x hx => h x (List.mem_cons_of_mem _ hx))

theorem pyDigitsStart_digits {ds : List Char} (hne : ds ≠ [])
    (hd : ∀ c ∈ ds, c.isDigit = true) : pyDigitsStart ds = some (digitsVal ds) := by
  cases ds with
  | nil => exact absurd rfl hne
  | cons c cs =>
    rw [pyDigitsStart, if_pos (hd c (List.mem_cons_self c cs)),
      pyDigitsGo_digits cs _ (fun x hx => hd x (List.mem_cons_of_mem _ hx)),
      digitsVal, List.foldl_cons]
    congr 2
    omega

theorem pyInt_digits {ds : List Char} (hne : ds ≠ [])
    (hd : ∀ c ∈ ds, c.isDigit = true) :
    pyInt ds = some ((digitsVal ds : Nat) : Int) ∧
    pyInt ('-' :: ds) = some (-((digitsVal ds : Nat) : Int)) := by
  have hns : ∀ c ∈ ds, isPySpace c = false := by
    intro c hc
    rcases hb : isPySpace c with - | -
    · rfl
    · have hdc := hd c hc
      rw [isPySpace_not_digit hb] at hdc
      exact absurd hdc (by simp)
  constructor
  · rw [pyInt]
    cases hds : ds with
    | nil => exact absurd hds hne
    | cons c cs =>
      subst hds
      rw [pyStrip_eq_self hns]
      have hc : c.isDigit = true := hd c (List.mem_cons_self c cs)
      have hplus : ¬c = '+' := by
        intro h
        subst h
        simp at hc
      have hminus : ¬c = '-' := by
        intro h
        subst h
        simp at hc
      simp only [if_neg hplus, if_neg hminus]
      rw [pyDigitsStart_digits hne hd]
      rfl
  · rw [pyInt]
    have hns2 : ∀ c ∈ '-' :: ds, isPySpace c = false := by
      intro c hc
      rcases List.mem_cons.mp hc with rfl | hc
      · rfl
      · exact hns c hc
    rw [pyStrip_eq_self hns2]
    have hplus : ¬('-' : Char) = '+' := by decide
    simp only [if_neg hplus, if_pos rfl]
    rw [pyDigitsStart_digits hne hd]
    rfl

theorem parse_line_none_eq (clean : List Char → List Char) (line : List Char)
    (hsp : split_first_tab (rstrip_nl line) = none) : parse_line clean line = none := by
  rw [parse_line, hsp]

theorem parse_line_some_eq (clean : List Char → List Char) (line pre post : List Char)
    (hsp : split_first_tab (rstrip_nl line) = some (pre, post)) :
    parse_line clean line
      = match pyInt pre with
        | none => none
        | some d =>
          if (tokenize clean post).isEmpty then none
          else some (d, tokenize clean post) := by
  rw [parse_line, hsp]

/-- **C7 (amended).** `Parser.parse_line` returns `none` exactly when the
line has no tab, when CPython's `int()` rejects the text before the first
tab, or when the text after it tokenizes to an empty list; otherwise it
returns `(docid, tokens)` with `docid` the parsed integer and `tokens`
non-empty.  `int()` accepts signed, whitespace-padded, underscore-grouped
literals, so — contrary to the original claim's "unsigned" — negative
docids are accepted: the last conjunct exhibits `int()` on `-digits`. -/
theorem claim_C7_parse_line (clean : List Char → List Char) (line : List Char) :
    (split_first_tab (rstrip_nl line) = none ↔ '\t' ∉ rstrip_nl line) ∧
    (parse_line clean line = none ↔
      split_first_tab (rstrip_nl line) = none ∨
      (∃ pre post, split_first_tab (rstrip_nl line) = some (pre, post) ∧
        (pyInt pre = none ∨ tokenize clean post = []))) ∧
    (∀ d toks, parse_line clean line = some (d, toks) →
      toks ≠ [] ∧ ∃ pre post, split_first_tab (rstrip_nl line) = some (pre, post) ∧
        pyInt pre = some d ∧ tokenize clean post = toks) ∧
    (∀ ds : List Char, ds ≠ [] → (∀ c ∈ ds, c.isDigit = true) →
      pyInt ds = some ((digitsVal ds : Nat) : Int) ∧
      pyInt ('-' :: ds) = some (-((digitsVal ds : Nat) : Int))) := by
  refine ⟨split_first_tab_none _, ?_, ?_, fun ds hne hd => pyInt_digits hne hd⟩
  · cases hsp : split_first_tab (rstrip_nl line) with
    | none =>
      rw [parse_line_none_eq clean line hsp]
      exact ⟨fun _ => Or.inl rfl, fun _ => rfl⟩
    | some pr =>
      obtain ⟨pre, post⟩ := pr
      rw [parse_line_some_eq clean line pre post hsp]
      cases hint : pyInt pre with
      | none =>
        constructor
        · intro _
          exact Or.inr ⟨pre, post, rfl, Or.inl hint⟩
        · intro _
          rfl
      | some d =>
        by_cases htoks : (tokenize clean post).isEmpty
        · constructor
          · intro _
            exact Or.inr ⟨pre, post, rfl, Or.inr (List.isEmpty_iff.mp htoks)⟩
          · intro _
            show (if (tokenize clean post).isEmpty then none
              else some (d, tokenize clean post)) = none
            rw [if_pos htoks]
        · constructor
          · intro hnone
            exfalso
            have hres2 : (if (tokenize clean post).isEmpty then none
                else some (d, tokenize clean post)) = (none : Option (Int × List (List Char))) :=
              hnone
            rw [if_neg htoks] at hres2
            exact Option.noConfusion hres2
          · intro h
            exfalso
            rcases h with h | ⟨pre2, post2, heq, hbad⟩
            · exact Option.noConfusion h
            · simp only [Option.some.injEq, Prod.mk.injEq] at heq
              obtain ⟨rfl, rfl⟩ := heq
              rcases hbad with hbad | hbad
              · rw [hint] at hbad
                exact Option.noConfusion hbad
              · exact htoks (by rw [hbad]; rfl)
  · intro d toks hres
    cases hsp : split_first_tab (rstrip_nl line) with
    | none =>
      rw [parse_line_none_eq clean line hsp] at hres
      exact Option.noConfusion hres
    | some pr =>
      obtain ⟨pre, post⟩ := pr
      rw [parse_line_some_eq clean line pre post hsp] at hres
      cases hint : pyInt pre with
      | none =>
        rw [hint] at hres
        exact Option.noConfusion hres
      | some d2 =>
        rw [hint] at hres
        by_cases htoks : (tokenize clean post).isEmpty
        · have hres2 : (if (tokenize clean post).isEmpty then none
              else some (d2, tokenize clean post)) = some (d, toks) := hres
          rw [if_pos htoks] at hres2
          exact Option.noConfusion hres2
        · have hres2 : (if (tokenize clean post).isEmpty then none
              else some (d2, tokenize clean post)) = some (d, toks) := hres
          rw [if_neg htoks] at hres2
          simp only [Option.some.injEq, Prod.mk.injEq] at hres2
          obtain ⟨rfl, rfl⟩ := hres2
          refine ⟨?_, pre, post, rfl, hint, rfl⟩
          intro hemp
          exact htoks (by rw [hemp]; rfl)

theorem claim_C7_parse_line_counterexample :
    parse_line cleanId ("-5\thello".toList) = some (-5, [['h', 'e', 'l', 'l', 'o']]) ∧
    ¬(0 : Int) ≤ -5 := by
  constructor
  · rfl
  · decide

theorem claim_C7_parse_line_witness :
    (split_first_tab (rstrip_nl ("7\tfoo".toList)) = none ↔
      '\t' ∉ rstrip_nl ("7\tfoo".toList)) ∧
    (parse_line cleanId ("7\tfoo".toList) = none ↔
      split_first_tab (rstrip_nl ("7\tfoo".toList)) = none ∨
      (∃ pre post, split_first_tab (rstrip_nl ("7\tfoo".toList)) = some (pre, post) ∧
        (pyInt pre = none ∨ tokenize cleanId post = []))) ∧
    (∀ d toks, parse_line cleanId ("7\tfoo".toList) = some (d, toks) →
      toks ≠ [] ∧ ∃ pre post,
        split_first_tab (rstrip_nl ("7\tfoo".toList)) = some (pre, post) ∧
        pyInt pre = some d ∧ tokenize cleanId post = toks) ∧
    (∀ ds : List Char, ds ≠ [] → (∀ c ∈ ds, c.isDigit = true) →
      pyInt ds = some ((digitsVal ds : Nat) : Int) ∧
      pyInt ('-' :: ds) = some (-((digitsVal ds : Nat) : Int))) :=
  claim_C7_parse_line cleanId ("7\tfoo".toList)

/-! ## URL canonicalization (`crawl/parse.py` and `HW1/crawl/parse.py`) -/

/-- The index-like filenames both `canonicalize_url` versions collapse. -/
def index_suffixes : List (List Char) :=
  ["/index.html".toList, "/index.htm".toList, "/index.jsp".toList, "/main.html".toList]

/-- The collapse loop shared by both versions: at the first suffix the
lowercased path ends with, drop the filename and keep the directory. -/
def collapse_index (path : List Char) : List Char :=
  match index_suffixes.find? (fun suf => suf.isSuffixOf (path.map Char.toLower)) with
  | some suf => path.take (path.length - suf.length) ++ ['/']
  | none => path

/-- The path pipeline of `canonicalize_url` in `src/crawl/parse.py`:
empty path to `"/"`, collapse index filenames, empty path to `"/"`. -/
def crawl_path (orig : List Char) : List Char :=
  let path0 := if orig.isEmpty then ['/'] else orig
  let path1 := collapse_index path0
  if path1.isEmpty then ['/'] else path1

/-- The path pipeline of `canonicalize_url` in `src/HW1/crawl/parse.py`:
the collapse loop runs, but the line right after it reassigns
`path = parsed.path or ""`, discarding the collapsed value; only the
root-slash normalization survives. -/
def hw1_path (orig : List Char) : List Char :=
  let path0 := orig
  let _collapsed := collapse_index path0
  let path2 := orig
  if path2 = ['/'] then [] else path2

/-- **C8.** The spec (and both versions' docstrings) say paths ending in an
index-like filename are collapsed to their directory.  The
`src/crawl/parse.py` version does collapse, but in `src/HW1/crawl/parse.py`
the reassignment `path = parsed.path or ""` immediately after the collapse
loop restores the original path, so the collapse never reaches the rebuilt
URL: on path `/foo/index.html` the crawl version yields `/foo/` while the
HW1 version returns the path unchanged. -/
theorem claim_C8_index_collapse :
    crawl_path ("/foo/index.html".toList) = "/foo/".toList ∧
    hw1_path ("/foo/index.html".toList) = "/foo/index.html".toList ∧
    collapse_index ("/foo/index.html".toList) = "/foo/".toList :=
  ⟨rfl, rfl, rfl⟩

/-! ## DAAT boolean traversal (`engine/daat.py`) -/

/-- Abstract view of one term's stream: block size, decoded docids and
frequencies, and the cursor's global position. -/
structure CSpec where
  B : Nat
  docs : List Nat
  freqs : List Nat
  pos : Nat
deriving Repr, Inhabited

/-- The inner `for` of `boolean_and_daat`: advance every cursor whose head
is behind `target` with `next_ge`; `none` models the generator returning
when a cursor exhausts.  The boolean is Python's `advanced_all`. -/
def and_pass (file : List Nat) (target : Nat) :
    List (LexEntry × PostingsCursor) → List Nat →
    Option (List (LexEntry × PostingsCursor) × List Nat × Bool)
  | [], _ => some ([], [], true)
  | _ :: _, [] => none
  | c :: cs, h :: hs =>
    if h < target then
      let r := next_ge file c.1 c.2 ((target : Nat) : Int)
      match r.1 with
      | none => none
      | some nxt =>
        match and_pass file target cs hs with
        | none => none
        | some (cs2, hs2, _) => some ((c.1, r.2) :: cs2, nxt :: hs2, false)
    else
      match and_pass file target cs hs with
      | none => none
      | some (cs2, hs2, b) => some ((c.1, c.2) :: cs2, h :: hs2, b)

/-- After a yield, `boolean_and_daat` advances every cursor by one; `none`
models the generator returning when one exhausts. -/
def and_advance (file : List Nat) :
    List (LexEntry × PostingsCursor) →
    Option (List (LexEntry × PostingsCursor) × List Nat)
  | [] => some ([], [])
  | c :: cs =>
    let r := cursor_advance file c.1 c.2
    match r.1 with
    | none => none
    | some nxt =>
      match and_advance file cs with
      | none => none
      | some (cs2, hs2) => some ((c.1, r.2) :: cs2, nxt :: hs2)

/-- The `while True` of `boolean_and_daat`, with fuel for the unbounded
loop (any fuel above the total number of postings is enough). -/
def and_loop (file : List Nat) : Nat → List (LexEntry × PostingsCursor) → List Nat → List Nat
  | 0, _, _ => []
  | fuel + 1, curs, heads =>
    match and_pass file (heads.foldl max 0) curs heads with
    | none => []
    | some (curs2, heads2, false) => and_loop file fuel curs2 heads2
    | some (curs2, heads2, true) =>
      match and_advance file curs2 with
      | none => [heads.foldl max 0]
      | some (curs3, heads3) => heads.foldl max 0 :: and_loop file fuel curs3 heads3

/-- `boolean_and_daat`: DAAT intersection over one cursor per term. -/
def boolean_and_daat (file : List Nat) (fuel : Nat)
    (cursors : List (LexEntry × PostingsCursor)) : List Nat :=
  if cursors.isEmpty then []
  else
    let heads := cursors.map (fun c => cursor_docid c.2)
    if heads.any (fun h => h.isNone) then []
    else and_loop file fuel cursors (heads.map (fun h => h.getD 0))

/-- `heapq.heappop` by contract: extract the lexicographically smallest
`(docid, cursor index)` pair, returning it and the remaining entries. -/
def popMin : List (Nat × Nat) → Option ((Nat × Nat) × List (Nat × Nat))
  | [] => none
  | x :: xs =>
    match popMin xs with
    | none => some (x, [])
    | some (m, rest) =>
      if x.1 < m.1 ∨ (x.1 = m.1 ∧ x.2 ≤ m.2) then some (x, xs)
      else some (m, x :: rest)

/-- The tie-draining `while` of `boolean_or_daat`: pop and advance cursors
while the heap minimum still carries the just-emitted docid `d`. -/
def or_drain (file : List Nat) :
    Nat → List (LexEntry × PostingsCursor) → List (Nat × Nat) → Nat →
    List (LexEntry × PostingsCursor) × List (Nat × Nat)
  | 0, curs, heap, _ => (curs, heap)
  | fuel + 1, curs, heap, d =>
    match popMin heap with
    | none => (curs, heap)
    | some ((d2, j), rest) =>
      if d2 = d then
        let c := curs.getD j default
        let r := cursor_advance file c.1 c.2
        let curs2 := curs.set j (c.1, r.2)
        let heap2 := match r.1 with
          | some v => (v, j) :: rest
          | none => rest
        or_drain file fuel curs2 heap2 d
      else (curs, heap)

/-- The outer `while heap` of `boolean_or_daat`: emit the heap minimum,
advance its cursor, drain ties. -/
def or_loop (file : List Nat) :
    Nat → List (LexEntry × PostingsCursor) → List (Nat × Nat) → List Nat
  | 0, _, _ => []
  | fuel + 1, curs, heap =>
    match popMin heap with
    | none => []
    | some ((d, i), rest) =>
      let c := curs.getD i default
      let r := cursor_advance file c.1 c.2
      let curs2 := curs.set i (c.1, r.2)
      let heap2 := match r.1 with
        | some v => (v, i) :: rest
        | none => rest
      let dr := or_drain file (heap2.length + 1) curs2 heap2 d
      d :: or_loop file fuel dr.1 dr.2

/-- `boolean_or_daat`: DAAT union; the heap starts with every cursor's
current head paired with its index. -/
def boolean_or_daat (file : List Nat) (fuel : Nat)
    (cursors : List (LexEntry × PostingsCursor)) : List Nat :=
  let heap := cursors.enum.filterMap
    (fun p => (cursor_docid p.2.2).map (fun d => (d, p.1)))
  or_loop file fuel cursors heap

/-! ### Helper lemmas for the DAAT proofs -/

theorem le_foldl_max : ∀ (l : List Nat) (a : Nat),
    a ≤ l.foldl max a ∧ ∀ x ∈ l, x ≤ l.foldl max a := by
  intro l
  induction l with
  | nil => intro a; exact ⟨Nat.le_refl a, by simp⟩
  | cons b l ih =>
    intro a
    rw [List.foldl_cons]
    obtain ⟨h1, h2⟩ := ih (max a b)
    refine ⟨Nat.le_trans (Nat.le_max_left a b) h1, ?_⟩
    intro x hx
    rcases List.mem_cons.mp hx with rfl | hx
    · exact Nat.le_trans (Nat.le_max_right a x) h1
    · exact h2 x hx

theorem foldl_max_mem : ∀ (l : List Nat) (a : Nat),
    l.foldl max a = a ∨ l.foldl max a ∈ l := by
  intro l
  induction l with
  | nil => intro a; exact Or.inl rfl
  | cons b l ih =>
    intro a
    rw [List.foldl_cons]
    rcases ih (max a b) with h | h
    · rw [h]
      rcases max_choice a b with h2 | h2
      · exact Or.inl h2
      · exact Or.inr (by rw [h2]; exact List.mem_cons_self b l)
    · exact Or.inr (List.mem_cons_of_mem b h)

theorem forall₂_mem_right {α β : Type} {R : α → β → Prop} :
    ∀ {l1 : List α} {l2 : List β}, List.Forall₂ R l1 l2 →
      ∀ y ∈ l2, ∃ x ∈ l1, R x y := by
  intro l1 l2 h
  induction h with
  | nil => intro y hy; simp at hy
  | cons hr _ ih =>
    intro y hy
    rcases List.mem_cons.mp hy with rfl | hy
    · exact ⟨_, List.mem_cons_self _ _, hr⟩
    · obtain ⟨x, hx, hrx⟩ := ih y hy
      exact ⟨x, List.mem_cons_of_mem _ hx, hrx⟩

theorem forall₂_mem_left {α β : Type} {R : α → β → Prop} :
    ∀ {l1 : List α} {l2 : List β}, List.Forall₂ R l1 l2 →
      ∀ x ∈ l1, ∃ y ∈ l2, R x y := by
  intro l1 l2 h
  induction h with
  | nil => intro x hx; simp at hx
  | cons hr _ ih =>
    intro x hx
    rcases List.mem_cons.mp hx with rfl | hx
    · exact ⟨_, List.mem_cons_self _ _, hr⟩
    · obtain ⟨y, hy, hry⟩ := ih x hx
      exact ⟨y, List.mem_cons_of_mem _ hy, hry⟩

theorem forall₂_sum_le {α β : Type} (f : α → Nat) (g : β → Nat) :
    ∀ {l1 : List α} {l2 : List β},
      List.Forall₂ (fun x y => f x ≤ g y) l1 l2 →
      (l1.map f).sum ≤ (l2.map g).sum := by
  intro l1 l2 h
  induction h with
  | nil => exact Nat.le_refl 0
  | cons hr _ ih =>
    simp only [List.map_cons, List.sum_cons]
    omega

theorem forall₂_sum_lt_of_mem {α β : Type} (f : α → Nat) (g : β → Nat) (P : β → Prop) :
    ∀ {l1 : List α} {l2 : List β},
      List.Forall₂ (fun x y => f x ≤ g y ∧ (P y → f x < g y)) l1 l2 →
      ∀ y0 ∈ l2, P y0 → (l1.map f).sum < (l2.map g).sum := by
  intro l1 l2 h
  induction h with
  | nil => intro y0 hy0; simp at hy0
  | cons hr htail ih =>
    intro y0 hy0 hp
    simp only [List.map_cons, List.sum_cons]
    rcases List.mem_cons.mp hy0 with rfl | hy0
    · have h1 := hr.2 hp
      have h2 := forall₂_sum_le f g (List.Forall₂.imp (fun a b hab => hab.1) htail)
      omega
    · have h1 := hr.1
      have h2 := ih y0 hy0 hp
      omega

theorem drop_eq_getD_cons {l : List Nat} {n : Nat} (h : n < l.length) :
    l.drop n = l.getD n 0 :: l.drop (n + 1) := by
  have hg := @get?_eq_some_getD l n h
  rw [List.drop_eq_getElem_cons h]
  rw [List.get?_eq_getElem?] at hg
  rw [List.getElem?_eq_getElem h] at hg
  simp only [Option.some.injEq] at hg
  rw [hg]

theorem head_le_of_mem_drop {docs : List Nat} (hs : docs.Pairwise (· < ·)) {pos : Nat}
    {d : Nat} (hd : d ∈ docs.drop pos) (hpos : pos < docs.length) :
    docs.getD pos 0 ≤ d := by
  obtain ⟨j, hj⟩ := List.mem_iff_get?.mp hd
  rw [List.get?_drop] at hj
  rcases Nat.eq_zero_or_pos j with rfl | hjpos
  · rw [Nat.add_zero, @get?_eq_some_getD docs pos hpos] at hj
    simp only [Option.some.injEq] at hj
    omega
  · have := sorted_get_lt hs (show pos < pos + j by omega)
      (@get?_eq_some_getD docs pos hpos) hj
    omega

theorem mem_drop_of_le_pos {l : List Nat} {m k : Nat} (hkm : k ≤ m) {d : Nat}
    (hd : d ∈ l.drop m) : d ∈ l.drop k := by
  have : l.drop m = (l.drop k).drop (m - k) := by
    rw [List.drop_drop]
    congr 1
    omega
  rw [this] at hd
  exact List.drop_subset _ _ hd

theorem mem_drop_lowerIdx {docs : List Nat} (hs : docs.Pairwise (· < ·)) {pos : Nat}
    {t : Int} {d : Nat} (hd : d ∈ docs.drop pos) (hge : t ≤ (d : Int)) :
    d ∈ docs.drop (lowerIdx docs t) := by
  obtain ⟨j, hj⟩ := List.mem_iff_get?.mp hd
  rw [List.get?_drop] at hj
  have htw : (docs.takeWhile (fun x : Nat => decide ((x : Int) < t))).length
      = lowerIdx docs t := rfl
  have hk : lowerIdx docs t ≤ pos + j := by
    by_contra hc
    push_neg at hc
    obtain ⟨d2, hd2, hdt⟩ :=
      @takeWhile_get_sat Nat (fun x : Nat => decide ((x : Int) < t)) docs (pos + j)
        (by omega)
    rw [hj] at hd2
    simp only [Option.some.injEq] at hd2
    simp only [decide_eq_true_eq] at hdt
    omega
  apply List.mem_iff_get?.mpr
  refine ⟨pos + j - lowerIdx docs t, ?_⟩
  rw [List.get?_drop]
  rw [show lowerIdx docs t + (pos + j - lowerIdx docs t) = pos + j by omega]
  exact hj

theorem pos_lt_lowerIdx {docs : List Nat} (hs : docs.Pairwise (· < ·)) {pos : Nat}
    (hpos : pos < docs.length) {t : Int}
    (h : ((docs.getD pos 0 : Nat) : Int) < t) : pos < lowerIdx docs t := by
  by_contra hc
  push_neg at hc
  have := sorted_past_takeWhile hs t
    (show (docs.takeWhile (fun x : Nat => decide ((x : Int) < t))).length ≤ pos from hc)
    (@get?_eq_some_getD docs pos hpos)
  omega

theorem getD_mem_drop {l : List Nat} {n : Nat} (h : n < l.length) :
    l.getD n 0 ∈ l.drop n := by
  rw [drop_eq_getD_cons h]
  exact List.mem_cons_self _ _

/-- One tracked cursor: well-formed entry, cursor at global position `pos`,
still active. -/
def CursOk (file : List Nat) (c : LexEntry × PostingsCursor) (s : CSpec) : Prop :=
  EntryWF file c.1 s.B s.docs s.freqs ∧ CursorInv s.B s.docs s.freqs c.2 s.pos ∧
  s.pos < s.docs.length

/-- A `heads` entry is the docid under its cursor. -/
def HeadOk (h : Nat) (s : CSpec) : Prop := h = s.docs.getD s.pos 0

theorem and_pass_spec (file : List Nat) (target : Nat) :
    ∀ {curs : List (LexEntry × PostingsCursor)} {specs : List CSpec},
      List.Forall₂ (CursOk file) curs specs →
      ∀ {heads : List Nat}, List.Forall₂ HeadOk heads specs →
      (match and_pass file target curs heads with
       | none => ∃ s ∈ specs, s.docs.getD s.pos 0 < target ∧
           lowerIdx s.docs ((target : Nat) : Int) = s.docs.length
       | some r =>
         ∃ specs2, List.Forall₂ (CursOk file) r.1 specs2 ∧
           List.Forall₂ HeadOk r.2.1 specs2 ∧
           List.Forall₂ (fun s2 s : CSpec =>
             s2.B = s.B ∧ s2.docs = s.docs ∧
             s2.pos = if s.docs.getD s.pos 0 < target
               then lowerIdx s.docs ((target : Nat) : Int) else s.pos) specs2 specs ∧
           (r.2.2 = true → ∀ s ∈ specs, ¬s.docs.getD s.pos 0 < target) ∧
           (r.2.2 = false → ∃ s ∈ specs, s.docs.getD s.pos 0 < target)) := by
  intro curs specs hc
  induction hc with
  | nil =>
    intro heads hh
    cases hh
    rw [and_pass]
    exact ⟨[], List.Forall₂.nil, List.Forall₂.nil, List.Forall₂.nil,
      fun _ => by simp, fun hfalse => by simp at hfalse⟩
  | @cons c s cs specs hr htail ih =>
    intro heads hh
    cases hh with
    | cons hhr hhtail =>
    rename_i h hs
    rw [and_pass]
    obtain ⟨hwf, hinv, hposlt⟩ := hr
    by_cases hlt : h < target
    · rw [if_pos hlt]
      have hgt : s.docs.getD s.pos 0 < target := by
        rw [← hhr]
        exact hlt
      have hspec := next_ge_spec hwf hinv ((target : Nat) : Int)
      have hplt : s.pos < lowerIdx s.docs ((target : Nat) : Int) :=
        pos_lt_lowerIdx hwf.sorted hposlt (by exact_mod_cast hgt)
      have hmax : max s.pos (lowerIdx s.docs ((target : Nat) : Int))
          = lowerIdx s.docs ((target : Nat) : Int) := by omega
      cases hget : s.docs.get? (lowerIdx s.docs ((target : Nat) : Int)) with
      | none =>
        have h1 : (next_ge file c.1 c.2 ((target : Nat) : Int)).1 = none := by
          rw [hspec.1, hmax, hget]
        simp only [h1]
        have hlen : lowerIdx s.docs ((target : Nat) : Int) = s.docs.length := by
          have h2 := lowerIdx_le s.docs ((target : Nat) : Int)
          have h3 := List.get?_eq_none.mp hget
          omega
        exact ⟨s, List.mem_cons_self _ _, hgt, hlen⟩
      | some nxt =>
        have h1 : (next_ge file c.1 c.2 ((target : Nat) : Int)).1 = some nxt := by
          rw [hspec.1, hmax, hget]
        simp only [h1]
        have htailspec := ih hhtail
        cases hpass : and_pass file target cs hs with
        | none =>
          simp only [hpass] at htailspec ⊢
          obtain ⟨s2, hs2, hcond⟩ := htailspec
          exact ⟨s2, List.mem_cons_of_mem _ hs2, hcond⟩
        | some r2 =>
          obtain ⟨cs2, hs2, b2⟩ := r2
          simp only [hpass] at htailspec ⊢
          obtain ⟨specs2, hA, hB, hC, _, _⟩ := htailspec
          have hplen : lowerIdx s.docs ((target : Nat) : Int) < s.docs.length := by
            have h2 := lowerIdx_le s.docs ((target : Nat) : Int)
            rcases Nat.lt_or_ge (lowerIdx s.docs ((target : Nat) : Int))
              s.docs.length with h3 | h3
            · exact h3
            · rw [List.get?_eq_none.mpr h3] at hget
              exact Option.noConfusion hget
          have hmin : min (max s.pos (lowerIdx s.docs ((target : Nat) : Int)))
              s.docs.length = lowerIdx s.docs ((target : Nat) : Int) := by omega
          refine ⟨⟨s.B, s.docs, s.freqs, lowerIdx s.docs ((target : Nat) : Int)⟩
              :: specs2, ?_, ?_, ?_, ?_, ?_⟩
          · refine List.Forall₂.cons ⟨hwf, ?_, hplen⟩ hA
            have h2 := hspec.2
            rw [hmin] at h2
            exact h2
          · refine List.Forall₂.cons ?_ hB
            have h2 := @get?_eq_some_getD s.docs
              (lowerIdx s.docs ((target : Nat) : Int)) hplen
            rw [h2] at hget
            simp only [Option.some.injEq] at hget
            exact hget.symm
          · exact List.Forall₂.cons ⟨rfl, rfl, by rw [if_pos hgt]⟩ hC
          · intro hfalse
            simp at hfalse
          · intro _
            exact ⟨s, List.mem_cons_self _ _, hgt⟩
    · rw [if_neg hlt]
      have hge : ¬s.docs.getD s.pos 0 < target := by
        rw [← hhr]
        exact hlt
      have htailspec := ih hhtail
      cases hpass : and_pass file target cs hs with
      | none =>
        simp only [hpass] at htailspec ⊢
        obtain ⟨s2, hs2, hcond⟩ := htailspec
        exact ⟨s2, List.mem_cons_of_mem _ hs2, hcond⟩
      | some r2 =>
        obtain ⟨cs2, hs2, b2⟩ := r2
        simp only [hpass] at htailspec ⊢
        obtain ⟨specs2, hA, hB, hC, hD, hE⟩ := htailspec
        refine ⟨s :: specs2, List.Forall₂.cons ⟨hwf, hinv, hposlt⟩ hA,
          List.Forall₂.cons hhr hB,
          List.Forall₂.cons ⟨rfl, rfl, by rw [if_neg hge]⟩ hC, ?_, ?_⟩
        · intro hb
          intro s2 hs2mem
          rcases List.mem_cons.mp hs2mem with rfl | hs2mem
          · exact hge
          · exact hD hb s2 hs2mem
        · intro hb
          obtain ⟨s2, hs2mem, hcond⟩ := hE hb
          exact ⟨s2, List.mem_cons_of_mem _ hs2mem, hcond⟩

theorem and_advance_spec (file : List Nat) :
    ∀ {curs : List (LexEntry × PostingsCursor)} {specs : List CSpec},
      List.Forall₂ (CursOk file) curs specs →
      (match and_advance file curs with
       | none => ∃ s ∈ specs, s.pos + 1 = s.docs.length
       | some r =>
         ∃ specs3, List.Forall₂ (CursOk file) r.1 specs3 ∧
           List.Forall₂ HeadOk r.2 specs3 ∧
           List.Forall₂ (fun s3 s : CSpec =>
             s3.B = s.B ∧ s3.docs = s.docs ∧ s3.pos = s.pos + 1) specs3 specs) := by
  intro curs specs hc
  induction hc with
  | nil =>
    rw [and_advance]
    exact ⟨[], List.Forall₂.nil, List.Forall₂.nil, List.Forall₂.nil⟩
  | @cons c s cs specs hr htail ih =>
    rw [and_advance]
    obtain ⟨hwf, hinv, hposlt⟩ := hr
    have hspec := cursor_advance_spec hwf hinv
    cases hget : s.docs.get? (s.pos + 1) with
    | none =>
      have h1 : (cursor_advance file c.1 c.2).1 = none := by
        rw [hspec.1, hget]
      simp only [h1]
      have hlen := List.get?_eq_none.mp hget
      exact ⟨s, List.mem_cons_self _ _, by omega⟩
    | some nxt =>
      have h1 : (cursor_advance file c.1 c.2).1 = some nxt := by
        rw [hspec.1, hget]
      simp only [h1]
      cases hpass : and_advance file cs with
      | none =>
        simp only [hpass] at ih ⊢
        obtain ⟨s2, hs2, hcond⟩ := ih
        exact ⟨s2, List.mem_cons_of_mem _ hs2, hcond⟩
      | some r2 =>
        obtain ⟨cs2, hs2⟩ := r2
        simp only [hpass] at ih ⊢
        obtain ⟨specs3, hA, hB, hC⟩ := ih
        have hplen : s.pos + 1 < s.docs.length := by
          rcases Nat.lt_or_ge (s.pos + 1) s.docs.length with h3 | h3
          · exact h3
          · rw [List.get?_eq_none.mpr h3] at hget
            exact Option.noConfusion hget
        have hmin : min (s.pos + 1) s.docs.length = s.pos + 1 := by omega
        refine ⟨⟨s.B, s.docs, s.freqs, s.pos + 1⟩ :: specs3, ?_, ?_,
          List.Forall₂.cons ⟨rfl, rfl, rfl⟩ hC⟩
        · refine List.Forall₂.cons ⟨hwf, ?_, hplen⟩ hA
          have h2 := hspec.2
          rw [hmin] at h2
          exact h2
        · refine List.Forall₂.cons ?_ hB
          have h2 := @get?_eq_some_getD s.docs (s.pos + 1) hplen
          rw [h2] at hget
          simp only [Option.some.injEq] at hget
          exact hget.symm

theorem forall₂_imp_mem {α β : Type} {R S : α → β → Prop} :
    ∀ {l1 : List α} {l2 : List β}, List.Forall₂ R l1 l2 →
      (∀ x y, x ∈ l1 → y ∈ l2 → R x y → S x y) → List.Forall₂ S l1 l2 := by
  intro l1 l2 h
  induction h with
  | nil => intro _; exact List.Forall₂.nil
  | @cons a b l1 l2 hr _ ih =>
    intro himp
    refine List.Forall₂.cons
      (himp a b (List.mem_cons_self a l1) (List.mem_cons_self b l2) hr) ?_
    exact ih (fun x y hx hy hr2 =>
      himp x y (List.mem_cons_of_mem _ hx) (List.mem_cons_of_mem _ hy) hr2)

theorem forall₂_comp {α β γ : Type} {R : α → β → Prop} {S : β → γ → Prop}
    {T : α → γ → Prop} (hT : ∀ a b c, R a b → S b c → T a c) :
    ∀ {l1 : List α} {l2 : List β} {l3 : List γ},
      List.Forall₂ R l1 l2 → List.Forall₂ S l2 l3 → List.Forall₂ T l1 l3 := by
  intro l1 l2 l3 h
  induction h generalizing l3 with
  | nil =>
    intro h2
    cases h2
    exact List.Forall₂.nil
  | @cons a b l1 l2 hr _ ih =>
    intro h2
    cases h2 with
    | cons hs htail => exact List.Forall₂.cons (hT _ _ _ hr hs) (ih htail)

/-- The `while True` of `boolean_and_daat` computes exactly the docids
common to every cursor's remaining stream, given enough fuel. -/
theorem and_loop_spec (file : List Nat) :
    ∀ (fuel : Nat) {curs : List (LexEntry × PostingsCursor)} {heads : List Nat}
      {specs : List CSpec},
      specs ≠ [] →
      List.Forall₂ (CursOk file) curs specs →
      List.Forall₂ HeadOk heads specs →
      (specs.map (fun s => s.docs.length - s.pos)).sum < fuel →
      ∀ d, d ∈ and_loop file fuel curs heads ↔ ∀ s ∈ specs, d ∈ s.docs.drop s.pos := by
  intro fuel
  induction fuel with
  | zero =>
    intro curs heads specs hne hc hh hfuel
    omega
  | succ fuel ih =>
    intro curs heads specs hne hc hh hfuel d
    rw [and_loop]
    set target := heads.foldl max 0 with htarget
    have hlenh := hh.length_eq
    have hheads_ne : heads ≠ [] := by
      intro h0
      subst h0
      simp only [List.length_nil] at hlenh
      exact hne (List.length_eq_zero.mp hlenh.symm)
    have htmem : target ∈ heads := by
      rcases foldl_max_mem heads 0 with h0 | h0
      · cases heads with
        | nil => exact absurd rfl hheads_ne
        | cons h1 hs =>
          have h2 := (le_foldl_max (h1 :: hs) 0).2 h1 (List.mem_cons_self _ _)
          have h3 : target = h1 := by omega
          rw [h3]
          exact List.mem_cons_self _ _
      · exact h0
    have htub : ∀ h ∈ heads, h ≤ target := (le_foldl_max heads 0).2
    obtain ⟨sj, hsjmem, hsjhead⟩ := forall₂_mem_left hh target htmem
    have hsjeq : target = sj.docs.getD sj.pos 0 := hsjhead
    have hps := and_pass_spec file target hc hh
    cases hpass : and_pass file target curs heads with
    | none =>
      simp only [hpass] at hps ⊢
      obtain ⟨sb, hsbmem, hsblt, hsblen⟩ := hps
      constructor
      · intro h0
        simp at h0
      · intro hall
        exfalso
        obtain ⟨cb, _, hwfb, hinvb, hposb⟩ := forall₂_mem_right hc sb hsbmem
        obtain ⟨cj, _, hwfj, hinvj, hposj⟩ := forall₂_mem_right hc sj hsjmem
        have hge : target ≤ d := by
          have := head_le_of_mem_drop hwfj.sorted (hall sj hsjmem) hposj
          omega
        obtain ⟨j2, hj2⟩ := List.mem_iff_get?.mp (hall sb hsbmem)
        rw [List.get?_drop] at hj2
        have hklen : sb.pos + j2 < sb.docs.length := by
          rcases Nat.lt_or_ge (sb.pos + j2) sb.docs.length with h3 | h3
          · exact h3
          · rw [List.get?_eq_none.mpr h3] at hj2
            exact Option.noConfusion hj2
        have htw : (sb.docs.takeWhile
            (fun x : Nat => decide ((x : Int) < ((target : Nat) : Int)))).length
            = lowerIdx sb.docs ((target : Nat) : Int) := rfl
        obtain ⟨d2, hd2, hdt⟩ := @takeWhile_get_sat Nat
          (fun x : Nat => decide ((x : Int) < ((target : Nat) : Int))) sb.docs
          (sb.pos + j2) (by omega)
        rw [hj2] at hd2
        simp only [Option.some.injEq] at hd2
        simp only [decide_eq_true_eq] at hdt
        have : d < target := by
          subst hd2
          exact_mod_cast hdt
        omega
    | some r =>
      obtain ⟨curs2, heads2, adv⟩ := r
      simp only [hpass] at hps
      obtain ⟨specs2, hA, hB, hC, hD, hE⟩ := hps
      have hposlt_of_mem : ∀ s ∈ specs, s.pos < s.docs.length := by
        intro s hsmem
        obtain ⟨c0, _, _, _, h3⟩ := forall₂_mem_right hc s hsmem
        exact h3
      have hsorted_of_mem : ∀ s ∈ specs, s.docs.Pairwise (· < ·) := by
        intro s hsmem
        obtain ⟨c0, _, hwf0, _, _⟩ := forall₂_mem_right hc s hsmem
        exact hwf0.sorted
      cases adv with
      | false =>
        simp only [hpass]
        obtain ⟨sb, hsbmem, hsblt⟩ := hE rfl
        have hCm : List.Forall₂ (fun s2 s : CSpec =>
            (s2.docs.length - s2.pos ≤ s.docs.length - s.pos) ∧
            (s.docs.getD s.pos 0 < target →
              s2.docs.length - s2.pos < s.docs.length - s.pos)) specs2 specs := by
          refine forall₂_imp_mem hC ?_
          intro s2 s _ hsmem hrel
          obtain ⟨hBeq, hdocs, hposf⟩ := hrel
          have hpl := hposlt_of_mem s hsmem
          have hso := hsorted_of_mem s hsmem
          by_cases hcond : s.docs.getD s.pos 0 < target
          · rw [if_pos hcond] at hposf
            have h4 : s.pos < lowerIdx s.docs ((target : Nat) : Int) :=
              pos_lt_lowerIdx hso hpl (by exact_mod_cast hcond)
            have h5 := lowerIdx_le s.docs ((target : Nat) : Int)
            constructor
            · rw [hdocs, hposf]
              omega
            · intro _
              rw [hdocs, hposf]
              omega
          · rw [if_neg hcond] at hposf
            rw [hdocs, hposf]
            exact ⟨Nat.le_refl _, fun h4 => absurd h4 hcond⟩
        have hsum2 : (specs2.map (fun s => s.docs.length - s.pos)).sum
            < (specs.map (fun s => s.docs.length - s.pos)).sum :=
          forall₂_sum_lt_of_mem _ _ (fun s => s.docs.getD s.pos 0 < target)
            hCm sb hsbmem hsblt
        have hne2 : specs2 ≠ [] := by
          intro h0
          subst h0
          have := hC.length_eq
          simp only [List.length_nil] at this
          exact hne (List.length_eq_zero.mp this.symm)
        rw [ih hne2 hA hB (Nat.lt_of_lt_of_le hsum2 (by omega)) d]
        constructor
        · intro hall2 s hsmem
          obtain ⟨s2, hs2mem, hBeq, hdocs, hposf⟩ := forall₂_mem_right hC s hsmem
          have hd2 := hall2 s2 hs2mem
          rw [hdocs] at hd2
          by_cases hcond : s.docs.getD s.pos 0 < target
          · rw [if_pos hcond] at hposf
            rw [hposf] at hd2
            have h4 : s.pos < lowerIdx s.docs ((target : Nat) : Int) :=
              pos_lt_lowerIdx (hsorted_of_mem s hsmem) (hposlt_of_mem s hsmem)
                (by exact_mod_cast hcond)
            exact mem_drop_of_le_pos (by omega) hd2
          · rw [if_neg hcond] at hposf
            rw [hposf] at hd2
            exact hd2
        · intro hall s2 hs2mem
          have hge : target ≤ d := by
            have := head_le_of_mem_drop (hsorted_of_mem sj hsjmem)
              (hall sj hsjmem) (hposlt_of_mem sj hsjmem)
            omega
          obtain ⟨s, hsmem, hBeq, hdocs, hposf⟩ := forall₂_mem_left hC s2 hs2mem
          have hd1 := hall s hsmem
          by_cases hcond : s.docs.getD s.pos 0 < target
          · rw [if_pos hcond] at hposf
            rw [hdocs, hposf]
            exact mem_drop_lowerIdx (hsorted_of_mem s hsmem) hd1
              (by exact_mod_cast hge)
          · rw [if_neg hcond] at hposf
            rw [hdocs, hposf]
            exact hd1
      | true =>
        have hall_eq : ∀ s ∈ specs, s.docs.getD s.pos 0 = target := by
          intro s hsmem
          have h1 := hD rfl s hsmem
          obtain ⟨h2, hh2mem, hh2⟩ := forall₂_mem_right hh s hsmem
          have h3 := htub h2 hh2mem
          rw [hh2] at h3
          omega
        have hC' : List.Forall₂ (fun s2 s : CSpec =>
            s2.docs = s.docs ∧ s2.pos = s.pos) specs2 specs := by
          refine forall₂_imp_mem hC ?_
          intro s2 s _ hsmem hrel
          obtain ⟨_, hdocs, hposf⟩ := hrel
          rw [if_neg (hD rfl s hsmem)] at hposf
          exact ⟨hdocs, hposf⟩
        have has := and_advance_spec file hA
        cases hadv : and_advance file curs2 with
        | none =>
          simp only [hpass, hadv]
          simp only [hadv] at has
          obtain ⟨s2x, hs2xmem, hs2xlen⟩ := has
          obtain ⟨sox, hsoxmem, hdocsx, hposx⟩ := forall₂_mem_left hC' s2x hs2xmem
          constructor
          · intro hdmem
            simp only [List.mem_singleton] at hdmem
            subst hdmem
            intro s hsmem
            rw [← hall_eq s hsmem]
            exact getD_mem_drop (hposlt_of_mem s hsmem)
          · intro hall
            have hd1 := hall sox hsoxmem
            rw [drop_eq_getD_cons (hposlt_of_mem sox hsoxmem)] at hd1
            have hlen : sox.pos + 1 = sox.docs.length := by
              rw [← hdocsx, ← hposx]
              exact hs2xlen
            rw [show sox.pos + 1 = sox.docs.length from hlen, List.drop_length] at hd1
            simp only [List.mem_singleton] at hd1 ⊢
            rw [hd1, hall_eq sox hsoxmem]
        | some r3 =>
          obtain ⟨curs3, heads3⟩ := r3
          simp only [hpass, hadv]
          simp only [hadv] at has
          obtain ⟨specs3, hA3, hB3, hC3⟩ := has
          have hC3' : List.Forall₂ (fun s3 s : CSpec =>
              s3.docs = s.docs ∧ s3.pos = s.pos + 1) specs3 specs := by
            refine forall₂_comp ?_ hC3 hC'
            intro s3 s2 s h1 h2
            exact ⟨h1.2.1.trans h2.1, by rw [h1.2.2, h2.2]⟩
          have hne3 : specs3 ≠ [] := by
            intro h0
            subst h0
            have h1 := hC3'.length_eq
            simp only [List.length_nil] at h1
            exact hne (List.length_eq_zero.mp h1.symm)
          have hCm : List.Forall₂ (fun s3 s : CSpec =>
              (s3.docs.length - s3.pos ≤ s.docs.length - s.pos) ∧
              (True → s3.docs.length - s3.pos < s.docs.length - s.pos))
              specs3 specs := by
            refine forall₂_imp_mem hC3' ?_
            intro s3 s _ hsmem hrel
            have hpl := hposlt_of_mem s hsmem
            rw [hrel.1, hrel.2]
            constructor
            · omega
            · intro _
              omega
          obtain ⟨s0, hs0mem⟩ : ∃ s0, s0 ∈ specs := by
            cases specs with
            | nil => exact absurd rfl hne
            | cons a l => exact ⟨a, List.mem_cons_self _ _⟩
          have hsum3 : (specs3.map (fun s => s.docs.length - s.pos)).sum
              < (specs.map (fun s => s.docs.length - s.pos)).sum :=
            forall₂_sum_lt_of_mem _ _ (fun _ => True) hCm s0 hs0mem trivial
          rw [List.mem_cons, ih hne3 hA3 hB3 (Nat.lt_of_lt_of_le hsum3 (by omega)) d]
          constructor
          · intro hcase
            rcases hcase with rfl | hall3
            · intro s hsmem
              rw [← hall_eq s hsmem]
              exact getD_mem_drop (hposlt_of_mem s hsmem)
            · intro s hsmem
              obtain ⟨s3, hs3mem, hdocs3, hpos3⟩ := forall₂_mem_right hC3' s hsmem
              have hd3 := hall3 s3 hs3mem
              rw [hdocs3, hpos3] at hd3
              exact mem_drop_of_le_pos (Nat.le_succ _) hd3
          · intro hall
            by_cases hdt : d = target
            · exact Or.inl hdt
            · refine Or.inr ?_
              intro s3 hs3mem
              obtain ⟨s, hsmem, hdocs3, hpos3⟩ := forall₂_mem_left hC3' s3 hs3mem
              have hd1 := hall s hsmem
              rw [drop_eq_getD_cons (hposlt_of_mem s hsmem)] at hd1
              rcases List.mem_cons.mp hd1 with rfl | hd1
              · exact absurd (hall_eq s hsmem) hdt
              · rw [hdocs3, hpos3]
                exact hd1

/-! ### Heap and index helpers for the OR traversal -/

theorem popMin_eq_none : ∀ {l : List (Nat × Nat)}, popMin l = none → l = [] := by
  intro l
  cases l with
  | nil => intro _; rfl
  | cons x xs =>
    intro h
    rw [popMin] at h
    cases h2 : popMin xs with
    | none =>
      rw [h2] at h
      exact Option.noConfusion h
    | some m =>
      obtain ⟨m2, rest2⟩ := m
      simp only [h2] at h
      by_cases hcond : x.1 < m2.1 ∨ (x.1 = m2.1 ∧ x.2 ≤ m2.2)
      · rw [if_pos hcond] at h
        exact Option.noConfusion h
      · rw [if_neg hcond] at h
        exact Option.noConfusion h

theorem popMin_spec : ∀ {l : List (Nat × Nat)} {m : Nat × Nat} {rest : List (Nat × Nat)},
    popMin l = some (m, rest) →
    m ∈ l ∧ List.Perm l (m :: rest) ∧ ∀ x ∈ l, m.1 ≤ x.1 := by
  intro l
  induction l with
  | nil => intro m rest h; exact Option.noConfusion h
  | cons x xs ih =>
    intro m rest h
    rw [popMin] at h
    cases h2 : popMin xs with
    | none =>
      have hnil := popMin_eq_none h2
      subst hnil
      rw [h2] at h
      simp only [Option.some.injEq, Prod.mk.injEq] at h
      obtain ⟨rfl, rfl⟩ := h
      refine ⟨List.mem_cons_self _ _, List.Perm.refl _, ?_⟩
      intro y hy
      rcases List.mem_cons.mp hy with rfl | hy
      · exact Nat.le_refl _
      · simp at hy
    | some m2 =>
      obtain ⟨m2v, rest2⟩ := m2
      simp only [h2] at h
      obtain ⟨hmem2, hperm2, hmin2⟩ := ih h2
      by_cases hcond : x.1 < m2v.1 ∨ (x.1 = m2v.1 ∧ x.2 ≤ m2v.2)
      · rw [if_pos hcond] at h
        simp only [Option.some.injEq, Prod.mk.injEq] at h
        obtain ⟨rfl, rfl⟩ := h
        refine ⟨List.mem_cons_self _ _, List.Perm.refl _, ?_⟩
        intro y hy
        rcases List.mem_cons.mp hy with rfl | hy
        · exact Nat.le_refl _
        · have h3 := hmin2 y hy
          rcases hcond with h4 | ⟨h4, _⟩ <;> omega
      · rw [if_neg hcond] at h
        simp only [Option.some.injEq, Prod.mk.injEq] at h
        obtain ⟨rfl, rfl⟩ := h
        push_neg at hcond
        refine ⟨List.mem_cons_of_mem _ hmem2, ?_, ?_⟩
        · exact (List.Perm.cons x hperm2).trans (List.Perm.swap m2v x rest2)
        · intro y hy
          rcases List.mem_cons.mp hy with rfl | hy
          · rcases Nat.lt_or_ge m2v.1 y.1 with h4 | h4
            · omega
            · have h5 := hcond.1
              omega
          · exact hmin2 y hy

theorem get?_set_self : ∀ {l : List α} {i : Nat} {x : α},
    i < l.length → (l.set i x).get? i = some x := by
  intro l
  induction l with
  | nil => intro i x h; simp at h
  | cons a l ih =>
    intro i x h
    cases i with
    | zero => rfl
    | succ i =>
      rw [List.set_cons_succ, List.get?_cons_succ]
      exact ih (by simpa using h)

theorem get?_set_ne : ∀ {l : List α} {i j : Nat} {x : α},
    i ≠ j → (l.set i x).get? j = l.get? j := by
  intro l
  induction l with
  | nil => intro i j x _; simp
  | cons a l ih =>
    intro i j x hne
    cases i with
    | zero =>
      cases j with
      | zero => exact absurd rfl hne
      | succ j => rfl
    | succ i =>
      cases j with
      | zero => rfl
      | succ j =>
        rw [List.set_cons_succ, List.get?_cons_succ, List.get?_cons_succ]
        exact ih (by omega)

theorem forall₂_get?_right {α β : Type} {R : α → β → Prop} :
    ∀ {l1 : List α} {l2 : List β}, List.Forall₂ R l1 l2 →
      ∀ {i : Nat} {y : β}, l2.get? i = some y → ∃ x, l1.get? i = some x ∧ R x y := by
  intro l1 l2 h
  induction h with
  | nil => intro i y hy; simp at hy
  | @cons a b l1 l2 hr _ ih =>
    intro i y hy
    cases i with
    | zero =>
      simp only [List.get?_cons_zero, Option.some.injEq] at hy
      subst hy
      exact ⟨a, rfl, hr⟩
    | succ i =>
      rw [List.get?_cons_succ] at hy
      obtain ⟨x, hx, hrx⟩ := ih hy
      exact ⟨x, hx, hrx⟩

theorem forall₂_set {α β : Type} {R : α → β → Prop} :
    ∀ {l1 : List α} {l2 : List β}, List.Forall₂ R l1 l2 →
      ∀ (i : Nat) {x : α} {y : β}, R x y →
      List.Forall₂ R (l1.set i x) (l2.set i y) := by
  intro l1 l2 h
  induction h with
  | nil => intro i x y _; exact List.Forall₂.nil
  | @cons a b l1 l2 hr htail ih =>
    intro i x y hxy
    cases i with
    | zero => exact List.Forall₂.cons hxy htail
    | succ i =>
      rw [List.set_cons_succ, List.set_cons_succ]
      exact List.Forall₂.cons hr (ih i hxy)

theorem sum_map_set {α : Type} (f : α → Nat) :
    ∀ {l : List α} {i : Nat} {x y : α}, l.get? i = some y →
      ((l.set i x).map f).sum + f y = (l.map f).sum + f x := by
  intro l
  induction l with
  | nil => intro i x y h; simp at h
  | cons a l ih =>
    intro i x y h
    cases i with
    | zero =>
      simp only [List.get?_cons_zero, Option.some.injEq] at h
      subst h
      simp only [List.set_cons_zero, List.map_cons, List.sum_cons]
      omega
    | succ i =>
      rw [List.get?_cons_succ] at h
      rw [List.set_cons_succ]
      simp only [List.map_cons, List.sum_cons]
      have := @ih i x y h
      omega

/-- The docids still ahead of some cursor. -/
def SuffixMem (specs : List CSpec) (x : Nat) : Prop :=
  ∃ s ∈ specs, x ∈ s.docs.drop s.pos

/-- One tracked cursor for the OR traversal, exhaustion allowed. -/
def CursOkE (file : List Nat) (c : LexEntry × PostingsCursor) (s : CSpec) : Prop :=
  EntryWF file c.1 s.B s.docs s.freqs ∧ CursorInv s.B s.docs s.freqs c.2 s.pos ∧
  s.pos ≤ s.docs.length

/-- The heap mirrors the active cursors: every entry is the head of its
stream, indices are unique, and every active stream is represented. -/
def HeapOk (specs : List CSpec) (heap : List (Nat × Nat)) : Prop :=
  (∀ p ∈ heap, ∃ s, specs.get? p.2 = some s ∧ s.pos < s.docs.length ∧
      p.1 = s.docs.getD s.pos 0) ∧
  (heap.map Prod.snd).Nodup ∧
  (∀ i s, specs.get? i = some s → s.pos < s.docs.length →
      (s.docs.getD s.pos 0, i) ∈ heap)

/-- Draining ties removes exactly the docid `d` from every stream that
still carries it, preserving all the tracking invariants. -/
theorem or_drain_spec (file : List Nat) (d : Nat) :
    ∀ (dfuel : Nat) {curs : List (LexEntry × PostingsCursor)} {specs : List CSpec}
      {heap : List (Nat × Nat)},
      List.Forall₂ (CursOkE file) curs specs →
      HeapOk specs heap →
      (∀ p ∈ heap, d ≤ p.1) →
      heap.countP (fun p => p.1 == d) < dfuel →
      ∃ specs2,
        List.Forall₂ (CursOkE file) (or_drain file dfuel curs heap d).1 specs2 ∧
        HeapOk specs2 (or_drain file dfuel curs heap d).2 ∧
        (∀ p ∈ (or_drain file dfuel curs heap d).2, d < p.1) ∧
        (∀ x, SuffixMem specs2 x → SuffixMem specs x) ∧
        (∀ x, SuffixMem specs x → x ≠ d → SuffixMem specs2 x) ∧
        (specs2.map (fun s => s.docs.length - s.pos)).sum
          ≤ (specs.map (fun s => s.docs.length - s.pos)).sum := by
  intro dfuel
  induction dfuel with
  | zero =>
    intro curs specs heap _ _ _ hcount
    omega
  | succ dfuel ih =>
    intro curs specs heap hc hheap hged hcount
    obtain ⟨hent, hnodup, hcov⟩ := hheap
    rw [or_drain]
    cases hpop : popMin heap with
    | none =>
      have hnil := popMin_eq_none hpop
      subst hnil
      refine ⟨specs, hc, ⟨hent, hnodup, hcov⟩, ?_, fun x hx => hx,
        fun x hx _ => hx, Nat.le_refl _⟩
      intro p hp
      simp at hp
    | some mr =>
      obtain ⟨⟨d2, j⟩, rest⟩ := mr
      obtain ⟨hmem, hperm, hmin⟩ := popMin_spec hpop
      simp only [hpop]
      by_cases hd2 : d2 = d
      · rw [if_pos hd2]
        subst d2
        obtain ⟨sj, hsj, hsjact, hsjhead⟩ := hent _ hmem
        obtain ⟨cj, hcj, hcjok⟩ := forall₂_get?_right hc hsj
        obtain ⟨hwf, hinv, hple⟩ := hcjok
        have hjlt : j < specs.length := by
          by_contra hcon
          push_neg at hcon
          rw [List.get?_eq_none.mpr hcon] at hsj
          exact Option.noConfusion hsj
        have hcg : curs.getD j default = cj := by
          rw [List.getD_eq_get?, hcj]
          rfl
        have hadv := cursor_advance_spec hwf hinv
        have hminp : min (sj.pos + 1) sj.docs.length = sj.pos + 1 := by omega
        rw [hminp] at hadv
        have hrest_sub : ∀ p ∈ rest, p ∈ heap := by
          intro p hp
          exact hperm.mem_iff.mpr (List.mem_cons_of_mem _ hp)
        have hnodup2 : (j :: rest.map Prod.snd).Nodup :=
          (hperm.map Prod.snd).nodup hnodup
        have hrestj : ∀ p ∈ rest, p.2 ≠ j := by
          intro p hp hpj
          refine (List.nodup_cons.mp hnodup2).1 ?_
          rw [← hpj]
          exact List.mem_map_of_mem Prod.snd hp
        have hrest_nodup : (rest.map Prod.snd).Nodup :=
          (List.nodup_cons.mp hnodup2).2
        set sj2 : CSpec := ⟨sj.B, sj.docs, sj.freqs, sj.pos + 1⟩ with hsj2def
        have hokA : CursOkE file (cj.1, (cursor_advance file cj.1 cj.2).2) sj2 :=
          ⟨hwf, hadv.2, by simp only [hsj2def]; omega⟩
        have hcA := forall₂_set hc j hokA
        have hsjA : (specs.set j sj2).get? j = some sj2 := get?_set_self (by omega)
        have hd_head : d = sj.docs.getD sj.pos 0 := hsjhead
        -- case split on whether the advanced cursor is still active
        cases hget1 : sj.docs.get? (sj.pos + 1) with
        | none =>
          have hlen1 : sj.docs.length ≤ sj.pos + 1 := List.get?_eq_none.mp hget1
          have hr1 : (cursor_advance file cj.1 cj.2).1 = none := by
            rw [hadv.1, hget1]
          simp only [hcg, hr1]
          have hheapA : HeapOk (specs.set j sj2) rest := by
            refine ⟨?_, hrest_nodup, ?_⟩
            · intro p hp
              obtain ⟨s, hs, hact, hhead⟩ := hent p (hrest_sub p hp)
              exact ⟨s, by rw [get?_set_ne (fun h => hrestj p hp h.symm)]; exact hs,
                hact, hhead⟩
            · intro i s hi hact
              by_cases hij : i = j
              · subst hij
                rw [hsjA] at hi
                simp only [Option.some.injEq] at hi
                subst hi
                simp only [hsj2def] at hact
                omega
              · rw [get?_set_ne (fun h => hij h.symm)] at hi
                have h2 := hcov i s hi hact
                rcases List.mem_cons.mp (hperm.mem_iff.mp h2) with h3 | h3
                · exact absurd (congrArg Prod.snd h3) (by simpa using hij)
                · exact h3
          have hgedA : ∀ p ∈ rest, d ≤ p.1 := fun p hp => hged p (hrest_sub p hp)
          have hcountA : rest.countP (fun p => p.1 == d) < dfuel := by
            have h1 := hperm.countP_eq (fun p => p.1 == d)
            simp only [List.countP_cons, beq_self_eq_true, eq_self_iff_true,
              if_true] at h1
            omega
          obtain ⟨specs2, hA2, hH2, hgt2, hsub2, hsup2, hm2⟩ :=
            ih hcA hheapA hgedA hcountA
          have hmA : ((specs.set j sj2).map (fun s => s.docs.length - s.pos)).sum
              ≤ (specs.map (fun s => s.docs.length - s.pos)).sum := by
            have h1 := @sum_map_set CSpec (fun s : CSpec => s.docs.length - s.pos)
              specs j sj2 sj hsj
            simp only [hsj2def] at h1 ⊢
            omega
          refine ⟨specs2, hA2, hH2, hgt2, ?_, ?_, by omega⟩
          · intro x hx
            obtain ⟨s, hsmem, hxin⟩ := hsub2 x hx
            rcases List.mem_or_eq_of_mem_set hsmem with hsold | rfl
            · exact ⟨s, hsold, hxin⟩
            · refine ⟨sj, List.get?_mem hsj, ?_⟩
              simp only [hsj2def] at hxin
              exact mem_drop_of_le_pos (Nat.le_succ _) hxin
          · intro x hx hxd
            obtain ⟨s, hsmem, hxin⟩ := hx
            obtain ⟨i, hi⟩ := List.mem_iff_get?.mp hsmem
            by_cases hij : i = j
            · subst hij
              rw [hsj] at hi
              simp only [Option.some.injEq] at hi
              subst hi
              rw [drop_eq_getD_cons hsjact] at hxin
              rcases List.mem_cons.mp hxin with rfl | hxin
              · exact absurd hd_head.symm hxd
              · refine hsup2 x ⟨sj2, List.get?_mem hsjA, by
                  simpa only [hsj2def] using hxin⟩ hxd
            · refine hsup2 x ⟨s, List.get?_mem (show (specs.set j sj2).get? i = some s by
                rw [get?_set_ne (fun h => hij h.symm)]; exact hi), hxin⟩ hxd
        | some v =>
          have hlt1 : sj.pos + 1 < sj.docs.length := by
            by_contra hcon
            push_neg at hcon
            rw [List.get?_eq_none.mpr hcon] at hget1
            exact Option.noConfusion hget1
          have hveq : v = sj.docs.getD (sj.pos + 1) 0 := by
            rw [@get?_eq_some_getD sj.docs (sj.pos + 1) hlt1] at hget1
            simp only [Option.some.injEq] at hget1
            exact hget1.symm
          have hr1 : (cursor_advance file cj.1 cj.2).1 = some v := by
            rw [hadv.1, hget1]
          simp only [hcg, hr1]
          have hvgt : d < v := by
            have := sorted_get_lt hwf.sorted (Nat.lt_succ_self sj.pos)
              (@get?_eq_some_getD sj.docs sj.pos hsjact)
              (@get?_eq_some_getD sj.docs (sj.pos + 1) hlt1)
            omega
          have hheapA : HeapOk (specs.set j sj2) ((v, j) :: rest) := by
            refine ⟨?_, ?_, ?_⟩
            · intro p hp
              rcases List.mem_cons.mp hp with rfl | hp
              · exact ⟨sj2, hsjA, by simpa only [hsj2def] using hlt1,
                  by simpa only [hsj2def] using hveq⟩
              · obtain ⟨s, hs, hact, hhead⟩ := hent p (hrest_sub p hp)
                exact ⟨s, by rw [get?_set_ne (fun h => hrestj p hp h.symm)]; exact hs,
                  hact, hhead⟩
            · simp only [List.map_cons]
              exact List.nodup_cons.mpr ⟨fun h => by
                obtain ⟨p, hp, hpj⟩ := List.mem_map.mp h
                exact hrestj p hp hpj, hrest_nodup⟩
            · intro i s hi hact
              by_cases hij : i = j
              · subst hij
                rw [hsjA] at hi
                simp only [Option.some.injEq] at hi
                subst hi
                refine List.mem_cons.mpr (Or.inl ?_)
                simp only [hsj2def]
                rw [← hveq]
              · rw [get?_set_ne (fun h => hij h.symm)] at hi
                have h2 := hcov i s hi hact
                rcases List.mem_cons.mp (hperm.mem_iff.mp h2) with h3 | h3
                · exact absurd (congrArg Prod.snd h3) (by simpa using hij)
                · exact List.mem_cons_of_mem _ h3
          have hgedA : ∀ p ∈ (v, j) :: rest, d ≤ p.1 := by
            intro p hp
            rcases List.mem_cons.mp hp with rfl | hp
            · omega
            · exact hged p (hrest_sub p hp)
          have hcountA : ((v, j) :: rest).countP (fun p => p.1 == d) < dfuel := by
            have h1 := hperm.countP_eq (fun p => p.1 == d)
            have hvne : (v == d) = false := by
              simp only [beq_eq_false_iff_ne, ne_eq]
              omega
            simp only [List.countP_cons, hvne, beq_self_eq_true, eq_self_iff_true,
              if_true, Bool.false_eq_true, if_false] at h1 ⊢
            omega
          obtain ⟨specs2, hA2, hH2, hgt2, hsub2, hsup2, hm2⟩ :=
            ih hcA hheapA hgedA hcountA
          have hmA : ((specs.set j sj2).map (fun s => s.docs.length - s.pos)).sum
              ≤ (specs.map (fun s => s.docs.length - s.pos)).sum := by
            have h1 := @sum_map_set CSpec (fun s : CSpec => s.docs.length - s.pos)
              specs j sj2 sj hsj
            simp only [hsj2def] at h1 ⊢
            omega
          refine ⟨specs2, hA2, hH2, hgt2, ?_, ?_, by omega⟩
          · intro x hx
            obtain ⟨s, hsmem, hxin⟩ := hsub2 x hx
            rcases List.mem_or_eq_of_mem_set hsmem with hsold | rfl
            · exact ⟨s, hsold, hxin⟩
            · refine ⟨sj, List.get?_mem hsj, ?_⟩
              simp only [hsj2def] at hxin
              exact mem_drop_of_le_pos (Nat.le_succ _) hxin
          · intro x hx hxd
            obtain ⟨s, hsmem, hxin⟩ := hx
            obtain ⟨i, hi⟩ := List.mem_iff_get?.mp hsmem
            by_cases hij : i = j
            · subst hij
              rw [hsj] at hi
              simp only [Option.some.injEq] at hi
              subst hi
              rw [drop_eq_getD_cons hsjact] at hxin
              rcases List.mem_cons.mp hxin with rfl | hxin
              · exact absurd hd_head.symm hxd
              · refine hsup2 x ⟨sj2, List.get?_mem hsjA, by
                  simpa only [hsj2def] using hxin⟩ hxd
            · refine hsup2 x ⟨s, List.get?_mem (show (specs.set j sj2).get? i = some s by
                rw [get?_set_ne (fun h => hij h.symm)]; exact hi), hxin⟩ hxd
      · rw [if_neg hd2]
        refine ⟨specs, hc, ⟨hent, hnodup, hcov⟩, ?_, fun x hx => hx,
          fun x hx _ => hx, Nat.le_refl _⟩
        intro p hp
        have h1 := hged _ hmem
        have h2 := hmin p hp
        simp only at h1 h2
        omega

/-- The outer loop of `boolean_or_daat` enumerates exactly the union of the
remaining streams, given enough fuel. -/
theorem or_loop_spec (file : List Nat) :
    ∀ (fuel : Nat) {curs : List (LexEntry × PostingsCursor)} {specs : List CSpec}
      {heap : List (Nat × Nat)},
      List.Forall₂ (CursOkE file) curs specs →
      HeapOk specs heap →
      (specs.map (fun s => s.docs.length - s.pos)).sum < fuel →
      ∀ x, x ∈ or_loop file fuel curs heap ↔ SuffixMem specs x := by
  intro fuel
  induction fuel with
  | zero =>
    intro curs specs heap _ _ hfuel
    omega
  | succ fuel ih =>
    intro curs specs heap hc hheap hfuel x
    obtain ⟨hent, hnodup, hcov⟩ := hheap
    rw [or_loop]
    cases hpop : popMin heap with
    | none =>
      have hnil := popMin_eq_none hpop
      subst hnil
      simp only [hpop]
      constructor
      · intro h0
        simp at h0
      · intro hsuf
        exfalso
        obtain ⟨s, hsmem, hxin⟩ := hsuf
        obtain ⟨i, hi⟩ := List.mem_iff_get?.mp hsmem
        have hact : s.pos < s.docs.length := by
          by_contra hcon
          push_neg at hcon
          rw [List.drop_eq_nil_of_le hcon] at hxin
          simp at hxin
        have h2 := hcov i s hi hact
        simp at h2
    | some mr =>
      obtain ⟨⟨d, i⟩, rest⟩ := mr
      obtain ⟨hmem, hperm, hmin⟩ := popMin_spec hpop
      simp only [hpop]
      obtain ⟨si, hsi, hsiact, hsihead⟩ := hent _ hmem
      obtain ⟨ci, hci, hciok⟩ := forall₂_get?_right hc hsi
      obtain ⟨hwf, hinv, hple⟩ := hciok
      have hilt : i < specs.length := by
        by_contra hcon
        push_neg at hcon
        rw [List.get?_eq_none.mpr hcon] at hsi
        exact Option.noConfusion hsi
      have hcg : curs.getD i default = ci := by
        rw [List.getD_eq_get?, hci]
        rfl
      have hadv := cursor_advance_spec hwf hinv
      have hminp : min (si.pos + 1) si.docs.length = si.pos + 1 := by omega
      rw [hminp] at hadv
      have hrest_sub : ∀ p ∈ rest, p ∈ heap := by
        intro p hp
        exact hperm.mem_iff.mpr (List.mem_cons_of_mem _ hp)
      have hnodup2 : (i :: rest.map Prod.snd).Nodup :=
        (hperm.map Prod.snd).nodup hnodup
      have hrestj : ∀ p ∈ rest, p.2 ≠ i := by
        intro p hp hpj
        refine (List.nodup_cons.mp hnodup2).1 ?_
        rw [← hpj]
        exact List.mem_map_of_mem Prod.snd hp
      have hrest_nodup : (rest.map Prod.snd).Nodup :=
        (List.nodup_cons.mp hnodup2).2
      set si2 : CSpec := ⟨si.B, si.docs, si.freqs, si.pos + 1⟩ with hsi2def
      have hokA : CursOkE file (ci.1, (cursor_advance file ci.1 ci.2).2) si2 :=
        ⟨hwf, hadv.2, by simp only [hsi2def]; omega⟩
      have hcA := forall₂_set hc i hokA
      have hsiA : (specs.set i si2).get? i = some si2 := get?_set_self (by omega)
      have hd_head : d = si.docs.getD si.pos 0 := hsihead
      have hsumA : ((specs.set i si2).map (fun s => s.docs.length - s.pos)).sum
          + (si.docs.length - si.pos)
          = (specs.map (fun s => s.docs.length - s.pos)).sum
          + (si.docs.length - (si.pos + 1)) := by
        have h1 := @sum_map_set CSpec (fun s : CSpec => s.docs.length - s.pos)
          specs i si2 si hsi
        simp only [hsi2def] at h1 ⊢
        omega
      cases hget1 : si.docs.get? (si.pos + 1) with
      | none =>
        have hlen1 : si.docs.length ≤ si.pos + 1 := List.get?_eq_none.mp hget1
        have hr1 : (cursor_advance file ci.1 ci.2).1 = none := by
          rw [hadv.1, hget1]
        simp only [hcg, hr1]
        have hheapA : HeapOk (specs.set i si2) rest := by
          refine ⟨?_, hrest_nodup, ?_⟩
          · intro p hp
            obtain ⟨s, hs, hact, hhead⟩ := hent p (hrest_sub p hp)
            exact ⟨s, by rw [get?_set_ne (fun h => hrestj p hp h.symm)]; exact hs,
              hact, hhead⟩
          · intro k s hk hact
            by_cases hki : k = i
            · subst hki
              rw [hsiA] at hk
              simp only [Option.some.injEq] at hk
              subst hk
              simp only [hsi2def] at hact
              omega
            · rw [get?_set_ne (fun h => hki h.symm)] at hk
              have h2 := hcov k s hk hact
              rcases List.mem_cons.mp (hperm.mem_iff.mp h2) with h3 | h3
              · exact absurd (congrArg Prod.snd h3) (by simpa using hki)
              · exact h3
        have hgedA : ∀ p ∈ rest, d ≤ p.1 := by
          intro p hp
          exact hmin p (hrest_sub p hp)
        have hcountA : rest.countP (fun p => p.1 == d) < rest.length + 1 :=
          Nat.lt_succ_of_le (List.countP_le_length _)
        obtain ⟨specs2, hA2, hH2, hgt2, hsub2, hsup2, hm2⟩ :=
          or_drain_spec file d (rest.length + 1) hcA hheapA hgedA hcountA
        have hIH := ih hA2 hH2 (by omega)
        constructor
        · intro hx
          rcases List.mem_cons.mp hx with rfl | hx
          · refine ⟨si, List.get?_mem hsi, ?_⟩
            rw [hd_head]
            exact getD_mem_drop hsiact
          · have h2 := hsub2 x ((hIH x).mp hx)
            obtain ⟨s, hsmem, hxin⟩ := h2
            rcases List.mem_or_eq_of_mem_set hsmem with hsold | rfl
            · exact ⟨s, hsold, hxin⟩
            · refine ⟨si, List.get?_mem hsi, ?_⟩
              simp only [hsi2def] at hxin
              exact mem_drop_of_le_pos (Nat.le_succ _) hxin
        · intro hsuf
          by_cases hxd : x = d
          · exact List.mem_cons.mpr (Or.inl hxd)
          · refine List.mem_cons.mpr (Or.inr ((hIH x).mpr ?_))
            refine hsup2 x ?_ hxd
            obtain ⟨s, hsmem, hxin⟩ := hsuf
            obtain ⟨k, hk⟩ := List.mem_iff_get?.mp hsmem
            by_cases hki : k = i
            · subst hki
              rw [hsi] at hk
              simp only [Option.some.injEq] at hk
              subst hk
              rw [drop_eq_getD_cons hsiact] at hxin
              rcases List.mem_cons.mp hxin with rfl | hxin
              · exact absurd hd_head.symm hxd
              · refine ⟨si2, List.get?_mem hsiA, ?_⟩
                simpa only [hsi2def] using hxin
            · exact ⟨s, List.get?_mem (show (specs.set i si2).get? k = some s by
                rw [get?_set_ne (fun h => hki h.symm)]; exact hk), hxin⟩
      | some v =>
        have hlt1 : si.pos + 1 < si.docs.length := by
          by_contra hcon
          push_neg at hcon
          rw [List.get?_eq_none.mpr hcon] at hget1
          exact Option.noConfusion hget1
        have hveq : v = si.docs.getD (si.pos + 1) 0 := by
          rw [@get?_eq_some_getD si.docs (si.pos + 1) hlt1] at hget1
          simp only [Option.some.injEq] at hget1
          exact hget1.symm
        have hr1 : (cursor_advance file ci.1 ci.2).1 = some v := by
          rw [hadv.1, hget1]
        simp only [hcg, hr1]
        have hvgt : d < v := by
          have := sorted_get_lt hwf.sorted (Nat.lt_succ_self si.pos)
            (@get?_eq_some_getD si.docs si.pos hsiact)
            (@get?_eq_some_getD si.docs (si.pos + 1) hlt1)
          omega
        have hheapA : HeapOk (specs.set i si2) ((v, i) :: rest) := by
          refine ⟨?_, ?_, ?_⟩
          · intro p hp
            rcases List.mem_cons.mp hp with rfl | hp
            · exact ⟨si2, hsiA, by simpa only [hsi2def] using hlt1,
                by simpa only [hsi2def] using hveq⟩
            · obtain ⟨s, hs, hact, hhead⟩ := hent p (hrest_sub p hp)
              exact ⟨s, by rw [get?_set_ne (fun h => hrestj p hp h.symm)]; exact hs,
                hact, hhead⟩
          · simp only [List.map_cons]
            exact List.nodup_cons.mpr ⟨fun h => by
              obtain ⟨p, hp, hpj⟩ := List.mem_map.mp h
              exact hrestj p hp hpj, hrest_nodup⟩
          · intro k s hk hact
            by_cases hki : k = i
            · subst hki
              rw [hsiA] at hk
              simp only [Option.some.injEq] at hk
              subst hk
              refine List.mem_cons.mpr (Or.inl ?_)
              simp only [hsi2def]
              rw [← hveq]
            · rw [get?_set_ne (fun h => hki h.symm)] at hk
              have h2 := hcov k s hk hact
              rcases List.mem_cons.mp (hperm.mem_iff.mp h2) with h3 | h3
              · exact absurd (congrArg Prod.snd h3) (by simpa using hki)
              · exact List.mem_cons_of_mem _ h3
        have hgedA : ∀ p ∈ (v, i) :: rest, d ≤ p.1 := by
          intro p hp
          rcases List.mem_cons.mp hp with rfl | hp
          · omega
          · exact hmin p (hrest_sub p hp)
        have hcountA : ((v, i) :: rest).countP (fun p => p.1 == d)
            < ((v, i) :: rest).length + 1 :=
          Nat.lt_succ_of_le (List.countP_le_length _)
        obtain ⟨specs2, hA2, hH2, hgt2, hsub2, hsup2, hm2⟩ :=
          or_drain_spec file d (((v, i) :: rest).length + 1) hcA hheapA hgedA hcountA
        have hIH := ih hA2 hH2 (by omega)
        constructor
        · intro hx
          rcases List.mem_cons.mp hx with rfl | hx
          · refine ⟨si, List.get?_mem hsi, ?_⟩
            rw [hd_head]
            exact getD_mem_drop hsiact
          · have h2 := hsub2 x ((hIH x).mp hx)
            obtain ⟨s, hsmem, hxin⟩ := h2
            rcases List.mem_or_eq_of_mem_set hsmem with hsold | rfl
            · exact ⟨s, hsold, hxin⟩
            · refine ⟨si, List.get?_mem hsi, ?_⟩
              simp only [hsi2def] at hxin
              exact mem_drop_of_le_pos (Nat.le_succ _) hxin
        · intro hsuf
          by_cases hxd : x = d
          · exact List.mem_cons.mpr (Or.inl hxd)
          · refine List.mem_cons.mpr (Or.inr ((hIH x).mpr ?_))
            refine hsup2 x ?_ hxd
            obtain ⟨s, hsmem, hxin⟩ := hsuf
            obtain ⟨k, hk⟩ := List.mem_iff_get?.mp hsmem
            by_cases hki : k = i
            · subst hki
              rw [hsi] at hk
              simp only [Option.some.injEq] at hk
              subst hk
              rw [drop_eq_getD_cons hsiact] at hxin
              rcases List.mem_cons.mp hxin with rfl | hxin
              · exact absurd hd_head.symm hxd
              · refine ⟨si2, List.get?_mem hsiA, ?_⟩
                simpa only [hsi2def] using hxin
            · exact ⟨s, List.get?_mem (show (specs.set i si2).get? k = some s by
                rw [get?_set_ne (fun h => hki h.symm)]; exact hk), hxin⟩

theorem forall₂_get?_left {α β : Type} {R : α → β → Prop} :
    ∀ {l1 : List α} {l2 : List β}, List.Forall₂ R l1 l2 →
      ∀ {i : Nat} {x : α}, l1.get? i = some x → ∃ y, l2.get? i = some y ∧ R x y := by
  intro l1 l2 h
  induction h with
  | nil => intro i x hx; simp at hx
  | @cons a b l1 l2 hr _ ih =>
    intro i x hx
    cases i with
    | zero =>
      simp only [List.get?_cons_zero, Option.some.injEq] at hx
      subst hx
      exact ⟨b, rfl, hr⟩
    | succ i =>
      rw [List.get?_cons_succ] at hx
      obtain ⟨y, hy, hry⟩ := ih hx
      exact ⟨y, hy, hry⟩

/-- The initial heap's cursor indices are pairwise distinct. -/
theorem heap_map_snd_sublist (cursors : List (LexEntry × PostingsCursor)) :
    ((cursors.enum.filterMap
        (fun p => (cursor_docid p.2.2).map (fun d => (d, p.1)))).map Prod.snd).Sublist
      (cursors.enum.map Prod.fst) := by
  generalize cursors.enum = l
  induction l with
  | nil => simp
  | cons p l ih =>
    cases hf : cursor_docid p.2.2 with
    | none =>
      simp only [List.filterMap_cons, hf, Option.map_none', List.map_cons]
      exact ih.cons p.1
    | some d =>
      simp only [List.filterMap_cons, hf, Option.map_some', List.map_cons]
      exact ih.cons₂ p.1

/-- DAAT intersection over fresh cursors equals the naive intersection of
the terms' full docid lists. -/
theorem boolean_and_daat_spec (file : List Nat) {entries : List LexEntry}
    {specs : List CSpec}
    (hwf : List.Forall₂ (fun (e : LexEntry) (s : CSpec) =>
      EntryWF file e s.B s.docs s.freqs ∧ s.pos = 0) entries specs)
    {fuel : Nat} (hfuel : (specs.map (fun s => s.docs.length)).sum < fuel) :
    ∀ d, d ∈ boolean_and_daat file fuel (entries.map (fun e => (e, mkCursor file e)))
      ↔ (entries ≠ [] ∧ ∀ s ∈ specs, d ∈ s.docs) := by
  intro d
  have hpos0 : ∀ s ∈ specs, s.pos = 0 := by
    intro s hsmem
    obtain ⟨e, _, _, hp⟩ := forall₂_mem_right hwf s hsmem
    exact hp
  cases entries with
  | nil =>
    cases hwf
    simp [boolean_and_daat]
  | cons e0 es =>
    rw [boolean_and_daat]
    rw [if_neg (by simp)]
    have hget0 : List.Forall₂ (fun (h : Option Nat) (s : CSpec) => h = s.docs.get? 0)
        (((e0 :: es).map (fun e => (e, mkCursor file e))).map
          (fun c => cursor_docid c.2)) specs := by
      rw [List.map_map, List.forall₂_map_left_iff]
      refine List.Forall₂.imp ?_ hwf
      intro e s hes
      obtain ⟨w, hp⟩ := hes
      have h1 := cursor_docid_spec w.hB (mkCursor_spec w)
      simpa using h1
    by_cases hany : ((((e0 :: es)).map (fun e => (e, mkCursor file e))).map
        (fun c => cursor_docid c.2)).any (fun h => h.isNone) = true
    · rw [if_pos hany]
      rw [List.any_eq_true] at hany
      obtain ⟨h0, hh0mem, hh0none⟩ := hany
      obtain ⟨s0, hs0mem, hs0⟩ := forall₂_mem_left hget0 h0 hh0mem
      have hs0nil : s0.docs = [] := by
        rw [Option.isNone_iff_eq_none] at hh0none
        rw [hh0none] at hs0
        have h2 := List.get?_eq_none.mp hs0.symm
        exact List.length_eq_zero.mp (by omega)
      constructor
      · intro hx
        simp at hx
      · rintro ⟨-, hall⟩
        have h2 := hall s0 hs0mem
        rw [hs0nil] at h2
        simp at h2
    · rw [if_neg hany]
      have hnn : ∀ h ∈ (((e0 :: es)).map (fun e => (e, mkCursor file e))).map
          (fun c => cursor_docid c.2), h.isNone = false := by
        intro h hmem
        rcases hb : h.isNone with - | -
        · rfl
        · exact absurd (List.any_eq_true.mpr ⟨h, hmem, hb⟩) hany
      have hne_docs : ∀ s ∈ specs, s.docs ≠ [] := by
        intro s hsmem hnil
        obtain ⟨h0, hh0mem, hh0⟩ := forall₂_mem_right hget0 s hsmem
        have h2 := hnn h0 hh0mem
        rw [hh0, hnil] at h2
        simp at h2
      have hcurs : List.Forall₂ (CursOk file)
          ((e0 :: es).map (fun e => (e, mkCursor file e))) specs := by
        rw [List.forall₂_map_left_iff]
        refine forall₂_imp_mem hwf ?_
        intro e s _ hsmem hes
        obtain ⟨w, hp⟩ := hes
        have hlen : 0 < s.docs.length := List.length_pos.mpr (hne_docs s hsmem)
        refine ⟨w, ?_, by omega⟩
        rw [hp]
        exact mkCursor_spec w
      have hhead : List.Forall₂ HeadOk
          (((((e0 :: es)).map (fun e => (e, mkCursor file e))).map
            (fun c => cursor_docid c.2)).map (fun h => h.getD 0)) specs := by
        rw [List.forall₂_map_left_iff]
        refine forall₂_imp_mem hget0 ?_
        intro h0 s _ hsmem hh0
        have hlen : 0 < s.docs.length := List.length_pos.mpr (hne_docs s hsmem)
        show h0.getD 0 = s.docs.getD s.pos 0
        rw [hh0, @get?_eq_some_getD s.docs 0 hlen, hpos0 s hsmem]
        rfl
      have hne2 : specs ≠ [] := by
        intro h0
        subst h0
        cases hwf
      have hms : (specs.map (fun s => s.docs.length - s.pos)).sum
          ≤ (specs.map (fun s => s.docs.length)).sum :=
        forall₂_sum_le _ _ (List.forall₂_same.mpr (fun s _ => Nat.sub_le _ _))
      rw [and_loop_spec file fuel hne2 hcurs hhead (by omega) d]
      constructor
      · intro hall
        refine ⟨by simp, ?_⟩
        intro s hsmem
        have h2 := hall s hsmem
        rwa [hpos0 s hsmem, List.drop_zero] at h2
      · rintro ⟨-, hall⟩
        intro s hsmem
        rw [hpos0 s hsmem, List.drop_zero]
        exact hall s hsmem

/-- DAAT union over fresh cursors equals the naive union of the terms'
full docid lists. -/
theorem boolean_or_daat_spec (file : List Nat) {entries : List LexEntry}
    {specs : List CSpec}
    (hwf : List.Forall₂ (fun (e : LexEntry) (s : CSpec) =>
      EntryWF file e s.B s.docs s.freqs ∧ s.pos = 0) entries specs)
    {fuel : Nat} (hfuel : (specs.map (fun s => s.docs.length)).sum < fuel) :
    ∀ d, d ∈ boolean_or_daat file fuel (entries.map (fun e => (e, mkCursor file e)))
      ↔ ∃ s ∈ specs, d ∈ s.docs := by
  intro d
  have hdz : List.Forall₂ (fun (c : LexEntry × PostingsCursor) (s : CSpec) =>
      cursor_docid c.2 = s.docs.get? 0 ∧ s.pos = 0)
      (entries.map (fun e => (e, mkCursor file e))) specs := by
    rw [List.forall₂_map_left_iff]
    refine List.Forall₂.imp ?_ hwf
    intro e s hes
    obtain ⟨w, hp⟩ := hes
    have h1 := cursor_docid_spec w.hB (mkCursor_spec w)
    exact ⟨by simpa using h1, hp⟩
  have hcursE : List.Forall₂ (CursOkE file)
      (entries.map (fun e => (e, mkCursor file e))) specs := by
    rw [List.forall₂_map_left_iff]
    refine List.Forall₂.imp ?_ hwf
    intro e s hes
    obtain ⟨w, hp⟩ := hes
    refine ⟨w, ?_, by omega⟩
    rw [hp]
    exact mkCursor_spec w
  have hheap : HeapOk specs
      ((entries.map (fun e => (e, mkCursor file e))).enum.filterMap
        (fun p => (cursor_docid p.2.2).map (fun d => (d, p.1)))) := by
    refine ⟨?_, ?_, ?_⟩
    · intro p hp
      obtain ⟨a, hamem, hfa⟩ := List.mem_filterMap.mp hp
      obtain ⟨d0, hd0, hpd⟩ := Option.map_eq_some'.mp hfa
      have hag := List.mem_enum_iff_get?.mp hamem
      obtain ⟨s, hs, hcd, hsp⟩ := forall₂_get?_left hdz hag
      rw [hd0] at hcd
      have hlen : 0 < s.docs.length := by
        by_contra hcon
        push_neg at hcon
        rw [List.get?_eq_none.mpr (by omega)] at hcd
        exact Option.noConfusion hcd
      rw [@get?_eq_some_getD s.docs 0 hlen] at hcd
      simp only [Option.some.injEq] at hcd
      refine ⟨s, by rw [← hpd]; exact hs, by rw [hsp]; omega, ?_⟩
      rw [← hpd, hsp]
      simpa using hcd
    · exact (heap_map_snd_sublist _).nodup (List.nodup_enum_map_fst _)
    · intro i s hi hact
      obtain ⟨c, hc, hcd, hsp⟩ := forall₂_get?_right hdz hi
      have hamem : (i, c) ∈ (entries.map (fun e => (e, mkCursor file e))).enum :=
        List.mem_enum_iff_get?.mpr hc
      refine List.mem_filterMap.mpr ⟨(i, c), hamem, ?_⟩
      have h1 : cursor_docid c.2 = some (s.docs.getD s.pos 0) := by
        rw [hcd, hsp]
        exact @get?_eq_some_getD s.docs 0 (by rwa [hsp] at hact)
      show (cursor_docid c.2).map (fun d => (d, i)) = some (s.docs.getD s.pos 0, i)
      rw [h1]
      rfl
  have hms : (specs.map (fun s => s.docs.length - s.pos)).sum
      ≤ (specs.map (fun s => s.docs.length)).sum :=
    forall₂_sum_le _ _ (List.forall₂_same.mpr (fun s _ => Nat.sub_le _ _))
  have hpos0 : ∀ s ∈ specs, s.pos = 0 := by
    intro s hsmem
    obtain ⟨e, _, _, hp⟩ := forall₂_mem_right hwf s hsmem
    exact hp
  rw [boolean_or_daat]
  rw [or_loop_spec file fuel hcursE hheap (by omega) d]
  constructor
  · rintro ⟨s, hsmem, hx⟩
    refine ⟨s, hsmem, ?_⟩
    rwa [hpos0 s hsmem, List.drop_zero] at hx
  · rintro ⟨s, hsmem, hx⟩
    refine ⟨s, hsmem, ?_⟩
    rwa [hpos0 s hsmem, List.drop_zero]

/-- **C3.** For every family of terms with well-formed postings entries in
a shared postings file, the docids yielded by `boolean_and_daat` over one
fresh cursor per term are exactly the naive intersection of the terms'
full docid lists, and those yielded by `boolean_or_daat` are exactly their
naive union (given fuel above the total number of postings). -/
theorem claim_C3_boolean_daat (file : List Nat) (entries : List LexEntry)
    (specs : List CSpec)
    (hwf : List.Forall₂ (fun (e : LexEntry) (s : CSpec) =>
      EntryWF file e s.B s.docs s.freqs ∧ s.pos = 0) entries specs)
    (fuel : Nat) (hfuel : (specs.map (fun s => s.docs.length)).sum < fuel) :
    (∀ d, d ∈ boolean_and_daat file fuel (entries.map (fun e => (e, mkCursor file e)))
        ↔ (entries ≠ [] ∧ ∀ s ∈ specs, d ∈ s.docs)) ∧
    (∀ d, d ∈ boolean_or_daat file fuel (entries.map (fun e => (e, mkCursor file e)))
        ↔ ∃ s ∈ specs, d ∈ s.docs) :=
  ⟨boolean_and_daat_spec file hwf hfuel, boolean_or_daat_spec file hwf hfuel⟩

theorem claim_C3_boolean_daat_witness :
    ∃ file1 entry1 file2 entry2,
      add_term "varbyte" 2 [] [(1, 1), (3, 1), (5, 1), (9, 1)]
        = some (file1, entry1) ∧
      add_term "varbyte" 2 file1 [(3, 2), (4, 2), (9, 2), (12, 2)]
        = some (file2, entry2) ∧
      ((∀ d, d ∈ boolean_and_daat file2 9
            ([entry1, entry2].map (fun e => (e, mkCursor file2 e)))
          ↔ (([entry1, entry2] : List LexEntry) ≠ [] ∧
            ∀ s ∈ ([⟨2, sortedDocids [(1, 1), (3, 1), (5, 1), (9, 1)],
                      sortedFreqs [(1, 1), (3, 1), (5, 1), (9, 1)], 0⟩,
                    ⟨2, sortedDocids [(3, 2), (4, 2), (9, 2), (12, 2)],
                      sortedFreqs [(3, 2), (4, 2), (9, 2), (12, 2)], 0⟩] : List CSpec),
              d ∈ s.docs)) ∧
       (∀ d, d ∈ boolean_or_daat file2 9
            ([entry1, entry2].map (fun e => (e, mkCursor file2 e)))
          ↔ ∃ s ∈ ([⟨2, sortedDocids [(1, 1), (3, 1), (5, 1), (9, 1)],
                      sortedFreqs [(1, 1), (3, 1), (5, 1), (9, 1)], 0⟩,
                    ⟨2, sortedDocids [(3, 2), (4, 2), (9, 2), (12, 2)],
                      sortedFreqs [(3, 2), (4, 2), (9, 2), (12, 2)], 0⟩] : List CSpec),
              d ∈ s.docs)) := by
  obtain ⟨file1, entry1, h1⟩ := @add_term_isSome "varbyte" 2 (by norm_num) []
    [(1, 1), (3, 1), (5, 1), (9, 1)] (by decide) (by decide)
  obtain ⟨file2, entry2, h2⟩ := @add_term_isSome "varbyte" 2 (by norm_num) file1
    [(3, 2), (4, 2), (9, 2), (12, 2)] (by decide) (by decide)
  obtain ⟨-, -, -, -, ⟨bytes2, hb2⟩, -⟩ := add_term_spec h2
  have w1 : EntryWF file2 entry1 2 (sortedDocids [(1, 1), (3, 1), (5, 1), (9, 1)])
      (sortedFreqs [(1, 1), (3, 1), (5, 1), (9, 1)]) := by
    have hw := add_term_entryWF (by norm_num) (by decide) h1 bytes2
    rwa [← hb2] at hw
  have w2 : EntryWF file2 entry2 2 (sortedDocids [(3, 2), (4, 2), (9, 2), (12, 2)])
      (sortedFreqs [(3, 2), (4, 2), (9, 2), (12, 2)]) := by
    have hw := add_term_entryWF (by norm_num) (by decide) h2 []
    rwa [List.append_nil] at hw
  have hl1 : (sortedDocids [(1, 1), (3, 1), (5, 1), (9, 1)]).length = 4 := by
    rw [sortedDocids, List.length_map, sortedItems_length]
    rfl
  have hl2 : (sortedDocids [(3, 2), (4, 2), (9, 2), (12, 2)]).length = 4 := by
    rw [sortedDocids, List.length_map, sortedItems_length]
    rfl
  refine ⟨file1, entry1, file2, entry2, h1, h2,
    claim_C3_boolean_daat file2 [entry1, entry2] _
      (List.Forall₂.cons ⟨w1, rfl⟩ (List.Forall₂.cons ⟨w2, rfl⟩ List.Forall₂.nil))
      9 ?_⟩
  simp only [List.map_cons, List.map_nil, List.sum_cons, List.sum_nil]
  rw [hl1, hl2]
  norm_num

/-! ## C5: `ranked_daat` — BM25 top-K over a k-way cursor merge
(`engine/daat_ranker.py`).  Float scores are modelled in `ℚ` and
`math.log` by an opaque parameter `mlog`; queries are character lists and
the lexicon map an association list keyed by token. -/

/-- `_bm25_idf(N, df)`: `log((N - df + 0.5) / (df + 0.5) + 1.0)`. -/
def bm25_idf (mlog : ℚ → ℚ) (N df : Nat) : ℚ :=
  mlog (((N : ℚ) - (df : ℚ) + 1/2) / ((df : ℚ) + 1/2) + 1)

/-- `_bm25_term(tf, df, dl, N, avgdl, k1, b)`. -/
def bm25_term (mlog : ℚ → ℚ) (tf df dl N : Nat) (avgdl k1 b : ℚ) : ℚ :=
  bm25_idf mlog N df * ((tf : ℚ) * (k1 + 1)) /
    ((tf : ℚ) + k1 * (1 - b + b * ((dl : ℚ) / avgdl)))

/-- `query.lower().split()`: split on runs of Python whitespace, dropping
empty pieces; `cur` holds the (reversed) token under construction. -/
def splitWs : List Char → List Char → List (List Char)
  | [], cur => if cur.isEmpty then [] else [cur.reverse]
  | c :: cs, cur =>
    if isPySpace c then
      if cur.isEmpty then splitWs cs [] else cur.reverse :: splitWs cs []
    else splitWs cs (c :: cur)

/-- A read of the `defaultdict(float)` score accumulator: the most recent
binding wins, missing keys read `0.0`. -/
def qlookup (scores : List (Nat × ℚ)) (d : Nat) : ℚ :=
  (scores.lookup d).getD 0

/-- `avgdl = sum(doc_lengths.values()) / N`. -/
def rd_avgdl (doc_lengths : List (Nat × Nat)) : ℚ :=
  (doc_lengths.map (fun p => (p.2 : ℚ))).sum / (doc_lengths.length : ℚ)

/-- The `terms.sort(key=lambda t: lex_map[t]["df"])` comparator (the sort
is stable, as is `List.mergeSort`). -/
def rd_le (lex : List (List Char × LexEntry)) (t1 t2 : List Char) : Bool :=
  decide (((lex.lookup t1).getD default).df ≤ ((lex.lookup t2).getD default).df)

/-- The BM25 accumulation over the tied cursors
(`for idx in tied: ... dl = doc_lengths.get(d, 0); if dl > 0:
scores[d] += _bm25_term(tf, dfs[t], dl, N, avgdl, k1, b)`); a fresh
binding shadows the previous one in the association list. -/
def rd_accumulate (mlog : ℚ → ℚ) (doc_lengths : List (Nat × Nat)) (N : Nat)
    (avgdl k1 b : ℚ) (curs : List (List Char × LexEntry × PostingsCursor))
    (dfs : List (List Char × Nat)) (d : Nat) :
    List Nat → List (Nat × ℚ) → List (Nat × ℚ)
  | [], scores => scores
  | idx :: rest, scores =>
    let c := curs.getD idx default
    let tf := c.2.2.freqs.getD c.2.2.j 0
    let dl := (doc_lengths.lookup d).getD 0
    rd_accumulate mlog doc_lengths N avgdl k1 b curs dfs d rest
      (if 0 < dl then
        (d, qlookup scores d
              + bm25_term mlog tf ((dfs.lookup c.1).getD 0) dl N avgdl k1 b) :: scores
       else scores)

/-- Advance every tied cursor and push the returned next docids
(`for idx in tied: nxt = cursors[idx].advance(); if nxt is not None:
heapq.heappush(heap, (nxt, idx))`). -/
def rd_advance (file : List Nat) :
    List Nat → List (List Char × LexEntry × PostingsCursor) → List (Nat × Nat) →
    List (List Char × LexEntry × PostingsCursor) × List (Nat × Nat)
  | [], curs, heap => (curs, heap)
  | idx :: rest, curs, heap =>
    let c := curs.getD idx default
    let r := cursor_advance file c.2.1 c.2.2
    rd_advance file rest (curs.set idx (c.1, c.2.1, r.2))
      (match r.1 with
       | some nxt => (nxt, idx) :: heap
       | none => heap)

/-- The tie-gathering `while heap and heap[0][0] == d` loop; the binary
heap is modelled by its contract (`popMin` extracts the least
`(docid, index)` pair) and `dfuel = heap.length` bounds the pops. -/
def rd_tied : Nat → Nat → List Nat → List (Nat × Nat) → List Nat × List (Nat × Nat)
  | 0, _, tied, heap => (tied, heap)
  | dfuel + 1, d, tied, heap =>
    match popMin heap with
    | none => (tied, heap)
    | some ((d2, j), rest) =>
      if d2 = d then rd_tied dfuel d (tied ++ [j]) rest else (tied, heap)

/-- `heapq` minimum extraction over the `(score, docid)` top-K min-heap,
by the same contract as `popMin`. -/
def popMinQ : List (ℚ × Nat) → Option ((ℚ × Nat) × List (ℚ × Nat))
  | [] => none
  | x :: xs =>
    match popMinQ xs with
    | none => some (x, [])
    | some (m, rest) =>
      if x.1 < m.1 ∨ (x.1 = m.1 ∧ x.2 ≤ m.2) then some (x, xs)
      else some (m, x :: rest)

/-- The main `while heap:` loop of `ranked_daat`, with explicit fuel:
pop the least docid, gather ties, AND-gate, accumulate BM25, maintain the
top-K min-heap (push below capacity, else replace when
`sc > top[0][0]`), advance the tied cursors. -/
def rd_loop (file : List Nat) (mlog : ℚ → ℚ) (doc_lengths : List (Nat × Nat))
    (N : Nat) (avgdl k1 b : ℚ) (andMode : Bool) (ncursors topk : Nat)
    (dfs : List (List Char × Nat)) :
    Nat → List (List Char × LexEntry × PostingsCursor) → List (Nat × Nat) →
    List (Nat × ℚ) → List (ℚ × Nat) → List (ℚ × Nat)
  | 0, _, _, _, top => top
  | fuel + 1, curs, heap, scores, top =>
    match popMin heap with
    | none => top
    | some ((d, i), rest) =>
      let g := rd_tied rest.length d [i] rest
      if andMode = true ∧ g.1.length < ncursors then
        let a := rd_advance file g.1 curs g.2
        rd_loop file mlog doc_lengths N avgdl k1 b andMode ncursors topk dfs fuel
          a.1 a.2 scores top
      else
        let scores2 := rd_accumulate mlog doc_lengths N avgdl k1 b curs dfs d g.1 scores
        let sc := qlookup scores2 d
        let top2 :=
          if top.length < topk then (sc, d) :: top
          else
            match popMinQ top with
            | none => top
            | some (m, restT) => if m.1 < sc then (sc, d) :: restT else top
        let a := rd_advance file g.1 curs g.2
        rd_loop file mlog doc_lengths N avgdl k1 b andMode ncursors topk dfs fuel
          a.1 a.2 scores2 top2

/-- The final `top.sort(key=lambda x: x[0], reverse=True)` (stable) and
the `[(docid, score) for (score, docid) in top]` emit. -/
def rd_finish (top : List (ℚ × Nat)) : List (Nat × ℚ) :=
  (top.mergeSort (fun x y => decide (y.1 ≤ x.1))).map (fun p => (p.2, p.1))

/-- The merge phase of `ranked_daat` once the per-term cursors exist:
corpus stats, initial heap of `(docid(), index)` pairs, empty score and
top-K accumulators, `dfs = {t: lex_map[t]["df"]}`, main loop, final sort. -/
def rd_main (file : List Nat) (mlog : ℚ → ℚ) (doc_lengths : List (Nat × Nat))
    (topk : Nat) (k1 b : ℚ) (andMode : Bool) (fuel : Nat)
    (curs : List (List Char × LexEntry × PostingsCursor)) : List (Nat × ℚ) :=
  let heap := curs.enum.filterMap (fun p => (cursor_docid p.2.2.2).map (fun d => (d, p.1)))
  if heap.isEmpty then []
  else
    let dfs := curs.map (fun c => (c.1, c.2.1.df))
    rd_finish (rd_loop file mlog doc_lengths doc_lengths.length (rd_avgdl doc_lengths)
      k1 b andMode curs.length topk dfs fuel curs heap [] [])

/-- Build one `PostingsCursor` per df-sorted term
(`cursors = [PostingsCursor(reader, t, lex_map[t]) for t in terms]`). -/
def rd_stage2 (file : List Nat) (mlog : ℚ → ℚ) (lex : List (List Char × LexEntry))
    (doc_lengths : List (Nat × Nat)) (topk : Nat) (k1 b : ℚ) (andMode : Bool)
    (fuel : Nat) (terms : List (List Char)) : List (Nat × ℚ) :=
  rd_main file mlog doc_lengths topk k1 b andMode fuel
    (terms.map (fun t => (t, (lex.lookup t).getD default,
      mkCursor file ((lex.lookup t).getD default))))

/-- `ranked_daat(query, lex_map, reader, doc_lengths, topk, k1, b, mode)`:
tokenize and filter by the lexicon, bail out on an empty term list or an
empty doc-length table, sort terms by ascending `df`, then run the merge.
`mode.upper() == "AND"` is the boolean `andMode`. -/
def ranked_daat (file : List Nat) (mlog : ℚ → ℚ) (query : List Char)
    (lex : List (List Char × LexEntry)) (doc_lengths : List (Nat × Nat))
    (topk : Nat) (k1 b : ℚ) (andMode : Bool) (fuel : Nat) : List (Nat × ℚ) :=
  let terms0 := (splitWs (query.map Char.toLower) []).filter
    (fun t => (lex.lookup t).isSome)
  if terms0.isEmpty then []
  else if doc_lengths.length = 0 then []
  else rd_stage2 file mlog lex doc_lengths topk k1 b andMode fuel
    (terms0.mergeSort (rd_le lex))

/-- A successful association-list lookup is a membership. -/
theorem lookup_mem {α β : Type} [BEq α] [LawfulBEq α] :
    ∀ {l : List (α × β)} {a : α} {b : β}, l.lookup a = some b → (a, b) ∈ l := by
  intro l
  induction l with
  | nil => intro a b h; exact Option.noConfusion h
  | cons x xs ih =>
    intro a b h
    obtain ⟨k, v⟩ := x
    rw [List.lookup] at h
    cases hk : a == k with
    | true =>
      simp only [hk] at h
      have hab : b = v := by
        simpa using h.symm
      have hak : a = k := eq_of_beq hk
      rw [hab, hak]
      exact List.mem_cons_self _ _
    | false =>
      simp only [hk] at h
      exact List.mem_cons_of_mem _ (ih h)

/-- The `if dl > 0` guard: `rd_accumulate` keeps the invariant that every
score binding for a docid missing from `doc_lengths` (or with recorded
length `0`) is `0`. -/
theorem rd_accumulate_zero {mlog : ℚ → ℚ} {doc_lengths : List (Nat × Nat)} {N : Nat}
    {avgdl k1 b : ℚ} {curs : List (List Char × LexEntry × PostingsCursor)}
    {dfs : List (List Char × Nat)} {d : Nat} :
    ∀ {tied : List Nat} {scores : List (Nat × ℚ)},
      (∀ e v, (e, v) ∈ scores → (doc_lengths.lookup e).getD 0 = 0 → v = 0) →
      ∀ e v, (e, v) ∈ rd_accumulate mlog doc_lengths N avgdl k1 b curs dfs d tied scores →
        (doc_lengths.lookup e).getD 0 = 0 → v = 0 := by
  intro tied
  induction tied with
  | nil =>
    intro scores hs e v hmem hz
    rw [rd_accumulate] at hmem
    exact hs e v hmem hz
  | cons idx rest ih =>
    intro scores hs e v hmem hz
    simp only [rd_accumulate] at hmem
    refine ih ?_ e v hmem hz
    intro e2 v2 hmem2 hz2
    by_cases hdl : 0 < (doc_lengths.lookup d).getD 0
    · rw [if_pos hdl] at hmem2
      rcases List.mem_cons.mp hmem2 with heq | hmem3
      · have hd2 : e2 = d := congrArg Prod.fst heq
        rw [hd2] at hz2
        omega
      · exact hs e2 v2 hmem3 hz2
    · rw [if_neg hdl] at hmem2
      exact hs e2 v2 hmem2 hz2

/-- Reading the score accumulator for a zero-length docid yields `0`. -/
theorem qlookup_zero {doc_lengths : List (Nat × Nat)} {scores : List (Nat × ℚ)}
    (hs : ∀ e v, (e, v) ∈ scores → (doc_lengths.lookup e).getD 0 = 0 → v = 0)
    {d : Nat} (hz : (doc_lengths.lookup d).getD 0 = 0) :
    qlookup scores d = 0 := by
  rw [qlookup]
  cases h : scores.lookup d with
  | none => rfl
  | some v =>
    rw [Option.getD_some]
    exact hs d v (lookup_mem h) hz

/-- Everything left after a `popMinQ` extraction was in the heap. -/
theorem popMinQ_rest_subset : ∀ {l : List (ℚ × Nat)} {m : ℚ × Nat}
    {rest : List (ℚ × Nat)}, popMinQ l = some (m, rest) → ∀ x ∈ rest, x ∈ l := by
  intro l
  induction l with
  | nil => intro m rest h; exact Option.noConfusion h
  | cons x xs ih =>
    intro m rest h
    rw [popMinQ] at h
    cases h2 : popMinQ xs with
    | none =>
      rw [h2] at h
      simp only [Option.some.injEq, Prod.mk.injEq] at h
      obtain ⟨rfl, rfl⟩ := h
      intro y hy
      simp at hy
    | some p =>
      obtain ⟨m2, rest2⟩ := p
      simp only [h2] at h
      by_cases hcond : x.1 < m2.1 ∨ (x.1 = m2.1 ∧ x.2 ≤ m2.2)
      · rw [if_pos hcond] at h
        simp only [Option.some.injEq, Prod.mk.injEq] at h
        obtain ⟨rfl, rfl⟩ := h
        intro y hy
        exact List.mem_cons_of_mem x hy
      · rw [if_neg hcond] at h
        simp only [Option.some.injEq, Prod.mk.injEq] at h
        obtain ⟨rfl, rfl⟩ := h
        intro y hy
        rcases List.mem_cons.mp hy with rfl | hy2
        · exact List.mem_cons_self _ _
        · exact List.mem_cons_of_mem _ (ih h2 y hy2)

/-- Main loop invariant: every pair in the top-K heap whose docid is
missing from `doc_lengths` (or has zero length) carries score `0`. -/
theorem rd_loop_zero {file : List Nat} {mlog : ℚ → ℚ} {doc_lengths : List (Nat × Nat)}
    {N : Nat} {avgdl k1 b : ℚ} {andMode : Bool} {ncursors topk : Nat}
    {dfs : List (List Char × Nat)} :
    ∀ (fuel : Nat) (curs : List (List Char × LexEntry × PostingsCursor))
      (heap : List (Nat × Nat)) (scores : List (Nat × ℚ)) (top : List (ℚ × Nat)),
      (∀ e v, (e, v) ∈ scores → (doc_lengths.lookup e).getD 0 = 0 → v = 0) →
      (∀ s e, (s, e) ∈ top → (doc_lengths.lookup e).getD 0 = 0 → s = 0) →
      ∀ s e, (s, e) ∈ rd_loop file mlog doc_lengths N avgdl k1 b andMode ncursors topk
          dfs fuel curs heap scores top →
        (doc_lengths.lookup e).getD 0 = 0 → s = 0 := by
  intro fuel
  induction fuel with
  | zero =>
    intro curs heap scores top hs ht s e hmem hz
    rw [rd_loop] at hmem
    exact ht s e hmem hz
  | succ fuel ih =>
    intro curs heap scores top hs ht s e hmem hz
    simp only [rd_loop] at hmem
    cases hpop : popMin heap with
    | none =>
      simp only [hpop] at hmem
      exact ht s e hmem hz
    | some p =>
      obtain ⟨⟨d, i⟩, rest⟩ := p
      simp only [hpop] at hmem
      by_cases hand : andMode = true ∧ (rd_tied rest.length d [i] rest).1.length < ncursors
      · rw [if_pos hand] at hmem
        exact ih _ _ _ _ hs ht s e hmem hz
      · rw [if_neg hand] at hmem
        have hs2 : ∀ e2 v2, (e2, v2) ∈ rd_accumulate mlog doc_lengths N avgdl k1 b curs
            dfs d (rd_tied rest.length d [i] rest).1 scores →
            (doc_lengths.lookup e2).getD 0 = 0 → v2 = 0 :=
          fun e2 v2 hm hz2 => rd_accumulate_zero hs e2 v2 hm hz2
        refine ih _ _ _ _ hs2 ?_ s e hmem hz
        intro s2 e2 hmem2 hz2
        by_cases htl : top.length < topk
        · rw [if_pos htl] at hmem2
          rcases List.mem_cons.mp hmem2 with heq | hm3
          · rw [Prod.mk.injEq] at heq
            obtain ⟨hseq, hdeq⟩ := heq
            rw [hdeq] at hz2
            rw [hseq]
            exact qlookup_zero hs2 hz2
          · exact ht s2 e2 hm3 hz2
        · rw [if_neg htl] at hmem2
          cases hpq : popMinQ top with
          | none =>
            simp only [hpq] at hmem2
            exact ht s2 e2 hmem2 hz2
          | some q =>
            obtain ⟨m, restT⟩ := q
            simp only [hpq] at hmem2
            by_cases hlt : m.1 < qlookup (rd_accumulate mlog doc_lengths N avgdl k1 b curs
                dfs d (rd_tied rest.length d [i] rest).1 scores) d
            · rw [if_pos hlt] at hmem2
              rcases List.mem_cons.mp hmem2 with heq | hm3
              · rw [Prod.mk.injEq] at heq
                obtain ⟨hseq, hdeq⟩ := heq
                rw [hdeq] at hz2
                rw [hseq]
                exact qlookup_zero hs2 hz2
              · exact ht s2 e2 (popMinQ_rest_subset hpq _ hm3) hz2
            · rw [if_neg hlt] at hmem2
              exact ht s2 e2 hmem2 hz2

/-- **C5 (amended).** In `ranked_daat`, a docid missing from `doc_lengths`
or with recorded length `0` contributes zero to every score (the
`if dl > 0` guard skips its BM25 contributions), but it is *not* dropped
from the results: the code unconditionally pushes `(scores[d], d)` into
the top-K heap, so such a docid can appear in the returned list — always
with score exactly `0`.  Formally: every returned `(docid, score)` pair
whose docid reads `0` from the doc-length table has `score = 0`. -/
theorem claim_C5_ranked_daat (file : List Nat) (mlog : ℚ → ℚ) (query : List Char)
    (lex : List (List Char × LexEntry)) (doc_lengths : List (Nat × Nat))
    (topk : Nat) (k1 b : ℚ) (andMode : Bool) (fuel : Nat) (d : Nat) (sc : ℚ)
    (hmem : (d, sc) ∈ ranked_daat file mlog query lex doc_lengths topk k1 b andMode fuel)
    (hz : (doc_lengths.lookup d).getD 0 = 0) : sc = 0 := by
  simp only [ranked_daat] at hmem
  split at hmem
  · exact absurd hmem (List.not_mem_nil _)
  · split at hmem
    · exact absurd hmem (List.not_mem_nil _)
    · rw [rd_stage2] at hmem
      simp only [rd_main] at hmem
      split at hmem
      · exact absurd hmem (List.not_mem_nil _)
      · simp only [rd_finish] at hmem
        obtain ⟨⟨s2, d2⟩, hmem2, heq⟩ := List.mem_map.mp hmem
        simp only [Prod.mk.injEq] at heq
        obtain ⟨hd2, hs2⟩ := heq
        have hmem3 := (List.mergeSort_perm _ _).mem_iff.mp hmem2
        rw [← hs2]
        refine rd_loop_zero _ _ _ _ _
          (fun e v hv _ => absurd hv (List.not_mem_nil _))
          (fun s3 e3 hv _ => absurd hv (List.not_mem_nil _)) s2 d2 hmem3 ?_
        rw [hd2]
        exact hz

/-- `chunkList` at the default block size on a singleton list. -/
theorem chunkList_single {x : Nat} : chunkList 128 [x] = [[x]] := by
  rw [chunkList_cons, if_neg (by norm_num)]
  rw [show List.drop 128 [x] = ([] : List Nat) from by simp,
      show List.take 128 [x] = [x] from by simp]
  simp [chunkList]

/-- Concrete counterexample instance: the raw-codec postings file holding
the single posting `(7, 2)` for one term. -/
def cfile : List Nat := [7, 0, 0, 0, 2, 0, 0, 0]

/-- Its lexicon entry, exactly as `ListWriter.add_term` records it. -/
def centry : LexEntry :=
  { offset := 0, df := 1, nblocks := 1,
    blocks := [{ offset := 0, doc_bytes := 4, freq_bytes := 4, last_docid := 7 }],
    codec := "raw" }

/-- The lexicon mapping the query token `"a"` to `centry`. -/
def cLex : List (List Char × LexEntry) := [(['a'], centry)]

/-- A doc-length table that does not mention docid `7`. -/
def cdls : List (Nat × Nat) := [(5, 3)]

/-- The cursor state right after `PostingsCursor.__init__` on `centry`. -/
def cst : PostingsCursor :=
  { block_index := 0, block_last := 7, docids := [7], freqs := [2],
    j := 0, exhausted := false }

/-- A concrete stand-in for `math.log`; the counterexample's only scored
docid has zero recorded length, so no score is ever computed from it. -/
def mlogId : ℚ → ℚ := fun q => q

theorem centry_wf : EntryWF cfile centry 128 [7] [2] := by
  refine ⟨by norm_num, by simp, rfl, rfl, ?_⟩
  show BlocksRead "raw" cfile
    [{ offset := 0, doc_bytes := 4, freq_bytes := 4, last_docid := 7 }] 0
    (chunkList 128 [7]) (chunkList 128 [2])
  rw [chunkList_single, chunkList_single]
  exact ⟨by decide, by decide, trivial⟩

theorem mkCursor_concrete : mkCursor cfile centry = cst := by
  have hinv := mkCursor_spec centry_wf
  obtain ⟨hex, hbi, hj, hd, hf, hl⟩ := CursorInv_active hinv (by norm_num)
  have h07 : dchunk 128 [7] (0 / 128) = [7] := by
    rw [Nat.zero_div, dchunk, chunkList_single]
    rfl
  have h02 : dchunk 128 [2] (0 / 128) = [2] := by
    rw [Nat.zero_div, dchunk, chunkList_single]
    rfl
  rw [h07] at hd hl
  rw [h02] at hf
  rcases hms : mkCursor cfile centry with ⟨bi, bl, ds, fs, j, ex⟩
  rw [hms] at hex hbi hj hd hf hl
  have hex2 : ex = false := hex
  have hbi2 : bi = ((0 / 128 : Nat) : Int) := hbi
  have hj2 : j = 0 % 128 := hj
  have hd2 : ds = [7] := hd
  have hf2 : fs = [2] := hf
  have hl2 : bl = (([7].getLastD 0 : Nat) : Int) := hl
  subst hex2 hbi2 hj2 hd2 hf2 hl2
  decide

/-- Full evaluation of the counterexample instance: the zero-length docid
`7` comes back as the sole result, with score `0`. -/
theorem ranked_daat_concrete_eval :
    ranked_daat cfile mlogId ['a'] cLex cdls 10 (6/5) (3/4) false 4 = [(7, 0)] := by
  have h1 : ranked_daat cfile mlogId ['a'] cLex cdls 10 (6/5) (3/4) false 4
      = rd_stage2 cfile mlogId cLex cdls 10 (6/5) (3/4) false 4
          (List.mergeSort [['a']] (rd_le cLex)) := rfl
  rw [h1, List.mergeSort_singleton]
  have h3 : rd_stage2 cfile mlogId cLex cdls 10 (6/5) (3/4) false 4 [['a']]
      = rd_main cfile mlogId cdls 10 (6/5) (3/4) false 4
          [(['a'], centry, mkCursor cfile centry)] := rfl
  rw [h3, mkCursor_concrete]
  have h4 : rd_main cfile mlogId cdls 10 (6/5) (3/4) false 4 [(['a'], centry, cst)]
      = rd_finish (rd_loop cfile mlogId cdls 1 (rd_avgdl cdls) (6/5) (3/4) false 1 10
          [(['a'], 1)] 4 [(['a'], centry, cst)] [(7, 0)] [] []) := rfl
  rw [h4]
  have h5 : rd_loop cfile mlogId cdls 1 (rd_avgdl cdls) (6/5) (3/4) false 1 10
      [(['a'], 1)] 4 [(['a'], centry, cst)] [(7, 0)] [] [] = [((0 : ℚ), 7)] := rfl
  rw [h5]
  simp only [rd_finish]
  rw [List.mergeSort_singleton]
  rfl

/-- Counterexample to the original C5 sentence: docid `7` has no entry in
the doc-length table, yet `ranked_daat` returns it (with score `0`) — a
docid missing from `doc_lengths` is *not* dropped from the top-K results.
The instance: one term `"a"` whose postings file holds the single posting
`(7, 2)` (raw codec), `doc_lengths = [(5, 3)]`, query `"a"`, `topk = 10`,
OR mode, `k1 = 1.2`, `b = 0.75`. -/
theorem claim_C5_ranked_daat_counterexample :
    ranked_daat cfile mlogId ['a'] cLex cdls 10 (6/5) (3/4) false 4 = [(7, 0)] ∧
    cdls.lookup 7 = none :=
  ⟨ranked_daat_concrete_eval, rfl⟩

/-- Witness instantiating the amended C5 theorem on the counterexample
instance: the returned pair `(7, 0)` indeed carries score `0`. -/
theorem claim_C5_ranked_daat_witness :
    (7, (0 : ℚ)) ∈ ranked_daat cfile mlogId ['a'] cLex cdls 10 (6/5) (3/4) false 4 ∧
    (cdls.lookup 7).getD 0 = 0 ∧ (0 : ℚ) = 0 :=
  ⟨by rw [ranked_daat_concrete_eval]; exact List.mem_cons_self _ _, rfl,
    claim_C5_ranked_daat cfile mlogId ['a'] cLex cdls 10 (6/5) (3/4) false 4 7 0
      (by rw [ranked_daat_concrete_eval]; exact List.mem_cons_self _ _) rfl⟩

/-! ## C6: the crawler frontier priority heap (`HW1/crawl/crawler.py`).
`worker` pushes `(-total_priority, depth + 1, seq, child, tp)` 5-tuples
onto `frontier` and pops with `heapq.heappop`; Python compares tuples
lexicographically, so the pop order is the lexicographic order of that
tuple.  Float priorities are modelled in `ℚ`, urls as character lists. -/

/-- One frontier heap entry. -/
structure FrontierItem where
  negPrio : ℚ
  depth : Nat
  seq : Nat
  url : List Char
  prio : ℚ
deriving Repr, DecidableEq, Inhabited

/-- The heap comparison key: the pushed tuple, under lexicographic order. -/
def itemKey (i : FrontierItem) : ℚ ×ₗ (ℕ ×ₗ (ℕ ×ₗ ((List Char) ×ₗ ℚ))) :=
  toLex (i.negPrio, toLex (i.depth, toLex (i.seq, toLex (i.url, i.prio))))

/-- `heapq.heappop` on the frontier, modelled by its contract: extract the
`itemKey`-least entry (the key lists every field, so it determines the
item, and which of several equal copies is removed is immaterial). -/
def heapPop : List FrontierItem → Option (FrontierItem × List FrontierItem)
  | [] => none
  | x :: xs =>
    match heapPop xs with
    | none => some (x, [])
    | some (m, rest) =>
      if itemKey m < itemKey x then some (m, x :: rest) else some (x, xs)

/-- One push: `heapq.heappush(frontier, (-tp, depth + 1, seq, child, tp))`. -/
def push_child (tp : ℚ) (depth seq : Nat) (child : List Char) : FrontierItem :=
  { negPrio := -tp, depth := depth + 1, seq := seq, url := child, prio := tp }

/-- The child-enqueue loop of `worker`:
`to_enqueue.append((-tp, depth + 1, seq, child, tp)); seq += 1`. -/
def enqueue_children (depth : Nat) : Nat → List (ℚ × List Char) → List FrontierItem
  | _, [] => []
  | s, (tp, child) :: rest =>
    push_child tp depth s child :: enqueue_children depth (s + 1) rest

theorem heapPop_eq_none : ∀ {l : List FrontierItem}, heapPop l = none → l = [] := by
  intro l
  cases l with
  | nil => intro _; rfl
  | cons x xs =>
    intro h
    rw [heapPop] at h
    cases h2 : heapPop xs with
    | none =>
      rw [h2] at h
      exact Option.noConfusion h
    | some p =>
      obtain ⟨m2, rest2⟩ := p
      simp only [h2] at h
      by_cases hcond : itemKey m2 < itemKey x
      · rw [if_pos hcond] at h
        exact Option.noConfusion h
      · rw [if_neg hcond] at h
        exact Option.noConfusion h

/-- `heapPop` returns a member that is minimal for the full tuple order,
and the rest is a permutation of the remainder. -/
theorem heapPop_min : ∀ {l : List FrontierItem} {m : FrontierItem}
    {rest : List FrontierItem}, heapPop l = some (m, rest) →
    m ∈ l ∧ List.Perm l (m :: rest) ∧ ∀ x ∈ l, itemKey m ≤ itemKey x := by
  intro l
  induction l with
  | nil => intro m rest h; exact Option.noConfusion h
  | cons x xs ih =>
    intro m rest h
    rw [heapPop] at h
    cases h2 : heapPop xs with
    | none =>
      have hnil := heapPop_eq_none h2
      subst hnil
      rw [h2] at h
      simp only [Option.some.injEq, Prod.mk.injEq] at h
      obtain ⟨rfl, rfl⟩ := h
      refine ⟨List.mem_cons_self _ _, List.Perm.refl _, ?_⟩
      intro y hy
      rcases List.mem_cons.mp hy with rfl | hy2
      · exact le_refl _
      · simp at hy2
    | some p =>
      obtain ⟨m2, rest2⟩ := p
      simp only [h2] at h
      obtain ⟨hmem2, hperm2, hmin2⟩ := ih h2
      by_cases hcond : itemKey m2 < itemKey x
      · rw [if_pos hcond] at h
        simp only [Option.some.injEq, Prod.mk.injEq] at h
        obtain ⟨rfl, rfl⟩ := h
        refine ⟨List.mem_cons_of_mem _ hmem2,
          (List.Perm.cons x hperm2).trans (List.Perm.swap m2 x rest2), ?_⟩
        intro y hy
        rcases List.mem_cons.mp hy with rfl | hy2
        · exact le_of_lt hcond
        · exact hmin2 y hy2
      · rw [if_neg hcond] at h
        simp only [Option.some.injEq, Prod.mk.injEq] at h
        obtain ⟨rfl, rfl⟩ := h
        refine ⟨List.mem_cons_self _ _, List.Perm.refl _, ?_⟩
        intro y hy
        rcases List.mem_cons.mp hy with rfl | hy2
        · exact le_refl _
        · exact le_trans (not_lt.mp hcond) (hmin2 y hy2)

/-- Unfolding the lexicographic key order down to the `seq` component. -/
theorem itemKey_le_unfold {m x : FrontierItem} (h : itemKey m ≤ itemKey x) :
    m.negPrio < x.negPrio ∨ m.negPrio = x.negPrio ∧
      (m.depth < x.depth ∨ m.depth = x.depth ∧ m.seq ≤ x.seq) := by
  rcases (Prod.Lex.le_iff _ _).mp h with hlt | ⟨heq, htail⟩
  · exact Or.inl hlt
  · refine Or.inr ⟨heq, ?_⟩
    rcases (Prod.Lex.le_iff _ _).mp htail with hlt2 | ⟨heq2, htail2⟩
    · exact Or.inl hlt2
    · refine Or.inr ⟨heq2, ?_⟩
      rcases (Prod.Lex.le_iff _ _).mp htail2 with hlt3 | ⟨heq3, -⟩
      · exact le_of_lt hlt3
      · exact le_of_eq heq3

/-- Consecutive children enqueued by a worker carry consecutive `seq`s. -/
theorem enqueue_children_seqs (depth : Nat) :
    ∀ (cs : List (ℚ × List Char)) (s : Nat),
      (enqueue_children depth s cs).map FrontierItem.seq = List.range' s cs.length := by
  intro cs
  induction cs with
  | nil => intro s; rfl
  | cons c rest ih =>
    intro s
    obtain ⟨tp, child⟩ := c
    simp only [enqueue_children, List.map_cons, List.length_cons]
    rw [ih]
    rfl

/-- **C6 (amended).** `worker` pushes frontier entries as the tuple
`(-priority, depth, seq, url, priority)`, and `heapq` pops the
lexicographically least tuple.  So pops are by descending priority — but
among entries of equal priority the next tiebreaker is the crawl *depth*,
and the push sequence number decides only among entries of equal priority
*and* equal depth; FIFO-by-`seq` among equal priorities (the original
claim) fails when the depths differ.  The `seq` counter itself is
monotonically increasing at push time: a batch of enqueued children
carries consecutive ascending sequence numbers. -/
theorem claim_C6_frontier_order (heap : List FrontierItem) (m : FrontierItem)
    (rest : List FrontierItem) (depth s : Nat) (cs : List (ℚ × List Char))
    (h : heapPop heap = some (m, rest)) :
    m ∈ heap ∧ List.Perm heap (m :: rest) ∧
    (∀ x ∈ heap, m.negPrio ≤ x.negPrio) ∧
    (∀ x ∈ heap, m.negPrio = x.negPrio → m.depth ≤ x.depth) ∧
    (∀ x ∈ heap, m.negPrio = x.negPrio → m.depth = x.depth → m.seq ≤ x.seq) ∧
    (enqueue_children depth s cs).map FrontierItem.seq = List.range' s cs.length := by
  obtain ⟨hmem, hperm, hmin⟩ := heapPop_min h
  refine ⟨hmem, hperm, ?_, ?_, ?_, enqueue_children_seqs depth cs s⟩
  · intro x hx
    rcases itemKey_le_unfold (hmin x hx) with hlt | ⟨heq, -⟩
    · exact le_of_lt hlt
    · exact le_of_eq heq
  · intro x hx hp
    rcases itemKey_le_unfold (hmin x hx) with hlt | ⟨-, hlt2 | ⟨heq2, -⟩⟩
    · rw [hp] at hlt
      exact absurd hlt (lt_irrefl _)
    · exact le_of_lt hlt2
    · exact le_of_eq heq2
  · intro x hx hp hd
    rcases itemKey_le_unfold (hmin x hx) with hlt | ⟨-, hlt2 | ⟨-, hseq⟩⟩
    · rw [hp] at hlt
      exact absurd hlt (lt_irrefl _)
    · rw [hd] at hlt2
      exact absurd hlt2 (lt_irrefl _)
    · exact hseq

/-- Counterexample to FIFO-by-sequence among equal priorities: two entries
with equal priority `1`, the first pushed with `seq = 0` from a depth-1
page, a later one with `seq = 1` from a depth-0 page.  FIFO would pop
`seq = 0` first; the heap pops `seq = 1` first, because the pushed tuple
compares `depth` *before* `seq`. -/
theorem claim_C6_frontier_order_counterexample :
    heapPop [push_child 1 1 0 ['a'], push_child 1 0 1 ['b']]
        = some (push_child 1 0 1 ['b'], [push_child 1 1 0 ['a']]) ∧
    (push_child 1 1 0 ['a']).negPrio = (push_child 1 0 1 ['b']).negPrio ∧
    (push_child 1 1 0 ['a']).seq < (push_child 1 0 1 ['b']).seq :=
  ⟨by decide, rfl, by decide⟩

/-- Witness: the amended C6 theorem at a singleton frontier and a
two-child enqueue batch. -/
theorem claim_C6_frontier_order_witness :
    push_child 1 0 0 ['b'] ∈ [push_child 1 0 0 ['b']] ∧
    List.Perm [push_child 1 0 0 ['b']] (push_child 1 0 0 ['b'] :: []) ∧
    (∀ x ∈ [push_child 1 0 0 ['b']],
      (push_child 1 0 0 ['b']).negPrio ≤ x.negPrio) ∧
    (∀ x ∈ [push_child 1 0 0 ['b']],
      (push_child 1 0 0 ['b']).negPrio = x.negPrio →
      (push_child 1 0 0 ['b']).depth ≤ x.depth) ∧
    (∀ x ∈ [push_child 1 0 0 ['b']],
      (push_child 1 0 0 ['b']).negPrio = x.negPrio →
      (push_child 1 0 0 ['b']).depth = x.depth →
      (push_child 1 0 0 ['b']).seq ≤ x.seq) ∧
    (enqueue_children 0 5 [(1, ['a']), (2, ['b'])]).map FrontierItem.seq
      = List.range' 5 2 :=
  claim_C6_frontier_order [push_child 1 0 0 ['b']] (push_child 1 0 0 ['b']) [] 0 5
    [(1, ['a']), (2, ['b'])] rfl

end SearchEngine
